import Mathlib

/-!
Verification of the synchronization core of the Balanced-Team-Pie client:
the diff-match-patch text engine, the jsondiff structural diff / patch /
operational-transform layer, and the simperium per-bucket sync client.

Modelling conventions, used consistently below:

* A JavaScript string is a sequence of UTF-16 code units; we model it as
  `List Nat`.  All positions are code-unit offsets, as in the source.
  (`String.fromCharCode` in JS truncates its argument to 16 bits; the one
  place that matters, `diff_linesToChars_`, is noted at its definition.)
* JavaScript numbers are modelled as `Int` where the source only computes
  integer values (lengths, indices, counters, versions).  The bitap score
  arithmetic, which is genuinely fractional, is modelled with `Rat`.
* Wall-clock deadlines (`Diff_Timeout`) are modelled by a fuel parameter:
  when the fuel runs out, `diff_main` degrades to the same coarse
  delete-everything/insert-everything answer the source produces when its
  deadline expires inside `diff_bisect_`.  Theorems quantify over the fuel.
* Imperative in-place array loops are translated to structurally recursive
  functions over lists; loops whose termination is not structural carry a
  fuel argument sized so that exhaustion is unreachable, and the bail-out
  value is the current state of the loop.
* `throw` in the source becomes `Except JsExn`; JS `undefined` appearing as
  a data value is modelled by `Option` (or a dedicated constructor where it
  can be stored in a structure, see `JOp.undef`).
-/

set_option maxRecDepth 10000

namespace BTP

/-- A JavaScript string: a list of UTF-16 code units. -/
abbrev Str := List Nat

/-- Code units of a Lean string literal (all our concrete examples are ASCII
or explicitly listed code units). -/
def strU (s : String) : Str := s.data.map Char.toNat

/-- Clamp an index into `[0, length s]`, as JS `substring` does. -/
def clampIdx (s : Str) (a : Int) : Nat := (min (max a 0) (s.length : Int)).toNat

/-- JS `String.prototype.substring(a, b)`: both indices are clamped into
`[0, length]` and swapped when out of order. -/
def jsSubstring (s : Str) (a b : Int) : Str :=
  let a' := clampIdx s a
  let b' := clampIdx s b
  let lo := min a' b'
  let hi := max a' b'
  (s.drop lo).take (hi - lo)

/-- JS `String.prototype.substring(a)` (one-argument form). -/
def jsSubstringFrom (s : Str) (a : Int) : Str := jsSubstring s a s.length

/-- JS `String.prototype.charAt(i)`: the one-character string at `i`, or the
empty string when out of range. -/
def jsCharAt (s : Str) (i : Int) : Str :=
  if i < 0 then [] else (s.drop i.toNat).take 1

/-- Does `pat` occur in `s` starting at (nonnegative) position `i`? -/
def occursAt (s pat : Str) (i : Nat) : Bool :=
  (s.drop i).take pat.length = pat

/-- JS `String.prototype.indexOf(pat, from)`; `-1` when absent. -/
def jsIndexOfFrom (s pat : Str) (start : Int) : Int :=
  let start' := clampIdx s start
  match (List.range (s.length + 1)).find? (fun i => start' ≤ i && occursAt s pat i) with
  | some i => (i : Int)
  | none => -1

/-- JS `String.prototype.indexOf(pat)`. -/
def jsIndexOf (s pat : Str) : Int := jsIndexOfFrom s pat 0

/-- JS `String.prototype.lastIndexOf(pat, from)`: the largest `i ≤ from`
(after clamping `from` into `[0, length]`) where `pat` occurs; `-1` when
there is none. -/
def jsLastIndexOf (s pat : Str) (start : Int) : Int :=
  let start' := clampIdx s start
  match (List.range (s.length + 1)).reverse.find? (fun i => i ≤ start' && occursAt s pat i) with
  | some i => (i : Int)
  | none => -1

theorem clampIdx_le (s : Str) (a : Int) : clampIdx s a ≤ s.length := by
  unfold clampIdx; omega

theorem clampIdx_zero (s : Str) : clampIdx s 0 = 0 := by
  unfold clampIdx; omega

theorem clampIdx_len (s : Str) : clampIdx s s.length = s.length := by
  unfold clampIdx; omega

theorem jsSubstring_eq_take (s : Str) (x : Int) :
    jsSubstring s 0 x = s.take (clampIdx s x) := by
  unfold jsSubstring
  rw [clampIdx_zero]
  simp

theorem jsSubstringFrom_eq_drop (s : Str) (x : Int) :
    jsSubstringFrom s x = s.drop (clampIdx s x) := by
  unfold jsSubstringFrom jsSubstring
  rw [clampIdx_len]
  have h := clampIdx_le s x
  have h1 : min (clampIdx s x) s.length = clampIdx s x := by omega
  have h2 : max (clampIdx s x) s.length = s.length := by omega
  simp only [h1, h2]
  exact List.take_of_length_le (by simp)

/-- Splitting a string at any (even out-of-range) index reassembles it. -/
theorem jsSubstring_split (s : Str) (x : Int) :
    jsSubstring s 0 x ++ jsSubstringFrom s x = s := by
  rw [jsSubstring_eq_take, jsSubstringFrom_eq_drop, List.take_append_drop]

theorem jsSubstring_all (s : Str) : jsSubstringFrom s 0 = s := by
  rw [jsSubstringFrom_eq_drop, clampIdx_zero, List.drop_zero]

/-- Soundness of `jsIndexOfFrom`: a nonnegative result marks an occurrence. -/
theorem jsIndexOfFrom_sound (s pat : Str) (start : Int) (i : Nat)
    (h : jsIndexOfFrom s pat start = (i : Int)) : occursAt s pat i = true := by
  unfold jsIndexOfFrom at h
  simp only at h
  rcases hf : (List.range (s.length + 1)).find? (fun j => decide (clampIdx s start ≤ j) && occursAt s pat j) with _ | ⟨j⟩
  · simp only [hf] at h; omega
  · simp only [hf] at h
    have hj : j = i := by omega
    have := List.find?_some hf
    rw [hj] at this
    exact (Bool.and_eq_true _ _).mp this |>.2

/-! ## Diff tuples (diff_match_patch)

The data structure representing a diff is an array of tuples
`[DIFF_DELETE, 'Hello'], [DIFF_INSERT, 'Goodbye'], [DIFF_EQUAL, ' world.']`;
we tag the numeric codes `-1 / 1 / 0` with a three-constructor type. -/

inductive Dop where
  | delete
  | insert
  | equal
deriving DecidableEq, Repr

/-- One diff tuple `(op, text)`. -/
abbrev Diff := Dop × Str

/-- `diff_text1`: source text, the concatenation of all tuples that are not
insertions (in array order). -/
def diff_text1 : List Diff → Str
  | [] => []
  | d :: rest => (if d.1 = Dop.insert then [] else d.2) ++ diff_text1 rest

/-- `diff_text2`: destination text, the concatenation of all tuples that are
not deletions (in array order). -/
def diff_text2 : List Diff → Str
  | [] => []
  | d :: rest => (if d.1 = Dop.delete then [] else d.2) ++ diff_text2 rest

theorem diff_text1_append (a b : List Diff) :
    diff_text1 (a ++ b) = diff_text1 a ++ diff_text1 b := by
  induction a with
  | nil => simp [diff_text1]
  | cons d rest ih => simp [diff_text1, ih]

theorem diff_text2_append (a b : List Diff) :
    diff_text2 (a ++ b) = diff_text2 a ++ diff_text2 b := by
  induction a with
  | nil => simp [diff_text2]
  | cons d rest ih => simp [diff_text2, ih]

/-! ### diff_commonPrefix / diff_commonSuffix

The source finds the longest common prefix/suffix by a halving binary
search.  We translate the loops with a fuel argument that strictly exceeds
the initial search gap, so exhaustion is unreachable; the bail-out value
`pointermin` is the value the search would converge to from that state
whenever the remaining window is already decided. -/

/-- Binary-search loop of `diff_commonPrefix`.  State: `pointermin`,
`pointermax`, `pointermid`, `pointerstart`. -/
def cpLoop (t1 t2 : Str) : Nat → Nat → Nat → Nat → Nat → Nat
  | 0, pmin, _, _, _ => pmin
  | fuel + 1, pmin, pmax, pmid, pstart =>
    if pmin < pmid then
      if jsSubstring t1 pstart pmid = jsSubstring t2 pstart pmid then
        cpLoop t1 t2 fuel pmid pmax ((pmax - pmid) / 2 + pmid) pmid
      else
        cpLoop t1 t2 fuel pmin pmid ((pmid - pmin) / 2 + pmin) pstart
    else pmid

/-- `diff_commonPrefix(text1, text2)`: length of the common prefix. -/
def diff_commonPrefixLen (t1 t2 : Str) : Nat :=
  if t1 = [] ∨ t2 = [] ∨ jsCharAt t1 0 ≠ jsCharAt t2 0 then 0
  else
    let pmax := min t1.length t2.length
    cpLoop t1 t2 (pmax + 2) 0 pmax pmax 0

/-- Binary-search loop of `diff_commonSuffix`.  State: `pointermin`,
`pointermax`, `pointermid`, `pointerend`. -/
def csLoop (t1 t2 : Str) : Nat → Nat → Nat → Nat → Nat → Nat
  | 0, pmin, _, _, _ => pmin
  | fuel + 1, pmin, pmax, pmid, pend =>
    if pmin < pmid then
      if jsSubstring t1 ((t1.length : Int) - pmid) ((t1.length : Int) - pend)
          = jsSubstring t2 ((t2.length : Int) - pmid) ((t2.length : Int) - pend) then
        csLoop t1 t2 fuel pmid pmax ((pmax - pmid) / 2 + pmid) pmid
      else
        csLoop t1 t2 fuel pmin pmid ((pmid - pmin) / 2 + pmin) pend
    else pmid

/-- `diff_commonSuffix(text1, text2)`: length of the common suffix. -/
def diff_commonSuffixLen (t1 t2 : Str) : Nat :=
  if t1 = [] ∨ t2 = [] ∨ jsCharAt t1 (t1.length - 1) ≠ jsCharAt t2 (t2.length - 1) then 0
  else
    let pmax := min t1.length t2.length
    csLoop t1 t2 (pmax + 2) 0 pmax pmax 0

/-- In-range `jsSubstring` is plain take-after-drop. -/
theorem jsSubstring_natural (s : Str) (a b : Nat) (hab : a ≤ b) (hb : b ≤ s.length) :
    jsSubstring s a b = (s.drop a).take (b - a) := by
  unfold jsSubstring clampIdx
  have ha' : (min (max (a : Int) 0) (s.length : Int)).toNat = a := by omega
  have hb' : (min (max (b : Int) 0) (s.length : Int)).toNat = b := by omega
  rw [ha', hb']
  have h1 : min a b = a := by omega
  have h2 : max a b = b := by omega
  simp only [h1, h2]

theorem take_eq_extend (t1 t2 : Str) (m k : Nat) (hmk : m ≤ k)
    (hk1 : k ≤ t1.length) (hk2 : k ≤ t2.length)
    (hpre : t1.take m = t2.take m)
    (hseg : (t1.drop m).take (k - m) = (t2.drop m).take (k - m)) :
    t1.take k = t2.take k := by
  have e1 : t1.take k = t1.take m ++ (t1.drop m).take (k - m) := by
    rw [← List.take_add]; congr 1; omega
  have e2 : t2.take k = t2.take m ++ (t2.drop m).take (k - m) := by
    rw [← List.take_add]; congr 1; omega
  rw [e1, e2, hpre, hseg]

/-- Soundness of the prefix binary search: whatever it returns is a length at
which the two strings agree. -/
theorem cpLoop_sound (t1 t2 : Str) (fuel pmin pmax pmid pstart : Nat)
    (hinv : t1.take pmin = t2.take pmin)
    (hstart : pstart = pmin)
    (hord : pmin ≤ pmid ∧ pmid ≤ pmax ∧ pmax ≤ t1.length ∧ pmax ≤ t2.length) :
    t1.take (cpLoop t1 t2 fuel pmin pmax pmid pstart)
      = t2.take (cpLoop t1 t2 fuel pmin pmax pmid pstart) := by
  induction fuel generalizing pmin pmax pmid pstart with
  | zero => simpa [cpLoop] using hinv
  | succ fuel ih =>
    unfold cpLoop
    by_cases hlt : pmin < pmid
    · rw [if_pos hlt]
      by_cases heq : jsSubstring t1 pstart pmid = jsSubstring t2 pstart pmid
      · rw [if_pos heq]
        refine ih pmid pmax _ pmid ?_ rfl ⟨?_, ?_, hord.2.2.1, hord.2.2.2⟩
        · rw [hstart] at heq
          refine take_eq_extend t1 t2 pmin pmid (by omega) (by omega) (by omega) hinv ?_
          rw [jsSubstring_natural t1 pmin pmid (by omega) (by omega),
              jsSubstring_natural t2 pmin pmid (by omega) (by omega)] at heq
          exact heq
        · omega
        · omega
      · rw [if_neg heq]
        exact ih pmin pmid _ pstart hinv hstart ⟨by omega, by omega, by omega, by omega⟩
    · rw [if_neg hlt]
      have : pmid = pmin := by omega
      rw [this]; exact hinv

theorem diff_commonPrefixLen_sound (t1 t2 : Str) :
    t1.take (diff_commonPrefixLen t1 t2) = t2.take (diff_commonPrefixLen t1 t2) := by
  unfold diff_commonPrefixLen
  by_cases h : t1 = [] ∨ t2 = [] ∨ jsCharAt t1 0 ≠ jsCharAt t2 0
  · rw [if_pos h]; simp
  · rw [if_neg h]
    exact cpLoop_sound t1 t2 _ 0 _ _ 0 (by simp) rfl ⟨by omega, by omega, by omega, by omega⟩

theorem cpLoop_le (t1 t2 : Str) (fuel pmin pmax pmid pstart : Nat)
    (hord : pmin ≤ pmid ∧ pmid ≤ pmax) :
    cpLoop t1 t2 fuel pmin pmax pmid pstart ≤ pmax := by
  induction fuel generalizing pmin pmax pmid pstart with
  | zero => simp [cpLoop]; omega
  | succ fuel ih =>
    unfold cpLoop
    by_cases hlt : pmin < pmid
    · rw [if_pos hlt]
      by_cases heq : jsSubstring t1 pstart pmid = jsSubstring t2 pstart pmid
      · rw [if_pos heq]; exact ih pmid pmax _ pmid ⟨by omega, by omega⟩
      · rw [if_neg heq]
        exact le_trans (ih pmin pmid _ pstart ⟨by omega, by omega⟩) (by omega)
    · rw [if_neg hlt]; omega

theorem diff_commonPrefixLen_le (t1 t2 : Str) :
    diff_commonPrefixLen t1 t2 ≤ min t1.length t2.length := by
  unfold diff_commonPrefixLen
  by_cases h : t1 = [] ∨ t2 = [] ∨ jsCharAt t1 0 ≠ jsCharAt t2 0
  · rw [if_pos h]; omega
  · rw [if_neg h]
    exact cpLoop_le t1 t2 _ 0 _ _ 0 ⟨by omega, by omega⟩

/-- Soundness of the suffix binary search: the returned length is a common
suffix length (stated with `drop`). -/
theorem csLoop_sound (t1 t2 : Str) (fuel pmin pmax pmid pend : Nat)
    (hinv : t1.drop (t1.length - pmin) = t2.drop (t2.length - pmin))
    (hend : pend = pmin)
    (hord : pmin ≤ pmid ∧ pmid ≤ pmax ∧ pmax ≤ t1.length ∧ pmax ≤ t2.length) :
    t1.drop (t1.length - csLoop t1 t2 fuel pmin pmax pmid pend)
      = t2.drop (t2.length - csLoop t1 t2 fuel pmin pmax pmid pend) := by
  induction fuel generalizing pmin pmax pmid pend with
  | zero => simpa [csLoop] using hinv
  | succ fuel ih =>
    unfold csLoop
    by_cases hlt : pmin < pmid
    · rw [if_pos hlt]
      by_cases heq : jsSubstring t1 ((t1.length : Int) - pmid) ((t1.length : Int) - pend)
          = jsSubstring t2 ((t2.length : Int) - pmid) ((t2.length : Int) - pend)
      · rw [if_pos heq]
        refine ih pmid pmax _ pmid ?_ rfl ⟨by omega, by omega, by omega, by omega⟩
        rw [hend] at heq
        have l1cast : ((t1.length : Int) - (pmid : Int)) = ((t1.length - pmid : Nat) : Int) := by omega
        have l1cast2 : ((t1.length : Int) - (pmin : Int)) = ((t1.length - pmin : Nat) : Int) := by omega
        have l2cast : ((t2.length : Int) - (pmid : Int)) = ((t2.length - pmid : Nat) : Int) := by omega
        have l2cast2 : ((t2.length : Int) - (pmin : Int)) = ((t2.length - pmin : Nat) : Int) := by omega
        rw [l1cast, l1cast2, l2cast, l2cast2,
            jsSubstring_natural t1 (t1.length - pmid) (t1.length - pmin) (by omega) (by omega),
            jsSubstring_natural t2 (t2.length - pmid) (t2.length - pmin) (by omega) (by omega)] at heq
        have e1 : t1.drop (t1.length - pmid)
            = (t1.drop (t1.length - pmid)).take ((t1.length - pmin) - (t1.length - pmid))
              ++ t1.drop (t1.length - pmin) := by
          conv_lhs => rw [← List.take_append_drop ((t1.length - pmin) - (t1.length - pmid)) (t1.drop (t1.length - pmid))]
          rw [List.drop_drop]
          congr 2
          omega
        have e2 : t2.drop (t2.length - pmid)
            = (t2.drop (t2.length - pmid)).take ((t2.length - pmin) - (t2.length - pmid))
              ++ t2.drop (t2.length - pmin) := by
          conv_lhs => rw [← List.take_append_drop ((t2.length - pmin) - (t2.length - pmid)) (t2.drop (t2.length - pmid))]
          rw [List.drop_drop]
          congr 2
          omega
        rw [e1, e2, heq, hinv]
      · rw [if_neg heq]
        exact ih pmin pmid _ pend hinv hend ⟨by omega, by omega, by omega, by omega⟩
    · rw [if_neg hlt]
      have : pmid = pmin := by omega
      rw [this]; exact hinv

theorem csLoop_le (t1 t2 : Str) (fuel pmin pmax pmid pend : Nat)
    (hord : pmin ≤ pmid ∧ pmid ≤ pmax) :
    csLoop t1 t2 fuel pmin pmax pmid pend ≤ pmax := by
  induction fuel generalizing pmin pmax pmid pend with
  | zero => simp [csLoop]; omega
  | succ fuel ih =>
    unfold csLoop
    by_cases hlt : pmin < pmid
    · rw [if_pos hlt]
      by_cases heq : jsSubstring t1 ((t1.length : Int) - pmid) ((t1.length : Int) - pend)
          = jsSubstring t2 ((t2.length : Int) - pmid) ((t2.length : Int) - pend)
      · rw [if_pos heq]; exact ih pmid pmax _ pmid ⟨by omega, by omega⟩
      · rw [if_neg heq]
        exact le_trans (ih pmin pmid _ pend ⟨by omega, by omega⟩) (by omega)
    · rw [if_neg hlt]; omega

theorem diff_commonSuffixLen_sound (t1 t2 : Str) :
    t1.drop (t1.length - diff_commonSuffixLen t1 t2)
      = t2.drop (t2.length - diff_commonSuffixLen t1 t2) := by
  unfold diff_commonSuffixLen
  by_cases h : t1 = [] ∨ t2 = [] ∨ jsCharAt t1 (t1.length - 1) ≠ jsCharAt t2 (t2.length - 1)
  · rw [if_pos h]; simp
  · rw [if_neg h]
    exact csLoop_sound t1 t2 _ 0 _ _ 0 (by simp) rfl ⟨by omega, by omega, by omega, by omega⟩

theorem diff_commonSuffixLen_le (t1 t2 : Str) :
    diff_commonSuffixLen t1 t2 ≤ min t1.length t2.length := by
  unfold diff_commonSuffixLen
  by_cases h : t1 = [] ∨ t2 = [] ∨ jsCharAt t1 (t1.length - 1) ≠ jsCharAt t2 (t2.length - 1)
  · rw [if_pos h]; omega
  · rw [if_neg h]
    exact csLoop_le t1 t2 _ 0 _ _ 0 ⟨by omega, by omega⟩

/-! ### Tunable constants -/

/-- The tunable constants of `diff_match_patch` (its constructor defaults).
Fractional ones are modelled with `Rat`. -/
structure DmpSettings where
  Diff_Timeout : Rat := 1
  Diff_EditCost : Nat := 4
  Match_Threshold : Rat := 1/2
  Match_Distance : Nat := 1000
  Patch_DeleteThreshold : Rat := 1/2
  Patch_Margin : Nat := 4
  Match_MaxBits : Nat := 32

/-- Default settings, as set up by the `diff_match_patch` constructor. -/
def dmpDefault : DmpSettings := {}

/-! ### diff_commonOverlap_ -/

/-- The search loop of `diff_commonOverlap_` over the (already truncated)
strings; `tl` is their common length.  The loop variable `length` strictly
increases each iteration, so the fuel `tl + 3` is never exhausted. -/
def coLoop (t1 t2 : Str) (tl : Nat) : Nat → Nat → Nat → Nat
  | 0, best, _ => best
  | fuel + 1, best, length =>
    let pattern := jsSubstringFrom t1 ((tl : Int) - length)
    let found := jsIndexOf t2 pattern
    if found = -1 then best
    else
      let length' := length + found.toNat
      if found = 0 ∨ jsSubstringFrom t1 ((tl : Int) - length') = jsSubstring t2 0 length' then
        coLoop t1 t2 tl fuel length' (length' + 1)
      else
        coLoop t1 t2 tl fuel best length'

/-- `diff_commonOverlap_(text1, text2)`: the longest suffix of `text1` that
is a prefix of `text2` (found incrementally via `indexOf`). -/
def diff_commonOverlapLen (text1 text2 : Str) : Nat :=
  let l1 := text1.length
  let l2 := text2.length
  if l1 = 0 ∨ l2 = 0 then 0
  else
    let t1 := if l1 > l2 then jsSubstringFrom text1 ((l1 : Int) - l2) else text1
    let t2 := if l1 < l2 then jsSubstring text2 0 l1 else text2
    let tl := min l1 l2
    if t1 = t2 then tl
    else coLoop t1 t2 tl (tl + 3) 0 1

/-! ### diff_halfMatch_ -/

/-- Candidate produced while scanning for a half match (the `best_*`
variables of `diff_halfMatchI_`). -/
structure HmBest where
  common : Str
  la : Str
  lb : Str
  sa : Str
  sb : Str
deriving DecidableEq, Repr

/-- The `while ((j = shorttext.indexOf(seed, j + 1)) != -1)` loop of
`diff_halfMatchI_`.  `j` strictly increases, so fuel `|shorttext| + 2`
is never exhausted. -/
def hmILoop (lt st seed : Str) (i : Nat) : Nat → Int → HmBest → HmBest
  | 0, _, best => best
  | fuel + 1, j, best =>
    let j' := jsIndexOfFrom st seed (j + 1)
    if j' = -1 then best
    else
      let prefixLength := diff_commonPrefixLen (jsSubstringFrom lt i) (jsSubstringFrom st j')
      let suffixLength := diff_commonSuffixLen (jsSubstring lt 0 i) (jsSubstring st 0 j')
      let best' :=
        if best.common.length < suffixLength + prefixLength then
          { common := jsSubstring st (j' - suffixLength) j'
                        ++ jsSubstring st j' (j' + prefixLength)
            la := jsSubstring lt 0 ((i : Int) - suffixLength)
            lb := jsSubstringFrom lt ((i : Int) + prefixLength)
            sa := jsSubstring st 0 (j' - suffixLength)
            sb := jsSubstringFrom st (j' + prefixLength) }
        else best
      hmILoop lt st seed i fuel j' best'

/-- `diff_halfMatchI_(longtext, shorttext, i)`: seed a quarter-length
substring at `i` and look for a shared span at least half of `longtext`. -/
def diff_halfMatchI (lt st : Str) (i : Nat) : Option HmBest :=
  let seed := jsSubstring lt i ((i : Int) + lt.length / 4)
  let b := hmILoop lt st seed i (st.length + 2) (-1) ⟨[], [], [], [], []⟩
  if b.common.length * 2 ≥ lt.length then some b else none

/-- `diff_halfMatch_(text1, text2)`: five-element result
`(text1_a, text1_b, text2_a, text2_b, mid_common)`, or `none`. -/
def diff_halfMatch_ (s : DmpSettings) (t1 t2 : Str) :
    Option (Str × Str × Str × Str × Str) :=
  if s.Diff_Timeout ≤ 0 then none
  else
    let lt := if t1.length > t2.length then t1 else t2
    let st := if t1.length > t2.length then t2 else t1
    if lt.length < 4 ∨ st.length * 2 < lt.length then none
    else
      let hm1 := diff_halfMatchI lt st ((lt.length + 3) / 4)
      let hm2 := diff_halfMatchI lt st ((lt.length + 1) / 2)
      let hm :=
        match hm1, hm2 with
        | none, none => none
        | some h1, none => some h1
        | none, some h2 => some h2
        | some h1, some h2 => some (if h1.common.length > h2.common.length then h1 else h2)
      match hm with
      | none => none
      | some h =>
        if t1.length > t2.length then some (h.la, h.lb, h.sa, h.sb, h.common)
        else some (h.sa, h.sb, h.la, h.lb, h.common)

theorem jsIndexOfFrom_le (s pat : Str) (start : Int) (i : Nat)
    (h : jsIndexOfFrom s pat start = (i : Int)) : i ≤ s.length := by
  unfold jsIndexOfFrom at h
  simp only at h
  rcases hf : (List.range (s.length + 1)).find? (fun j => decide (clampIdx s start ≤ j) && occursAt s pat j) with _ | ⟨j⟩
  · simp only [hf] at h; omega
  · simp only [hf] at h
    have hj : j = i := by omega
    have hmem := List.mem_of_find?_eq_some hf
    rw [List.mem_range] at hmem
    omega

/-- Split a list into four blocks at ascending cut points. -/
theorem decomp3 (s : Str) (a b c : Nat) (hab : a ≤ b) (hbc : b ≤ c) :
    s = s.take a ++ (s.drop a).take (b - a) ++ ((s.drop b).take (c - b) ++ s.drop c) := by
  have h1 : s.take a ++ (s.drop a).take (b - a) = s.take b := by
    rw [← List.take_add]; congr 1; omega
  have h2 : (s.drop b).take (c - b) ++ s.drop c = s.drop b := by
    have : s.drop c = (s.drop b).drop (c - b) := by
      rw [List.drop_drop]; congr 1; omega
    rw [this, List.take_append_drop]
  calc s = s.take b ++ s.drop b := (List.take_append_drop b s).symm
  _ = (s.take a ++ (s.drop a).take (b - a)) ++ ((s.drop b).take (c - b) ++ s.drop c) := by
      rw [h1, h2]

/-- `jsIndexOfFrom` is `-1` or an in-range natural number. -/
theorem jsIndexOfFrom_neg_or (s pat : Str) (start : Int) :
    jsIndexOfFrom s pat start = -1 ∨
      ∃ k : Nat, jsIndexOfFrom s pat start = (k : Int) ∧ k ≤ s.length := by
  unfold jsIndexOfFrom
  simp only
  rcases hf : (List.range (s.length + 1)).find?
      (fun j => decide (clampIdx s start ≤ j) && occursAt s pat j) with _ | ⟨k⟩
  · exact Or.inl rfl
  · refine Or.inr ⟨k, rfl, ?_⟩
    have hmem := List.mem_of_find?_eq_some hf
    rw [List.mem_range] at hmem
    omega

/-- The invariant carried by the half-match scan: an untouched candidate, or
a genuine decomposition of both strings. -/
def HmOk (lt st : Str) (b : HmBest) : Prop :=
  b.common = [] ∨ (lt = b.la ++ b.common ++ b.lb ∧ st = b.sa ++ b.common ++ b.sb)

theorem hmILoop_ok (lt st seed : Str) (i : Nat) (hi : i ≤ lt.length)
    (fuel : Nat) (j : Int) (best : HmBest) (hbest : HmOk lt st best) :
    HmOk lt st (hmILoop lt st seed i fuel j best) := by
  induction fuel generalizing j best with
  | zero => simpa [hmILoop] using hbest
  | succ fuel ih =>
    unfold hmILoop
    by_cases hj : jsIndexOfFrom st seed (j + 1) = -1
    · rw [if_pos hj]; exact hbest
    · rw [if_neg hj]
      refine ih _ _ ?_
      by_cases hupd : best.common.length
          < diff_commonSuffixLen (jsSubstring lt 0 i) (jsSubstring st 0 (jsIndexOfFrom st seed (j + 1)))
            + diff_commonPrefixLen (jsSubstringFrom lt i) (jsSubstringFrom st (jsIndexOfFrom st seed (j + 1)))
      · rw [if_pos hupd]
        -- the freshly written candidate really decomposes both strings
        rcases jsIndexOfFrom_neg_or st seed (j + 1) with hneg | ⟨jn, hjn, hjle⟩
        · exact absurd hneg hj
        rw [hjn] at hupd ⊢
        obtain ⟨pre, hpredef⟩ : ∃ p, diff_commonPrefixLen (jsSubstringFrom lt i) (jsSubstringFrom st (jn : Int)) = p := ⟨_, rfl⟩
        obtain ⟨suf, hsufdef⟩ : ∃ p, diff_commonSuffixLen (jsSubstring lt 0 i) (jsSubstring st 0 (jn : Int)) = p := ⟨_, rfl⟩
        rw [hpredef, hsufdef] at hupd ⊢
        have hlt_take : jsSubstring lt 0 (i : Int) = lt.take i := by
          rw [jsSubstring_eq_take]; congr 1; unfold clampIdx; omega
        have hst_take : jsSubstring st 0 (jn : Int) = st.take jn := by
          rw [jsSubstring_eq_take]; congr 1; unfold clampIdx; omega
        have hlt_drop : jsSubstringFrom lt (i : Int) = lt.drop i := by
          rw [jsSubstringFrom_eq_drop]; congr 1; unfold clampIdx; omega
        have hst_drop : jsSubstringFrom st (jn : Int) = st.drop jn := by
          rw [jsSubstringFrom_eq_drop]; congr 1; unfold clampIdx; omega
        have hsuf_le : suf ≤ min i jn := by
          have h0 := diff_commonSuffixLen_le (jsSubstring lt 0 (i : Int)) (jsSubstring st 0 (jn : Int))
          rw [hsufdef, hlt_take, hst_take] at h0
          simp only [List.length_take] at h0
          omega
        have hpre_le : pre ≤ min (lt.length - i) (st.length - jn) := by
          have h0 := diff_commonPrefixLen_le (jsSubstringFrom lt (i : Int)) (jsSubstringFrom st (jn : Int))
          rw [hpredef, hlt_drop, hst_drop] at h0
          simp only [List.length_drop] at h0
          omega
        have hsuf_sound := diff_commonSuffixLen_sound (jsSubstring lt 0 (i : Int)) (jsSubstring st 0 (jn : Int))
        rw [hsufdef, hlt_take, hst_take] at hsuf_sound
        have hsufseg : (lt.drop (i - suf)).take suf = (st.drop (jn - suf)).take suf := by
          have e1 : (lt.take i).drop ((lt.take i).length - suf) = (lt.drop (i - suf)).take suf := by
            have hl1 : (lt.take i).length = i := by simp; omega
            rw [hl1, List.drop_take]; congr 1; omega
          have e2 : (st.take jn).drop ((st.take jn).length - suf) = (st.drop (jn - suf)).take suf := by
            have hl2 : (st.take jn).length = jn := by simp; omega
            rw [hl2, List.drop_take]; congr 1; omega
          rw [← e1, ← e2, hsuf_sound]
        have hpre_sound := diff_commonPrefixLen_sound (jsSubstringFrom lt (i : Int)) (jsSubstringFrom st (jn : Int))
        rw [hpredef, hlt_drop, hst_drop] at hpre_sound
        right
        constructor
        · -- longtext side
          have hcast1 : ((i : Int) - (suf : Int)) = ((i - suf : Nat) : Int) := by omega
          have hcast2 : ((i : Int) + (pre : Int)) = ((i + pre : Nat) : Int) := by omega
          have hla : jsSubstring lt 0 ((i : Int) - suf) = lt.take (i - suf) := by
            rw [hcast1, jsSubstring_eq_take]; congr 1; unfold clampIdx; omega
          have hlb : jsSubstringFrom lt ((i : Int) + pre) = lt.drop (i + pre) := by
            rw [hcast2, jsSubstringFrom_eq_drop]; congr 1; unfold clampIdx; omega
          have hcomm1 : jsSubstring st ((jn : Int) - suf) (jn : Int) = (st.drop (jn - suf)).take suf := by
            have hc : ((jn : Int) - (suf : Int)) = ((jn - suf : Nat) : Int) := by omega
            rw [hc, jsSubstring_natural st (jn - suf) jn (by omega) (by omega)]
            congr 1; omega
          have hcomm2 : jsSubstring st (jn : Int) ((jn : Int) + pre) = (st.drop jn).take pre := by
            have hc : ((jn : Int) + (pre : Int)) = ((jn + pre : Nat) : Int) := by omega
            rw [hc, jsSubstring_natural st jn (jn + pre) (by omega) (by omega)]
            congr 1; omega
          simp only [hla, hlb, hcomm1, hcomm2]
          rw [← hsufseg, ← hpre_sound]
          have hd := decomp3 lt (i - suf) i (i + pre) (by omega) (by omega)
          have e1 : i - (i - suf) = suf := by omega
          have e2 : (i + pre) - i = pre := by omega
          rw [e1, e2] at hd
          simp only [List.append_assoc] at hd ⊢
          exact hd
        · -- shorttext side
          have hsa : jsSubstring st 0 ((jn : Int) - suf) = st.take (jn - suf) := by
            have hc : ((jn : Int) - (suf : Int)) = ((jn - suf : Nat) : Int) := by omega
            rw [hc, jsSubstring_eq_take]; congr 1; unfold clampIdx; omega
          have hsb : jsSubstringFrom st ((jn : Int) + pre) = st.drop (jn + pre) := by
            have hc : ((jn : Int) + (pre : Int)) = ((jn + pre : Nat) : Int) := by omega
            rw [hc, jsSubstringFrom_eq_drop]; congr 1; unfold clampIdx; omega
          have hcomm1 : jsSubstring st ((jn : Int) - suf) (jn : Int) = (st.drop (jn - suf)).take suf := by
            have hc : ((jn : Int) - (suf : Int)) = ((jn - suf : Nat) : Int) := by omega
            rw [hc, jsSubstring_natural st (jn - suf) jn (by omega) (by omega)]
            congr 1; omega
          have hcomm2 : jsSubstring st (jn : Int) ((jn : Int) + pre) = (st.drop jn).take pre := by
            have hc : ((jn : Int) + (pre : Int)) = ((jn + pre : Nat) : Int) := by omega
            rw [hc, jsSubstring_natural st jn (jn + pre) (by omega) (by omega)]
            congr 1; omega
          simp only [hsa, hsb, hcomm1, hcomm2]
          have hd := decomp3 st (jn - suf) jn (jn + pre) (by omega) (by omega)
          have e1 : jn - (jn - suf) = suf := by omega
          have e2 : (jn + pre) - jn = pre := by omega
          rw [e1, e2] at hd
          simp only [List.append_assoc] at hd ⊢
          exact hd
      · rw [if_neg hupd]; exact hbest

/-- A successful `diff_halfMatchI_` result decomposes both strings. -/
theorem diff_halfMatchI_decomp (lt st : Str) (i : Nat) (hi : i ≤ lt.length)
    (hlen : 4 ≤ lt.length) (b : HmBest) (h : diff_halfMatchI lt st i = some b) :
    lt = b.la ++ b.common ++ b.lb ∧ st = b.sa ++ b.common ++ b.sb := by
  unfold diff_halfMatchI at h
  simp only at h
  by_cases hguard : (hmILoop lt st (jsSubstring lt i ((i : Int) + lt.length / 4)) i
      (st.length + 2) (-1) ⟨[], [], [], [], []⟩).common.length * 2 ≥ lt.length
  · rw [if_pos hguard] at h
    injection h with h
    subst h
    rcases hmILoop_ok lt st (jsSubstring lt i ((i : Int) + lt.length / 4)) i hi
        (st.length + 2) (-1) ⟨[], [], [], [], []⟩ (Or.inl rfl) with hnil | hdec
    · exfalso
      rw [hnil] at hguard
      simp only [List.length_nil] at hguard
      omega
    · exact hdec
  · rw [if_neg hguard] at h
    cases h

/-- A successful `diff_halfMatch_` decomposes both input strings around the
common middle. -/
theorem diff_halfMatch_decomp (s : DmpSettings) (t1 t2 : Str)
    (a1 b1 a2 b2 mid : Str) (h : diff_halfMatch_ s t1 t2 = some (a1, b1, a2, b2, mid)) :
    t1 = a1 ++ mid ++ b1 ∧ t2 = a2 ++ mid ++ b2 := by
  unfold diff_halfMatch_ at h
  by_cases htime : s.Diff_Timeout ≤ 0
  · rw [if_pos htime] at h; cases h
  · rw [if_neg htime] at h
    simp only at h
    obtain ⟨L, hL⟩ : ∃ x, (if t1.length > t2.length then t1 else t2) = x := ⟨_, rfl⟩
    obtain ⟨S, hS⟩ : ∃ x, (if t1.length > t2.length then t2 else t1) = x := ⟨_, rfl⟩
    rw [hL, hS] at h
    by_cases hguard : L.length < 4 ∨ S.length * 2 < L.length
    · rw [if_pos hguard] at h; cases h
    · rw [if_neg hguard] at h
      have hlen : 4 ≤ L.length ∧ L.length ≤ 2 * S.length := by
        push_neg at hguard; omega
      have hi1 : (L.length + 3) / 4 ≤ L.length := by omega
      have hi2 : (L.length + 1) / 2 ≤ L.length := by omega
      have main : ∀ b : HmBest,
          (diff_halfMatchI L S ((L.length + 3) / 4) = some b ∨
           diff_halfMatchI L S ((L.length + 1) / 2) = some b) →
          L = b.la ++ b.common ++ b.lb ∧ S = b.sa ++ b.common ++ b.sb := by
        rintro b (hb | hb)
        · exact diff_halfMatchI_decomp L S _ hi1 hlen.1 b hb
        · exact diff_halfMatchI_decomp L S _ hi2 hlen.1 b hb
      have hassemble : ∀ b : HmBest,
          L = b.la ++ b.common ++ b.lb ∧ S = b.sa ++ b.common ++ b.sb →
          (if t1.length > t2.length then
              some (b.la, b.lb, b.sa, b.sb, b.common)
            else some (b.sa, b.sb, b.la, b.lb, b.common))
            = some (a1, b1, a2, b2, mid) →
          t1 = a1 ++ mid ++ b1 ∧ t2 = a2 ++ mid ++ b2 := by
        intro b hd hsome
        by_cases hcmp : t1.length > t2.length
        · rw [if_pos hcmp] at hsome
          rw [if_pos hcmp] at hL hS
          injection hsome with hsome
          cases hsome
          exact ⟨by rw [hL]; exact hd.1, by rw [hS]; exact hd.2⟩
        · rw [if_neg hcmp] at hsome
          rw [if_neg hcmp] at hL hS
          injection hsome with hsome
          cases hsome
          exact ⟨by rw [hS]; exact hd.2, by rw [hL]; exact hd.1⟩
      rcases h1 : diff_halfMatchI L S ((L.length + 3) / 4) with _ | ⟨c1⟩ <;>
        rcases h2 : diff_halfMatchI L S ((L.length + 1) / 2) with _ | ⟨c2⟩ <;>
          rw [h1, h2] at h <;> simp only at h
      · cases h
      · exact hassemble c2 (main c2 (Or.inr h2)) h
      · exact hassemble c1 (main c1 (Or.inl h1)) h
      · by_cases hc : c1.common.length > c2.common.length
        · rw [if_pos hc] at h
          exact hassemble c1 (main c1 (Or.inl h1)) h
        · rw [if_neg hc] at h
          exact hassemble c2 (main c2 (Or.inr h2)) h

theorem jsSubstring_zero_nat (s : Str) (n : Nat) (h : n ≤ s.length) :
    jsSubstring s 0 (n : Int) = s.take n := by
  rw [jsSubstring_eq_take]; congr 1; unfold clampIdx; omega

theorem jsSubstringFrom_nat (s : Str) (n : Nat) (h : n ≤ s.length) :
    jsSubstringFrom s (n : Int) = s.drop n := by
  rw [jsSubstringFrom_eq_drop]; congr 1; unfold clampIdx; omega

/-! ### diff_cleanupMerge

`diff_cleanupMerge` makes three kinds of rewrites: (1) a left-to-right pass
that coalesces runs of deletions/insertions at each equality boundary,
factoring common prefixes into the preceding equality (or the array front)
and common suffixes into the current equality; (2) a sweep that shifts a
single edit sideways over an adjacent equality; (3) a rerun of itself while
pass 2 made changes.  We thread the accumulated output in reversed order;
`cd`/`ci`/`td`/`ti` are `count_delete`, `count_insert`, `text_delete`,
`text_insert`.  The caller appends the dummy `[DIFF_EQUAL, '']` entry. -/

/-- Prefix factored out during a merge flush is appended to a preceding
equality when there is one; otherwise the source splices a fresh equality at
the front of the array. -/
def spliceFrontEq (outRev : List Diff) (x : Str) : List Diff :=
  match outRev with
  | (Dop.equal, pe) :: outTail => (Dop.equal, pe ++ x) :: outTail
  | _ => outRev ++ [(Dop.equal, x)]

/-- Merging the current equality into the previous array entry when that
entry is an equality; otherwise the equality is kept as its own entry. -/
def mergeEqPrev (outRev : List Diff) (t : Str) : List Diff :=
  match outRev with
  | (Dop.equal, pe) :: outTail => (Dop.equal, pe ++ t) :: outTail
  | _ => (Dop.equal, t) :: outRev

/-- The work done by `diff_cleanupMerge`'s first pass when it reaches an
equality with text `t`: flush the accumulated run (`cd`/`ci`/`td`/`ti` are
`count_delete`, `count_insert`, `text_delete`, `text_insert`), factoring
common prefixes/suffixes, then place the equality. -/
def mergeFlush (outRev : List Diff) (cd ci : Nat) (td ti t : Str) : List Diff :=
  if cd + ci > 1 then
    if cd ≠ 0 ∧ ci ≠ 0 then
      let pl := diff_commonPrefixLen ti td
      let outRev1 := if pl ≠ 0 then spliceFrontEq outRev (jsSubstring ti 0 pl) else outRev
      let ti1 := if pl ≠ 0 then jsSubstringFrom ti pl else ti
      let td1 := if pl ≠ 0 then jsSubstringFrom td pl else td
      let sl := diff_commonSuffixLen ti1 td1
      let t2 := if sl ≠ 0 then jsSubstringFrom ti1 ((ti1.length : Int) - sl) ++ t else t
      let ti2 := if sl ≠ 0 then jsSubstring ti1 0 ((ti1.length : Int) - sl) else ti1
      let td2 := if sl ≠ 0 then jsSubstring td1 0 ((td1.length : Int) - sl) else td1
      (Dop.equal, t2) :: (Dop.insert, ti2) :: (Dop.delete, td2) :: outRev1
    else if cd = 0 then (Dop.equal, t) :: (Dop.insert, ti) :: outRev
    else (Dop.equal, t) :: (Dop.delete, td) :: outRev
  else
    let outRev1 :=
      if cd = 1 then (Dop.delete, td) :: outRev
      else if ci = 1 then (Dop.insert, ti) :: outRev
      else outRev
    if cd + ci = 0 then mergeEqPrev outRev1 t
    else (Dop.equal, t) :: outRev1

/-- First pass of `diff_cleanupMerge`: scan the tuples, accumulating runs of
deletions and insertions, flushing at each equality.  The caller appends the
dummy `[DIFF_EQUAL, '']` entry; output is accumulated reversed. -/
def mergePass1 : List Diff → List Diff → Nat → Nat → Str → Str → List Diff
  | [], outRev, _, _, _, _ => outRev
  | (op, t) :: rest, outRev, cd, ci, td, ti =>
    match op with
    | Dop.delete => mergePass1 rest outRev (cd + 1) ci (td ++ t) ti
    | Dop.insert => mergePass1 rest outRev cd (ci + 1) td (ti ++ t)
    | Dop.equal => mergePass1 rest (mergeFlush outRev cd ci td ti t) 0 0 [] []

/-- Second pass of `diff_cleanupMerge`: shift single edits sideways over an
adjacent equality when the edit ends with (resp. starts with) it.  Fuel is
the list length, which strictly bounds the recursion. -/
def mergeShiftGo : Nat → List Diff → List Diff × Bool
  | 0, l => (l, false)
  | fuel + 1, l =>
    match l with
    | a :: e :: b :: rest =>
      if a.1 = Dop.equal ∧ b.1 = Dop.equal then
        if jsSubstringFrom e.2 ((e.2.length : Int) - a.2.length) = a.2 then
          let e' : Diff := (e.1, a.2 ++ jsSubstring e.2 0 ((e.2.length : Int) - a.2.length))
          let b' : Diff := (Dop.equal, a.2 ++ b.2)
          (e' :: (mergeShiftGo fuel (b' :: rest)).1, true)
        else if jsSubstring e.2 0 (b.2.length : Int) = b.2 then
          let a' : Diff := (Dop.equal, a.2 ++ b.2)
          let e' : Diff := (e.1, jsSubstringFrom e.2 (b.2.length : Int) ++ b.2)
          (a' :: (mergeShiftGo fuel (e' :: rest)).1, true)
        else
          let r := mergeShiftGo fuel (e :: b :: rest)
          (a :: r.1, r.2)
      else
        let r := mergeShiftGo fuel (e :: b :: rest)
        (a :: r.1, r.2)
    | _ => (l, false)

/-- Drop the trailing dummy entry when its text stayed empty (the source's
final `diffs.pop()`); the accumulated output is still reversed here, so the
array's last element is the head. -/
def popEmptyLast : List Diff → List Diff
  | d :: tail => if d.2 = [] then tail else d :: tail
  | [] => []

/-- `diff_cleanupMerge(diffs)`.  The source reruns itself until the shift
sweep makes no further change; that rerun carries the fuel. -/
def diff_cleanupMerge : Nat → List Diff → List Diff
  | 0, diffs => diffs
  | fuel + 1, diffs =>
    let d1 := (popEmptyLast (mergePass1 (diffs ++ [(Dop.equal, [])]) [] 0 0 [] [])).reverse
    let r := mergeShiftGo (d1.length + 1) d1
    if r.2 then diff_cleanupMerge fuel r.1 else r.1

theorem mergeShiftGo_recon (fuel : Nat) : ∀ l : List Diff,
    diff_text1 (mergeShiftGo fuel l).1 = diff_text1 l
    ∧ diff_text2 (mergeShiftGo fuel l).1 = diff_text2 l := by
  induction fuel with
  | zero => intro l; simp [mergeShiftGo]
  | succ fuel ih =>
    intro l
    match l with
    | [] => simp [mergeShiftGo]
    | [a] => simp [mergeShiftGo]
    | [a, e] => simp [mergeShiftGo]
    | a :: e :: b :: rest =>
      obtain ⟨a1, A⟩ := a
      obtain ⟨e1, E⟩ := e
      obtain ⟨b1, B⟩ := b
      show diff_text1 (mergeShiftGo (fuel + 1) ((a1, A) :: (e1, E) :: (b1, B) :: rest)).1 = _ ∧ _
      rw [mergeShiftGo]
      simp only
      by_cases hab : a1 = Dop.equal ∧ b1 = Dop.equal
      · obtain ⟨ha1, hb1⟩ := hab
        subst ha1; subst hb1
        rw [if_pos ⟨rfl, rfl⟩]
        by_cases h1 : jsSubstringFrom E ((E.length : Int) - A.length) = A
        · rw [if_pos h1]
          have hsplit : E = jsSubstring E 0 ((E.length : Int) - A.length) ++ A := by
            conv_lhs => rw [← jsSubstring_split E ((E.length : Int) - A.length)]
            rw [h1]
          have hih := ih ((Dop.equal, A ++ B) :: rest)
          constructor
          · simp only [diff_text1]
            rw [hih.1]
            simp only [diff_text1]
            by_cases he1 : e1 = Dop.insert
            · simp [he1]
            · simp only [if_neg he1]
              conv_rhs => rw [hsplit]
              simp [List.append_assoc]
          · simp only [diff_text2]
            rw [hih.2]
            simp only [diff_text2]
            by_cases he1 : e1 = Dop.delete
            · simp [he1]
            · simp only [if_neg he1]
              conv_rhs => rw [hsplit]
              simp [List.append_assoc]
        · rw [if_neg h1]
          by_cases h2 : jsSubstring E 0 (B.length : Int) = B
          · rw [if_pos h2]
            have hsplit : E = B ++ jsSubstringFrom E (B.length : Int) := by
              conv_lhs => rw [← jsSubstring_split E (B.length : Int)]
              rw [h2]
            have hih := ih ((e1, jsSubstringFrom E (B.length : Int) ++ B) :: rest)
            constructor
            · simp only [diff_text1]
              rw [hih.1]
              simp only [diff_text1]
              by_cases he1 : e1 = Dop.insert
              · simp [he1]
              · simp only [if_neg he1]
                conv_rhs => rw [hsplit]
                simp [List.append_assoc]
            · simp only [diff_text2]
              rw [hih.2]
              simp only [diff_text2]
              by_cases he1 : e1 = Dop.delete
              · simp [he1]
              · simp only [if_neg he1]
                conv_rhs => rw [hsplit]
                simp [List.append_assoc]
          · rw [if_neg h2]
            have hih := ih ((e1, E) :: (Dop.equal, B) :: rest)
            constructor
            · simp only [diff_text1]
              rw [hih.1]
              simp [diff_text1]
            · simp only [diff_text2]
              rw [hih.2]
              simp [diff_text2]
      · rw [if_neg hab]
        have hih := ih ((e1, E) :: (b1, B) :: rest)
        constructor
        · simp only [diff_text1]
          rw [hih.1]
          simp [diff_text1]
        · simp only [diff_text2]
          rw [hih.2]
          simp [diff_text2]

theorem cpFactor (ti td : Str) :
    jsSubstring ti 0 (diff_commonPrefixLen ti td : Int)
      ++ jsSubstringFrom td (diff_commonPrefixLen ti td : Int) = td := by
  have hle := diff_commonPrefixLen_le ti td
  have hsound := diff_commonPrefixLen_sound ti td
  rw [jsSubstring_zero_nat _ _ (by omega), jsSubstringFrom_nat _ _ (by omega), hsound,
    List.take_append_drop]

theorem csFactor (ti1 td1 : Str) :
    jsSubstring td1 0 ((td1.length : Int) - diff_commonSuffixLen ti1 td1)
      ++ jsSubstringFrom ti1 ((ti1.length : Int) - diff_commonSuffixLen ti1 td1) = td1 := by
  have hle := diff_commonSuffixLen_le ti1 td1
  have hsound := diff_commonSuffixLen_sound ti1 td1
  have hc1 : ((td1.length : Int) - diff_commonSuffixLen ti1 td1)
      = ((td1.length - diff_commonSuffixLen ti1 td1 : Nat) : Int) := by omega
  have hc2 : ((ti1.length : Int) - diff_commonSuffixLen ti1 td1)
      = ((ti1.length - diff_commonSuffixLen ti1 td1 : Nat) : Int) := by omega
  rw [hc1, hc2, jsSubstring_zero_nat _ _ (by omega), jsSubstringFrom_nat _ _ (by omega),
    hsound, List.take_append_drop]

/-- Does the list end in an equality tuple?  (`mergePass1` is always run on
a list ending in the dummy equality.) -/
def endsWithEq : List Diff → Prop
  | [] => False
  | [d] => d.1 = Dop.equal
  | _ :: rest => endsWithEq rest

theorem endsWithEq_tail (x : Diff) (rest : List Diff) (hne : rest ≠ [])
    (h : endsWithEq (x :: rest)) : endsWithEq rest := by
  cases rest with
  | nil => exact absurd rfl hne
  | cons y ys => exact h


theorem spliceFrontEq_recon (outRev : List Diff) (x : Str)
    (hout : outRev = [] ∨ ∃ pe tl, outRev = (Dop.equal, pe) :: tl) :
    diff_text1 (spliceFrontEq outRev x).reverse = diff_text1 outRev.reverse ++ x
    ∧ diff_text2 (spliceFrontEq outRev x).reverse = diff_text2 outRev.reverse ++ x := by
  rcases hout with hnil | ⟨pe, tl, hcons⟩
  · subst hnil
    simp [spliceFrontEq, diff_text1, diff_text2]
  · subst hcons
    simp [spliceFrontEq, diff_text1_append, diff_text2_append, diff_text1, diff_text2]

theorem mergeEqPrev_recon (outRev : List Diff) (t : Str) :
    diff_text1 (mergeEqPrev outRev t).reverse = diff_text1 outRev.reverse ++ t
    ∧ diff_text2 (mergeEqPrev outRev t).reverse = diff_text2 outRev.reverse ++ t := by
  match outRev with
  | [] => simp [mergeEqPrev, diff_text1, diff_text2]
  | (Dop.equal, pe) :: tl =>
    simp [mergeEqPrev, diff_text1_append, diff_text2_append, diff_text1, diff_text2]
  | (Dop.delete, pe) :: tl =>
    simp [mergeEqPrev, diff_text1_append, diff_text2_append, diff_text1, diff_text2]
  | (Dop.insert, pe) :: tl =>
    simp [mergeEqPrev, diff_text1_append, diff_text2_append, diff_text1, diff_text2]

theorem mergeEqPrev_head (outRev : List Diff) (t : Str) :
    ∃ pe tl, mergeEqPrev outRev t = (Dop.equal, pe) :: tl := by
  match outRev with
  | [] => exact ⟨t, [], rfl⟩
  | (Dop.equal, pe) :: tl => exact ⟨pe ++ t, tl, rfl⟩
  | (Dop.delete, pe) :: tl => exact ⟨t, _, rfl⟩
  | (Dop.insert, pe) :: tl => exact ⟨t, _, rfl⟩

theorem mergeFlush_head (outRev : List Diff) (cd ci : Nat) (td ti t : Str) :
    ∃ pe tl, mergeFlush outRev cd ci td ti t = (Dop.equal, pe) :: tl := by
  unfold mergeFlush
  by_cases hgt : cd + ci > 1
  · rw [if_pos hgt]
    by_cases hboth : cd ≠ 0 ∧ ci ≠ 0
    · rw [if_pos hboth]; exact ⟨_, _, rfl⟩
    · rw [if_neg hboth]
      by_cases hcd : cd = 0
      · rw [if_pos hcd]; exact ⟨_, _, rfl⟩
      · rw [if_neg hcd]; exact ⟨_, _, rfl⟩
  · rw [if_neg hgt]
    simp only
    by_cases h0 : cd + ci = 0
    · rw [if_pos h0]; exact mergeEqPrev_head _ t
    · rw [if_neg h0]; exact ⟨_, _, rfl⟩

theorem mergeFlush_recon (outRev : List Diff) (cd ci : Nat) (td ti t : Str)
    (hout : outRev = [] ∨ ∃ pe tl, outRev = (Dop.equal, pe) :: tl)
    (hcd : cd = 0 → td = []) (hci : ci = 0 → ti = []) :
    diff_text1 (mergeFlush outRev cd ci td ti t).reverse
      = diff_text1 outRev.reverse ++ (td ++ t)
    ∧ diff_text2 (mergeFlush outRev cd ci td ti t).reverse
      = diff_text2 outRev.reverse ++ (ti ++ t) := by
  unfold mergeFlush
  by_cases hgt : cd + ci > 1
  · rw [if_pos hgt]
    by_cases hboth : cd ≠ 0 ∧ ci ≠ 0
    · rw [if_pos hboth]
      simp only
      obtain ⟨pl, hpl⟩ : ∃ x, diff_commonPrefixLen ti td = x := ⟨_, rfl⟩
      rw [hpl]
      by_cases hpl0 : pl ≠ 0
      · simp only [if_pos hpl0]
        obtain ⟨ti1, hti1⟩ : ∃ x, jsSubstringFrom ti (pl : Int) = x := ⟨_, rfl⟩
        obtain ⟨td1, htd1⟩ : ∃ x, jsSubstringFrom td (pl : Int) = x := ⟨_, rfl⟩
        rw [hti1, htd1]
        obtain ⟨sl, hsl⟩ : ∃ x, diff_commonSuffixLen ti1 td1 = x := ⟨_, rfl⟩
        rw [hsl]
        have hP : jsSubstring ti 0 (pl : Int) ++ td1 = td := by
          rw [← htd1, ← hpl]; exact cpFactor ti td
        have hPi : jsSubstring ti 0 (pl : Int) ++ ti1 = ti := by
          rw [← hti1]; exact jsSubstring_split ti (pl : Int)
        have hsf := spliceFrontEq_recon outRev (jsSubstring ti 0 (pl : Int)) hout
        by_cases hsl0 : sl ≠ 0
        · simp only [if_pos hsl0]
          have hcs : jsSubstring td1 0 ((td1.length : Int) - sl)
              ++ jsSubstringFrom ti1 ((ti1.length : Int) - sl) = td1 := by
            rw [← hsl]; exact csFactor ti1 td1
          have hcsi : jsSubstring ti1 0 ((ti1.length : Int) - sl)
              ++ jsSubstringFrom ti1 ((ti1.length : Int) - sl) = ti1 :=
            jsSubstring_split ti1 _
          constructor
          · simp only [List.reverse_cons, diff_text1_append, diff_text1, List.append_nil,
              List.nil_append, List.append_assoc]
            rw [hsf.1]
            conv_rhs => rw [← hP, ← hcs]
            simp [List.append_assoc]
          · simp only [List.reverse_cons, diff_text2_append, diff_text2, List.append_nil,
              List.nil_append, List.append_assoc]
            rw [hsf.2]
            conv_rhs => rw [← hPi, ← hcsi]
            simp [List.append_assoc]
        · simp only [if_neg hsl0]
          constructor
          · simp only [List.reverse_cons, diff_text1_append, diff_text1, List.append_nil,
              List.nil_append, List.append_assoc]
            rw [hsf.1]
            conv_rhs => rw [← hP]
            simp [List.append_assoc]
          · simp only [List.reverse_cons, diff_text2_append, diff_text2, List.append_nil,
              List.nil_append, List.append_assoc]
            rw [hsf.2]
            conv_rhs => rw [← hPi]
            simp [List.append_assoc]
      · simp only [if_neg hpl0]
        obtain ⟨sl, hsl⟩ : ∃ x, diff_commonSuffixLen ti td = x := ⟨_, rfl⟩
        rw [hsl]
        by_cases hsl0 : sl ≠ 0
        · simp only [if_pos hsl0]
          have hcs : jsSubstring td 0 ((td.length : Int) - sl)
              ++ jsSubstringFrom ti ((ti.length : Int) - sl) = td := by
            rw [← hsl]; exact csFactor ti td
          have hcsi : jsSubstring ti 0 ((ti.length : Int) - sl)
              ++ jsSubstringFrom ti ((ti.length : Int) - sl) = ti :=
            jsSubstring_split ti _
          constructor
          · simp only [List.reverse_cons, diff_text1_append, diff_text1, List.append_nil,
              List.nil_append, List.append_assoc]
            conv_rhs => rw [← hcs]
            simp [List.append_assoc]
          · simp only [List.reverse_cons, diff_text2_append, diff_text2, List.append_nil,
              List.nil_append, List.append_assoc]
            conv_rhs => rw [← hcsi]
            simp [List.append_assoc]
        · simp only [if_neg hsl0]
          constructor
          · simp [List.reverse_cons, diff_text1_append, diff_text1, List.append_assoc]
          · simp [List.reverse_cons, diff_text2_append, diff_text2, List.append_assoc]
    · rw [if_neg hboth]
      by_cases hcd0 : cd = 0
      · rw [if_pos hcd0]
        have htd : td = [] := hcd hcd0
        subst htd
        constructor
        · simp [List.reverse_cons, diff_text1_append, diff_text1, List.append_assoc]
        · simp [List.reverse_cons, diff_text2_append, diff_text2, List.append_assoc]
      · rw [if_neg hcd0]
        have hci0 : ci = 0 := by
          push_neg at hboth
          rcases Nat.eq_zero_or_pos ci with h | h
          · exact h
          · exact absurd (hboth hcd0) (by omega)
        have hti : ti = [] := hci hci0
        subst hti
        constructor
        · simp [List.reverse_cons, diff_text1_append, diff_text1, List.append_assoc]
        · simp [List.reverse_cons, diff_text2_append, diff_text2, List.append_assoc]
  · rw [if_neg hgt]
    simp only
    by_cases hcd1 : cd = 1
    · rw [if_pos hcd1]
      have hci0 : ci = 0 := by omega
      have hti : ti = [] := hci hci0
      subst hti
      have hne : ¬(cd + ci = 0) := by omega
      rw [if_neg hne]
      constructor
      · simp [List.reverse_cons, diff_text1_append, diff_text1, List.append_assoc]
      · simp [List.reverse_cons, diff_text2_append, diff_text2, List.append_assoc]
    · rw [if_neg hcd1]
      have hcd0 : cd = 0 := by omega
      have htd : td = [] := hcd hcd0
      subst htd
      by_cases hci1 : ci = 1
      · rw [if_pos hci1]
        have hne : ¬(cd + ci = 0) := by omega
        rw [if_neg hne]
        constructor
        · simp [List.reverse_cons, diff_text1_append, diff_text1, List.append_assoc]
        · simp [List.reverse_cons, diff_text2_append, diff_text2, List.append_assoc]
      · rw [if_neg hci1]
        have hci0 : ci = 0 := by omega
        have hti : ti = [] := hci hci0
        subst hti
        have h0 : cd + ci = 0 := by omega
        rw [if_pos h0]
        have hm := mergeEqPrev_recon outRev t
        exact ⟨by rw [hm.1]; simp, by rw [hm.2]; simp⟩

theorem mergePass1_recon (rest : List Diff) : ∀ (outRev : List Diff) (cd ci : Nat) (td ti : Str),
    (endsWithEq rest ∨ (rest = [] ∧ td = [] ∧ ti = [])) →
    (outRev = [] ∨ ∃ pe tl, outRev = (Dop.equal, pe) :: tl) →
    (cd = 0 → td = []) → (ci = 0 → ti = []) →
    diff_text1 (mergePass1 rest outRev cd ci td ti).reverse
      = diff_text1 outRev.reverse ++ (td ++ diff_text1 rest)
    ∧ diff_text2 (mergePass1 rest outRev cd ci td ti).reverse
      = diff_text2 outRev.reverse ++ (ti ++ diff_text2 rest) := by
  induction rest with
  | nil =>
    intro outRev cd ci td ti hend _hout _hcd _hci
    rcases hend with hfalse | ⟨_, htd, hti⟩
    · exact absurd hfalse (by simp [endsWithEq])
    · subst htd; subst hti
      simp [mergePass1, diff_text1, diff_text2]
  | cons hd rest ih =>
    obtain ⟨op, t⟩ := hd
    intro outRev cd ci td ti hend hout hcd hci
    have hendtail : rest ≠ [] → endsWithEq rest := by
      intro hne
      rcases hend with he | ⟨habs, _⟩
      · exact endsWithEq_tail _ _ hne he
      · cases habs
    match op with
    | Dop.delete =>
      have hrest : rest ≠ [] := by
        intro hnil
        rcases hend with he | ⟨habs, _⟩
        · rw [hnil] at he; simp [endsWithEq] at he
        · cases habs
      have hih := ih outRev (cd + 1) ci (td ++ t) ti (Or.inl (hendtail hrest))
        hout (by omega) hci
      rw [mergePass1]
      refine ⟨?_, ?_⟩
      · rw [hih.1]; simp [diff_text1]
      · rw [hih.2]; simp [diff_text2]
    | Dop.insert =>
      have hrest : rest ≠ [] := by
        intro hnil
        rcases hend with he | ⟨habs, _⟩
        · rw [hnil] at he; simp [endsWithEq] at he
        · cases habs
      have hih := ih outRev cd (ci + 1) td (ti ++ t) (Or.inl (hendtail hrest))
        hout hcd (by omega)
      rw [mergePass1]
      refine ⟨?_, ?_⟩
      · rw [hih.1]; simp [diff_text1]
      · rw [hih.2]; simp [diff_text2]
    | Dop.equal =>
      have hendrec : endsWithEq rest ∨ (rest = [] ∧ ([] : Str) = [] ∧ ([] : Str) = []) := by
        cases rest with
        | nil => exact Or.inr ⟨rfl, rfl, rfl⟩
        | cons y ys => exact Or.inl (hendtail (by simp))
      rw [mergePass1]
      have hfl := mergeFlush_recon outRev cd ci td ti t hout hcd hci
      have hih := ih (mergeFlush outRev cd ci td ti t) 0 0 [] [] hendrec
        (Or.inr (mergeFlush_head outRev cd ci td ti t)) (fun _ => rfl) (fun _ => rfl)
      refine ⟨?_, ?_⟩
      · rw [hih.1, hfl.1]
        simp [diff_text1, List.append_assoc]
      · rw [hih.2, hfl.2]
        simp [diff_text2, List.append_assoc]

theorem endsWithEq_append_dummy (l : List Diff) (x : Str) :
    endsWithEq (l ++ [(Dop.equal, x)]) := by
  induction l with
  | nil => simp [endsWithEq]
  | cons hd tl ih =>
    cases tl with
    | nil => simpa [endsWithEq] using ih
    | cons y ys => simpa [endsWithEq] using ih

theorem diff_cleanupMerge_recon (fuel : Nat) : ∀ diffs : List Diff,
    diff_text1 (diff_cleanupMerge fuel diffs) = diff_text1 diffs
    ∧ diff_text2 (diff_cleanupMerge fuel diffs) = diff_text2 diffs := by
  induction fuel with
  | zero => intro diffs; simp [diff_cleanupMerge]
  | succ fuel ih =>
    intro diffs
    rw [diff_cleanupMerge]
    have hp1 := mergePass1_recon (diffs ++ [(Dop.equal, [])]) [] 0 0 [] []
      (Or.inl (endsWithEq_append_dummy diffs [])) (Or.inl rfl) (fun _ => rfl) (fun _ => rfl)
    simp only [List.reverse_nil, diff_text1, diff_text2, List.nil_append, ite_self,
      diff_text1_append, diff_text2_append, List.append_nil] at hp1
    obtain ⟨d1raw, hd1raw⟩ : ∃ x, mergePass1 (diffs ++ [(Dop.equal, [])]) [] 0 0 [] [] = x :=
      ⟨_, rfl⟩
    rw [hd1raw] at hp1 ⊢
    have hpop : ∀ d1pop : List Diff,
        diff_text1 d1pop.reverse = diff_text1 diffs →
        diff_text2 d1pop.reverse = diff_text2 diffs →
        diff_text1 (diff_cleanupMerge fuel (mergeShiftGo (d1pop.reverse.length + 1) d1pop.reverse).1)
            = diff_text1 diffs
          ∧ diff_text2 (diff_cleanupMerge fuel (mergeShiftGo (d1pop.reverse.length + 1) d1pop.reverse).1)
            = diff_text2 diffs
        := by
      intro d1pop h1 h2
      have hsh := mergeShiftGo_recon (d1pop.reverse.length + 1) d1pop.reverse
      constructor
      · rw [(ih _).1, hsh.1, h1]
      · rw [(ih _).2, hsh.2, h2]
    have hcore : ∀ d1pop : List Diff,
        diff_text1 d1pop.reverse = diff_text1 diffs →
        diff_text2 d1pop.reverse = diff_text2 diffs →
        diff_text1 (if (mergeShiftGo (d1pop.reverse.length + 1) d1pop.reverse).2 then
              diff_cleanupMerge fuel (mergeShiftGo (d1pop.reverse.length + 1) d1pop.reverse).1
            else (mergeShiftGo (d1pop.reverse.length + 1) d1pop.reverse).1) = diff_text1 diffs
          ∧ diff_text2 (if (mergeShiftGo (d1pop.reverse.length + 1) d1pop.reverse).2 then
              diff_cleanupMerge fuel (mergeShiftGo (d1pop.reverse.length + 1) d1pop.reverse).1
            else (mergeShiftGo (d1pop.reverse.length + 1) d1pop.reverse).1) = diff_text2 diffs := by
      intro d1pop h1 h2
      have hsh := mergeShiftGo_recon (d1pop.reverse.length + 1) d1pop.reverse
      by_cases hch : (mergeShiftGo (d1pop.reverse.length + 1) d1pop.reverse).2
      · rw [if_pos hch]
        exact hpop d1pop h1 h2
      · rw [if_neg hch]
        exact ⟨by rw [hsh.1, h1], by rw [hsh.2, h2]⟩
    have hpop1 : diff_text1 (popEmptyLast d1raw).reverse = diff_text1 diffs := by
      match d1raw, hp1 with
      | [], hp1 => simpa [popEmptyLast] using hp1.1
      | d :: tail, hp1 =>
        by_cases hde : d.2 = []
        · have h0 := hp1.1
          simp only [List.reverse_cons, diff_text1_append, diff_text1, hde] at h0
          simp only [popEmptyLast, if_pos hde]
          simpa using h0
        · simpa [popEmptyLast, if_neg hde] using hp1.1
    have hpop2 : diff_text2 (popEmptyLast d1raw).reverse = diff_text2 diffs := by
      match d1raw, hp1 with
      | [], hp1 => simpa [popEmptyLast] using hp1.2
      | d :: tail, hp1 =>
        by_cases hde : d.2 = []
        · have h0 := hp1.2
          simp only [List.reverse_cons, diff_text2_append, diff_text2, hde] at h0
          simp only [popEmptyLast, if_pos hde]
          simpa using h0
        · simpa [popEmptyLast, if_neg hde] using hp1.2
    exact hcore (popEmptyLast d1raw) hpop1 hpop2

theorem jsIndexOf_zero_occurs (s pat : Str) (h : jsIndexOf s pat = 0) :
    s.take pat.length = pat := by
  have h0 : jsIndexOf s pat = ((0 : Nat) : Int) := by simpa using h
  have := jsIndexOfFrom_sound s pat 0 0 h0
  unfold occursAt at this
  simpa using this

/-- Helper turning the literal loop comparison into take/drop form. -/
theorem overlapSegForm (t1 t2 : Str) (tl n : Nat) (h1 : t1.length = tl) (h2 : t2.length = tl)
    (hn : n ≤ tl) :
    jsSubstringFrom t1 ((tl : Int) - n) = t1.drop (tl - n)
    ∧ jsSubstring t2 0 (n : Int) = t2.take n := by
  constructor
  · have hc : ((tl : Int) - n) = ((tl - n : Nat) : Int) := by omega
    rw [hc, jsSubstringFrom_nat _ _ (by omega)]
  · rw [jsSubstring_zero_nat _ _ (by omega)]

theorem coLoop_sound (t1 t2 : Str) (tl : Nat) (h1 : t1.length = tl) (h2 : t2.length = tl)
    (hne : t1 ≠ t2) (fuel best length : Nat)
    (hbest : best ≤ tl ∧ t1.drop (tl - best) = t2.take best) :
    coLoop t1 t2 tl fuel best length ≤ tl
    ∧ t1.drop (tl - coLoop t1 t2 tl fuel best length)
        = t2.take (coLoop t1 t2 tl fuel best length) := by
  induction fuel generalizing best length with
  | zero => simpa [coLoop] using hbest
  | succ fuel ih =>
    rw [coLoop]
    simp only
    by_cases hf : jsIndexOf t2 (jsSubstringFrom t1 ((tl : Int) - length)) = -1
    · rw [if_pos hf]; exact hbest
    · rw [if_neg hf]
      rcases jsIndexOfFrom_neg_or t2 (jsSubstringFrom t1 ((tl : Int) - length)) 0 with habs | ⟨k, hk, hkle⟩
      · exact absurd habs hf
      have hfk : jsIndexOf t2 (jsSubstringFrom t1 ((tl : Int) - length)) = (k : Int) := by
        unfold jsIndexOf; exact hk
      rw [hfk]
      have htn : ((k : Int)).toNat = k := Int.toNat_natCast k
      rw [htn]
      have hseg_ok : ((k : Int) = 0 ∨ jsSubstringFrom t1 ((tl : Int) - (length + k : Nat))
            = jsSubstring t2 0 ((length + k : Nat) : Int)) →
          length + k ≤ tl ∧ t1.drop (tl - (length + k)) = t2.take (length + k) := by
        intro hcond
        rcases hcond with hz | hseg
        · have hk0 : k = 0 := by exact_mod_cast hz
          subst hk0
          have hocc := jsIndexOf_zero_occurs t2 (jsSubstringFrom t1 ((tl : Int) - length)) (by rw [hfk]; simp)
          by_cases hlen : length ≤ tl
          · have hform := overlapSegForm t1 t2 tl length h1 h2 hlen
            rw [hform.1] at hocc
            have hplen : (t1.drop (tl - length)).length = length := by
              simp [h1]; omega
            rw [hplen] at hocc
            exact ⟨hlen, by simpa using hocc.symm⟩
          · exfalso
            have hfull : jsSubstringFrom t1 ((tl : Int) - length) = t1 := by
              rw [jsSubstringFrom_eq_drop]
              have hcl : clampIdx t1 ((tl : Int) - length) = 0 := by
                unfold clampIdx; omega
              rw [hcl, List.drop_zero]
            rw [hfull] at hocc
            have ht1t2 : t2 = t1 := by
              calc t2 = t2.take t1.length ++ t2.drop t1.length := (List.take_append_drop _ _).symm
              _ = t1 ++ t2.drop t1.length := by rw [hocc]
              _ = t1 := by
                  have hdn : t2.drop t1.length = [] := List.drop_eq_nil_of_le (by omega)
                  simp [hdn]
            exact hne ht1t2.symm
        · by_cases hlen : length + k ≤ tl
          · have hform := overlapSegForm t1 t2 tl (length + k) h1 h2 hlen
            rw [hform.1, hform.2] at hseg
            exact ⟨hlen, hseg⟩
          · exfalso
            have hfull1 : jsSubstringFrom t1 ((tl : Int) - (length + k : Nat)) = t1 := by
              rw [jsSubstringFrom_eq_drop]
              have hcl : clampIdx t1 ((tl : Int) - (length + k : Nat)) = 0 := by
                unfold clampIdx
                have : ((length + k : Nat) : Int) = (length : Int) + k := by push_cast; ring
                omega
              rw [hcl, List.drop_zero]
            have hfull2 : jsSubstring t2 0 ((length + k : Nat) : Int) = t2 := by
              rw [jsSubstring_eq_take]
              have hcl : clampIdx t2 ((length + k : Nat) : Int) = t2.length := by
                unfold clampIdx
                have : ((length + k : Nat) : Int) = (length : Int) + k := by push_cast; ring
                omega
              rw [hcl, List.take_length]
            rw [hfull1, hfull2] at hseg
            exact hne hseg
      by_cases hcond : (k : Int) = 0 ∨ jsSubstringFrom t1 ((tl : Int) - (length + k : Nat))
          = jsSubstring t2 0 ((length + k : Nat) : Int)
      · rw [if_pos hcond]
        exact ih _ _ (hseg_ok hcond)
      · rw [if_neg hcond]
        exact ih _ _ hbest


theorem diff_commonOverlapLen_sound (text1 text2 : Str) :
    diff_commonOverlapLen text1 text2 ≤ min text1.length text2.length
    ∧ text1.drop (text1.length - diff_commonOverlapLen text1 text2)
        = text2.take (diff_commonOverlapLen text1 text2) := by
  unfold diff_commonOverlapLen
  simp only
  by_cases h0 : text1.length = 0 ∨ text2.length = 0
  · rw [if_pos h0]
    constructor
    · omega
    · rcases h0 with h | h
      · have : text1 = [] := List.length_eq_zero.mp h
        simp [this]
      · have : text2 = [] := List.length_eq_zero.mp h
        simp [this]
  · rw [if_neg h0]
    push_neg at h0
    obtain ⟨t1, ht1⟩ : ∃ x, (if text1.length > text2.length then
        jsSubstringFrom text1 ((text1.length : Int) - text2.length) else text1) = x := ⟨_, rfl⟩
    obtain ⟨t2, ht2⟩ : ∃ x, (if text1.length < text2.length then
        jsSubstring text2 0 (text1.length : Int) else text2) = x := ⟨_, rfl⟩
    rw [ht1, ht2]
    have hT1 : t1 = text1.drop (text1.length - min text1.length text2.length) := by
      rw [← ht1]
      by_cases hgt : text1.length > text2.length
      · rw [if_pos hgt]
        have hc : ((text1.length : Int) - text2.length)
            = ((text1.length - text2.length : Nat) : Int) := by omega
        rw [hc, jsSubstringFrom_nat _ _ (by omega)]
        congr 1
        omega
      · rw [if_neg hgt]
        have : text1.length - min text1.length text2.length = 0 := by omega
        rw [this, List.drop_zero]
    have hT2 : t2 = text2.take (min text1.length text2.length) := by
      rw [← ht2]
      by_cases hlt : text1.length < text2.length
      · rw [if_pos hlt]
        rw [jsSubstring_zero_nat _ _ (by omega)]
        congr 1
        omega
      · rw [if_neg hlt]
        have : min text1.length text2.length = text2.length := by omega
        rw [this, List.take_length]
    have hl1 : t1.length = min text1.length text2.length := by
      rw [hT1]; simp only [List.length_drop]; omega
    have hl2 : t2.length = min text1.length text2.length := by
      rw [hT2]; simp only [List.length_take]; omega
    have hglue : ∀ n : Nat, n ≤ min text1.length text2.length →
        t1.drop (min text1.length text2.length - n) = t2.take n →
        text1.drop (text1.length - n) = text2.take n := by
      intro n hn hseg
      rw [hT1, List.drop_drop] at hseg
      rw [hT2, List.take_take] at hseg
      have e1 : text1.length - min text1.length text2.length
            + (min text1.length text2.length - n)
          = text1.length - n := by omega
      have e2 : min n (min text1.length text2.length) = n := by omega
      rw [e1, e2] at hseg
      exact hseg
    by_cases heq : t1 = t2
    · rw [if_pos heq]
      refine ⟨le_refl _, hglue _ (le_refl _) ?_⟩
      rw [Nat.sub_self, List.drop_zero, heq, ← hl2, List.take_length]
    · rw [if_neg heq]
      have hc := coLoop_sound t1 t2 (min text1.length text2.length) hl1 hl2 heq
        (min text1.length text2.length + 3) 0 1
        ⟨by omega, by rw [Nat.sub_zero, List.take_zero]; exact List.drop_eq_nil_of_le (by omega)⟩
      exact ⟨hc.1, hglue _ hc.1 hc.2⟩

/-! ### diff_cleanupSemanticLossless -/

/-- `/[^a-zA-Z0-9]/` complement test on a single UTF-16 code unit. -/
def isAlphaNumUC (c : Nat) : Bool :=
  (48 ≤ c && c ≤ 57) || (65 ≤ c && c ≤ 90) || (97 ≤ c && c ≤ 122)

/-- JS `\s` on a code unit (ASCII whitespace plus the Unicode space
characters recognised by JS regexps). -/
def isWhitespaceUC (c : Nat) : Bool :=
  (9 ≤ c && c ≤ 13) || c == 32 || c == 160 || c == 0x1680 ||
  (0x2000 ≤ c && c ≤ 0x200A) || c == 0x2028 || c == 0x2029 ||
  c == 0x202F || c == 0x205F || c == 0x3000 || c == 0xFEFF

/-- `/[\r\n]/` on a code unit. -/
def isLinebreakUC (c : Nat) : Bool := c == 13 || c == 10

/-- `/\n\r?\n$/.test s` (s ends with LF LF or LF CR LF). -/
def blanklineEnd (s : Str) : Bool :=
  match s.reverse with
  | 10 :: 10 :: _ => true
  | 10 :: 13 :: 10 :: _ => true
  | _ => false

/-- `/^\r?\n\r?\n/.test s`. -/
def blanklineStart (s : Str) : Bool :=
  match s with
  | 10 :: 10 :: _ => true
  | 10 :: 13 :: 10 :: _ => true
  | 13 :: 10 :: 10 :: _ => true
  | 13 :: 10 :: 13 :: 10 :: _ => true
  | _ => false

/-- `diff_cleanupSemanticScore_(one, two)` of the source (6 best … 0 worst). -/
def diff_cleanupSemanticScore_ (one two : Str) : Nat :=
  if one.length = 0 || two.length = 0 then 6
  else
    let char1 := one.getLastD 0
    let char2 := two.headD 0
    let nonAlphaNumeric1 := !isAlphaNumUC char1
    let nonAlphaNumeric2 := !isAlphaNumUC char2
    let whitespace1 := nonAlphaNumeric1 && isWhitespaceUC char1
    let whitespace2 := nonAlphaNumeric2 && isWhitespaceUC char2
    let lineBreak1 := whitespace1 && isLinebreakUC char1
    let lineBreak2 := whitespace2 && isLinebreakUC char2
    let blankLine1 := lineBreak1 && blanklineEnd one
    let blankLine2 := lineBreak2 && blanklineStart two
    if blankLine1 || blankLine2 then 5
    else if lineBreak1 || lineBreak2 then 4
    else if nonAlphaNumeric1 && !whitespace1 && whitespace2 then 3
    else if whitespace1 || whitespace2 then 2
    else if nonAlphaNumeric1 || nonAlphaNumeric2 then 1
    else 0

theorem jsCharAt_zero (s : Str) : jsCharAt s 0 = s.take 1 := by
  unfold jsCharAt
  rw [if_neg (by omega)]
  simp

theorem jsSubstringFrom_one (s : Str) : jsSubstringFrom s 1 = s.drop 1 := by
  rw [jsSubstringFrom_eq_drop]
  rcases s with _ | ⟨c, rest⟩
  · rfl
  · have : clampIdx (c :: rest) 1 = 1 := by
      unfold clampIdx
      simp
    rw [this]

/-- The sideways search of `diff_cleanupSemanticLossless` (`while
(edit.charAt(0) === equality2.charAt(0))`), tracking the best-scoring split.
Returns `(bestEquality1, bestEdit, bestEquality2)`. -/
def losslessShiftLoop : Nat → Str → Str → Str → Str → Str → Str → Nat → Str × Str × Str
  | 0, _, _, _, b1, be, b2, _ => (b1, be, b2)
  | fuel + 1, eq1, edit, eq2, b1, be, b2, bs =>
    if jsCharAt edit 0 = jsCharAt eq2 0 then
      let eq1' := eq1 ++ jsCharAt edit 0
      let edit' := jsSubstringFrom edit 1 ++ jsCharAt eq2 0
      let eq2' := jsSubstringFrom eq2 1
      let score := diff_cleanupSemanticScore_ eq1' edit' + diff_cleanupSemanticScore_ edit' eq2'
      if bs ≤ score then
        losslessShiftLoop fuel eq1' edit' eq2' eq1' edit' eq2' score
      else
        losslessShiftLoop fuel eq1' edit' eq2' b1 be b2 bs
    else (b1, be, b2)

/-- One lossless window rewrite: left shift by the common suffix of
`equality1`/`edit`, then the sideways search. -/
def losslessStep (a e b : Diff) : Str × Str × Str :=
  let commonOffset := diff_commonSuffixLen a.2 e.2
  let commonString := jsSubstringFrom e.2 ((e.2.length : Int) - commonOffset)
  let equality1 := jsSubstring a.2 0 ((a.2.length : Int) - commonOffset)
  let edit := commonString ++ jsSubstring e.2 0 ((e.2.length : Int) - commonOffset)
  let equality2 := commonString ++ b.2
  losslessShiftLoop (e.2.length + b.2.length + 1) equality1 edit equality2
    equality1 edit equality2
    (diff_cleanupSemanticScore_ equality1 edit + diff_cleanupSemanticScore_ edit equality2)

theorem losslessShiftLoop_inv (S T : Str) (fuel : Nat)
    (eq1 edit eq2 b1 be b2 : Str) (bs : Nat)
    (h1 : eq1 ++ edit ++ eq2 = S) (h2 : eq1 ++ eq2 = T)
    (hb1 : b1 ++ be ++ b2 = S) (hb2 : b1 ++ b2 = T) :
    (losslessShiftLoop fuel eq1 edit eq2 b1 be b2 bs).1
        ++ (losslessShiftLoop fuel eq1 edit eq2 b1 be b2 bs).2.1
        ++ (losslessShiftLoop fuel eq1 edit eq2 b1 be b2 bs).2.2 = S
    ∧ (losslessShiftLoop fuel eq1 edit eq2 b1 be b2 bs).1
        ++ (losslessShiftLoop fuel eq1 edit eq2 b1 be b2 bs).2.2 = T := by
  induction fuel generalizing eq1 edit eq2 b1 be b2 bs with
  | zero => exact ⟨by rw [losslessShiftLoop]; exact hb1, by rw [losslessShiftLoop]; exact hb2⟩
  | succ fuel ih =>
    rw [losslessShiftLoop]
    simp only
    by_cases hc : jsCharAt edit 0 = jsCharAt eq2 0
    · rw [if_pos hc]
      have hstep1 : (eq1 ++ jsCharAt edit 0) ++ (jsSubstringFrom edit 1 ++ jsCharAt eq2 0)
          ++ jsSubstringFrom eq2 1 = S := by
        rw [jsCharAt_zero, jsSubstringFrom_one, jsCharAt_zero, jsSubstringFrom_one]
        calc (eq1 ++ edit.take 1) ++ (edit.drop 1 ++ eq2.take 1) ++ eq2.drop 1
            = eq1 ++ (edit.take 1 ++ edit.drop 1) ++ (eq2.take 1 ++ eq2.drop 1) := by
              simp [List.append_assoc]
          _ = eq1 ++ edit ++ eq2 := by rw [List.take_append_drop, List.take_append_drop]
          _ = S := h1
      have hstep2 : (eq1 ++ jsCharAt edit 0) ++ jsSubstringFrom eq2 1 = T := by
        simp only [jsCharAt_zero, jsSubstringFrom_one] at hc ⊢
        calc (eq1 ++ edit.take 1) ++ eq2.drop 1
            = eq1 ++ (eq2.take 1 ++ eq2.drop 1) := by
              rw [hc]; simp [List.append_assoc]
          _ = eq1 ++ eq2 := by rw [List.take_append_drop]
          _ = T := h2
      by_cases hs : bs ≤ diff_cleanupSemanticScore_ (eq1 ++ jsCharAt edit 0)
            (jsSubstringFrom edit 1 ++ jsCharAt eq2 0)
          + diff_cleanupSemanticScore_ (jsSubstringFrom edit 1 ++ jsCharAt eq2 0)
            (jsSubstringFrom eq2 1)
      · rw [if_pos hs]
        exact ih _ _ _ _ _ _ _ hstep1 hstep2 hstep1 hstep2
      · rw [if_neg hs]
        exact ih _ _ _ _ _ _ _ hstep1 hstep2 hb1 hb2
    · rw [if_neg hc]
      exact ⟨hb1, hb2⟩

theorem losslessStep_inv (a e b : Diff) :
    (losslessStep a e b).1 ++ (losslessStep a e b).2.1 ++ (losslessStep a e b).2.2
        = a.2 ++ e.2 ++ b.2
    ∧ (losslessStep a e b).1 ++ (losslessStep a e b).2.2 = a.2 ++ b.2 := by
  unfold losslessStep
  simp only
  obtain ⟨co, hco⟩ : ∃ x, diff_commonSuffixLen a.2 e.2 = x := ⟨_, rfl⟩
  have hcole := diff_commonSuffixLen_le a.2 e.2
  rw [hco] at hcole ⊢
  have hcs : jsSubstringFrom e.2 ((e.2.length : Int) - co) = e.2.drop (e.2.length - co) := by
    have hc : ((e.2.length : Int) - co) = ((e.2.length - co : Nat) : Int) := by omega
    rw [hc, jsSubstringFrom_nat _ _ (by omega)]
  have heq1 : jsSubstring a.2 0 ((a.2.length : Int) - co) = a.2.take (a.2.length - co) := by
    have hc : ((a.2.length : Int) - co) = ((a.2.length - co : Nat) : Int) := by omega
    rw [hc, jsSubstring_zero_nat _ _ (by omega)]
  have hetake : jsSubstring e.2 0 ((e.2.length : Int) - co) = e.2.take (e.2.length - co) := by
    have hc : ((e.2.length : Int) - co) = ((e.2.length - co : Nat) : Int) := by omega
    rw [hc, jsSubstring_zero_nat _ _ (by omega)]
  have hsound : a.2.drop (a.2.length - co) = e.2.drop (e.2.length - co) := by
    have := diff_commonSuffixLen_sound a.2 e.2
    rw [hco] at this
    exact this
  rw [hcs, heq1, hetake]
  have hA : a.2.take (a.2.length - co) ++ e.2.drop (e.2.length - co) = a.2 := by
    rw [← hsound]; exact List.take_append_drop _ _
  have hE : e.2.take (e.2.length - co) ++ e.2.drop (e.2.length - co) = e.2 :=
    List.take_append_drop _ _
  have h1 : a.2.take (a.2.length - co)
      ++ (e.2.drop (e.2.length - co) ++ e.2.take (e.2.length - co))
      ++ (e.2.drop (e.2.length - co) ++ b.2) = a.2 ++ e.2 ++ b.2 := by
    calc a.2.take (a.2.length - co)
          ++ (e.2.drop (e.2.length - co) ++ e.2.take (e.2.length - co))
          ++ (e.2.drop (e.2.length - co) ++ b.2)
        = (a.2.take (a.2.length - co) ++ e.2.drop (e.2.length - co))
          ++ ((e.2.take (e.2.length - co) ++ e.2.drop (e.2.length - co)) ++ b.2) := by
          simp only [List.append_assoc]
      _ = a.2 ++ (e.2 ++ b.2) := by rw [hA, hE]
      _ = a.2 ++ e.2 ++ b.2 := by simp only [List.append_assoc]
  have h2 : a.2.take (a.2.length - co) ++ (e.2.drop (e.2.length - co) ++ b.2)
      = a.2 ++ b.2 := by
    calc a.2.take (a.2.length - co) ++ (e.2.drop (e.2.length - co) ++ b.2)
        = (a.2.take (a.2.length - co) ++ e.2.drop (e.2.length - co)) ++ b.2 := by
          simp only [List.append_assoc]
      _ = a.2 ++ b.2 := by rw [hA]
  exact losslessShiftLoop_inv _ _ _ _ _ _ _ _ _ _ h1 h2 h1 h2

/-- Replacement window produced by a lossless rewrite: empty equalities are
spliced out (`diffs.splice`), the edit keeps its operation. -/
def losslessNewElems (a e b : Diff) : List Diff :=
  let r := losslessStep a e b
  (if r.1 = [] then [] else [(a.1, r.1)]) ++ [(e.1, r.2.1)]
    ++ (if r.2.2 = [] then [] else [(b.1, r.2.2)])

/-- The `while (pointer < diffs.length - 1)` scan of
`diff_cleanupSemanticLossless`.  The pointer bookkeeping after the in-place
splices is rendered by re-feeding the rewritten records into the recursive
call exactly as the next window would see them.  (When both equalities empty
out — impossible, since the best split then coincides with the original one —
the scan resumes after the edit.) -/
def losslessGo : Nat → List Diff → List Diff
  | 0, l => l
  | fuel + 1, l =>
    match l with
    | a :: e :: b :: rest =>
      if a.1 = Dop.equal ∧ b.1 = Dop.equal then
        let r := losslessStep a e b
        if a.2 = r.1 then a :: losslessGo fuel (e :: b :: rest)
        else
          if r.1 = [] then
            if r.2.2 = [] then (e.1, r.2.1) :: losslessGo fuel rest
            else losslessGo fuel ((e.1, r.2.1) :: (b.1, r.2.2) :: rest)
          else
            if r.2.2 = [] then losslessGo fuel ((a.1, r.1) :: (e.1, r.2.1) :: rest)
            else (a.1, r.1) :: losslessGo fuel ((e.1, r.2.1) :: (b.1, r.2.2) :: rest)
      else a :: losslessGo fuel (e :: b :: rest)
    | l => l

/-- `diff_cleanupSemanticLossless(diffs)`. -/
def diff_cleanupSemanticLossless (diffs : List Diff) : List Diff :=
  losslessGo (diffs.length + 1) diffs

theorem iteDopNe {α : Sort u_1} (k k' : Dop) (h : ¬k = k') (x y : α) :
    (if k = k' then x else y) = y := if_neg h

theorem losslessNewElems_recon (a e b : Diff) (rest : List Diff)
    (ha : a.1 = Dop.equal) (hb : b.1 = Dop.equal) :
    diff_text1 (losslessNewElems a e b ++ rest) = diff_text1 (a :: e :: b :: rest)
    ∧ diff_text2 (losslessNewElems a e b ++ rest) = diff_text2 (a :: e :: b :: rest) := by
  have hinv := losslessStep_inv a e b
  unfold losslessNewElems
  simp only
  obtain ⟨r, hr⟩ : ∃ x, losslessStep a e b = x := ⟨_, rfl⟩
  rw [hr] at hinv ⊢
  have key : ∀ t : Str → Str → Str → Str,
      (∀ x y z, t x y z = x ++ y ++ z ∨ t x y z = x ++ z) →
      (t r.1 r.2.1 r.2.2 = r.1 ++ r.2.1 ++ r.2.2 → t a.2 e.2 b.2 = a.2 ++ e.2 ++ b.2) →
      (t r.1 r.2.1 r.2.2 = r.1 ++ r.2.2 → t a.2 e.2 b.2 = a.2 ++ b.2) →
      True := fun _ _ _ _ => trivial
  clear key
  constructor
  · rw [diff_text1_append, diff_text1_append]
    by_cases h1 : r.1 = [] <;> by_cases h2 : r.2.2 = [] <;>
      simp only [h1, if_pos, if_neg, diff_text1, diff_text1_append, ha, hb,
        List.append_nil, List.nil_append, if_true, if_false, reduceIte, h2]
    · by_cases he : e.1 = Dop.insert
      · simp only [he, reduceIte, List.append_nil, List.nil_append]
        have := hinv.2
        rw [h1, h2] at this
        simp at this
        simp [this.1, this.2]
      · simp only [if_neg he, List.append_nil, List.nil_append]
        have := hinv.1
        rw [h1, h2] at this
        simp at this
        have h2' := hinv.2
        rw [h1, h2] at h2'
        simp at h2'
        simp [h2'.1, h2'.2, this]
    · by_cases he : e.1 = Dop.insert
      · simp only [he, reduceIte, List.nil_append]
        have := hinv.2
        rw [h1] at this
        simp only [List.nil_append] at this
        simp [List.append_assoc, this]
      · simp only [if_neg he]
        have := hinv.1
        rw [h1] at this
        simp only [List.nil_append] at this
        simp [List.append_assoc, this]
    · by_cases he : e.1 = Dop.insert
      · simp only [he, reduceIte, List.append_nil]
        have := hinv.2
        rw [h2] at this
        simp only [List.append_nil] at this
        simp [List.append_assoc, this]
      · simp only [if_neg he]
        have := hinv.1
        rw [h2] at this
        simp only [List.append_nil] at this
        simp [List.append_assoc, this]
    · by_cases he : e.1 = Dop.insert
      · simp only [he, reduceIte]
        have := hinv.2
        simp only [iteDopNe Dop.equal Dop.insert (by decide),
          iteDopNe Dop.equal Dop.delete (by decide), List.append_nil, List.nil_append]
        simp only [← List.append_assoc] at this ⊢
        rw [this]
      · simp only [if_neg he]
        have := hinv.1
        simp only [iteDopNe Dop.equal Dop.insert (by decide),
          iteDopNe Dop.equal Dop.delete (by decide), List.append_nil, List.nil_append]
        simp only [← List.append_assoc] at this ⊢
        rw [this]
  · rw [diff_text2_append, diff_text2_append]
    by_cases h1 : r.1 = [] <;> by_cases h2 : r.2.2 = [] <;>
      simp only [h1, if_pos, if_neg, diff_text2, diff_text2_append, ha, hb,
        List.append_nil, List.nil_append, if_true, if_false, reduceIte, h2]
    · by_cases he : e.1 = Dop.delete
      · simp only [he, reduceIte, List.append_nil, List.nil_append]
        have := hinv.2
        rw [h1, h2] at this
        simp at this
        simp [this.1, this.2]
      · simp only [if_neg he, List.append_nil, List.nil_append]
        have := hinv.1
        rw [h1, h2] at this
        simp at this
        have h2' := hinv.2
        rw [h1, h2] at h2'
        simp at h2'
        simp [h2'.1, h2'.2, this]
    · by_cases he : e.1 = Dop.delete
      · simp only [he, reduceIte, List.nil_append]
        have := hinv.2
        rw [h1] at this
        simp only [List.nil_append] at this
        simp [List.append_assoc, this]
      · simp only [if_neg he]
        have := hinv.1
        rw [h1] at this
        simp only [List.nil_append] at this
        simp [List.append_assoc, this]
    · by_cases he : e.1 = Dop.delete
      · simp only [he, reduceIte, List.append_nil]
        have := hinv.2
        rw [h2] at this
        simp only [List.append_nil] at this
        simp [List.append_assoc, this]
      · simp only [if_neg he]
        have := hinv.1
        rw [h2] at this
        simp only [List.append_nil] at this
        simp [List.append_assoc, this]
    · by_cases he : e.1 = Dop.delete
      · simp only [he, reduceIte]
        have := hinv.2
        simp only [iteDopNe Dop.equal Dop.insert (by decide),
          iteDopNe Dop.equal Dop.delete (by decide), List.append_nil, List.nil_append]
        simp only [← List.append_assoc] at this ⊢
        rw [this]
      · simp only [if_neg he]
        have := hinv.1
        simp only [iteDopNe Dop.equal Dop.insert (by decide),
          iteDopNe Dop.equal Dop.delete (by decide), List.append_nil, List.nil_append]
        simp only [← List.append_assoc] at this ⊢
        rw [this]

theorem losslessGo_recon (fuel : Nat) (l : List Diff) :
    diff_text1 (losslessGo fuel l) = diff_text1 l
    ∧ diff_text2 (losslessGo fuel l) = diff_text2 l := by
  induction fuel generalizing l with
  | zero => rw [losslessGo]; exact ⟨rfl, rfl⟩
  | succ fuel ih =>
    rcases l with _ | ⟨a, _ | ⟨e, _ | ⟨b, rest⟩⟩⟩
    · exact ⟨rfl, rfl⟩
    · exact ⟨rfl, rfl⟩
    · exact ⟨rfl, rfl⟩
    · rw [losslessGo]
      simp only
      by_cases hw : a.1 = Dop.equal ∧ b.1 = Dop.equal
      · rw [if_pos hw]
        obtain ⟨r, hr⟩ : ∃ x, losslessStep a e b = x := ⟨_, rfl⟩
        rw [hr]
        have hnewrec := losslessNewElems_recon a e b rest hw.1 hw.2
        simp only [losslessNewElems] at hnewrec
        rw [hr] at hnewrec
        by_cases ha2 : a.2 = r.1
        · rw [if_pos ha2]
          constructor
          · simp only [diff_text1, (ih (e :: b :: rest)).1]
          · simp only [diff_text2, (ih (e :: b :: rest)).2]
        · rw [if_neg ha2]
          by_cases h1 : r.1 = []
          · rw [if_pos h1]
            by_cases h2 : r.2.2 = []
            · rw [if_pos h2]
              rw [h1, h2] at hnewrec
              simp only [eq_self_iff_true, ite_true, List.nil_append, List.append_nil,
                List.singleton_append, List.cons_append, diff_text1, diff_text2] at hnewrec
              constructor
              · simp only [diff_text1]
                rw [(ih rest).1]
                exact hnewrec.1
              · simp only [diff_text2]
                rw [(ih rest).2]
                exact hnewrec.2
            · rw [if_neg h2]
              rw [h1] at hnewrec
              simp only [eq_self_iff_true, ite_true, if_neg h2, List.nil_append,
                List.singleton_append, List.cons_append] at hnewrec
              constructor
              · rw [(ih _).1]
                exact hnewrec.1
              · rw [(ih _).2]
                exact hnewrec.2
          · rw [if_neg h1]
            by_cases h2 : r.2.2 = []
            · rw [if_pos h2]
              rw [h2] at hnewrec
              simp only [if_neg h1, eq_self_iff_true, ite_true, List.append_nil,
                List.singleton_append, List.cons_append] at hnewrec
              constructor
              · rw [(ih _).1]
                exact hnewrec.1
              · rw [(ih _).2]
                exact hnewrec.2
            · rw [if_neg h2]
              simp only [if_neg h1, if_neg h2, List.singleton_append, List.cons_append,
                diff_text1, diff_text2] at hnewrec
              constructor
              · simp only [diff_text1]
                rw [(ih ((e.1, r.2.1) :: (b.1, r.2.2) :: rest)).1]
                exact hnewrec.1
              · simp only [diff_text2]
                rw [(ih ((e.1, r.2.1) :: (b.1, r.2.2) :: rest)).2]
                exact hnewrec.2
      · rw [if_neg hw]
        constructor
        · simp only [diff_text1, (ih (e :: b :: rest)).1]
        · simp only [diff_text2, (ih (e :: b :: rest)).2]

theorem diff_cleanupSemanticLossless_recon (diffs : List Diff) :
    diff_text1 (diff_cleanupSemanticLossless diffs) = diff_text1 diffs
    ∧ diff_text2 (diff_cleanupSemanticLossless diffs) = diff_text2 diffs :=
  losslessGo_recon _ _

/-! ### diff_cleanupSemantic, phase A (short-equality elimination) -/

/-- `diffs.splice(pos, 0, d)`. -/
def listInsertAt (l : List Diff) (pos : Nat) (d : Diff) : List Diff :=
  l.take pos ++ d :: l.drop pos

/-- `diffs[i][0] = k` (no-op when out of range). -/
def setOpAt : List Diff → Nat → Dop → List Diff
  | [], _, _ => []
  | d :: rest, 0, k => (k, d.2) :: rest
  | d :: rest, n + 1, k => d :: setOpAt rest n k

/-- `diffs[i]` with JS out-of-range reads rendered as a dummy (they do not
occur on the executed paths, see the stack invariant below). -/
def getAt (l : List Diff) (i : Int) : Diff :=
  if h : 0 ≤ i ∧ i.toNat < l.length then l.get ⟨i.toNat, h.2⟩ else (Dop.equal, [])

/-- The duplicate-record splice of phase A: insert `[DELETE, t0]` before the
equality at `pos` and flip that equality (now at `pos+1`) to an insert. -/
def semMergeAt (l : List Diff) (pos : Nat) (t0 : Str) : List Diff :=
  setOpAt (listInsertAt l pos (Dop.delete, t0)) (pos + 1) Dop.insert

theorem setOpAt_append (A : List Diff) (x : Diff) (B : List Diff) (k : Dop) :
    setOpAt (A ++ x :: B) A.length k = A ++ (k, x.2) :: B := by
  induction A with
  | nil => rfl
  | cons a A ih => simp [setOpAt, ih]

theorem semMergeAt_recon (l : List Diff) (pos : Nat) (t0 : Str)
    (hpos : pos < l.length) (hget : l.get ⟨pos, hpos⟩ = (Dop.equal, t0)) :
    diff_text1 (semMergeAt l pos t0) = diff_text1 l
    ∧ diff_text2 (semMergeAt l pos t0) = diff_text2 l := by
  have hdecomp : l = l.take pos ++ (Dop.equal, t0) :: l.drop (pos + 1) := by
    conv_lhs => rw [← List.take_append_drop pos l]
    congr 1
    rw [List.drop_eq_getElem_cons hpos, ← hget]
    simp [List.get_eq_getElem]
  have hlen : (l.take pos).length = pos := List.length_take_of_le (by omega)
  have hins : listInsertAt l pos (Dop.delete, t0)
      = l.take pos ++ (Dop.delete, t0) :: (Dop.equal, t0) :: l.drop (pos + 1) := by
    unfold listInsertAt
    congr 1
    conv_lhs => rw [hdecomp]
    rw [List.drop_append_eq_append_drop]
    simp [hlen]
  have hset : semMergeAt l pos t0
      = l.take pos ++ (Dop.delete, t0) :: (Dop.insert, t0) :: l.drop (pos + 1) := by
    unfold semMergeAt
    rw [hins]
    have : l.take pos ++ (Dop.delete, t0) :: (Dop.equal, t0) :: l.drop (pos + 1)
        = (l.take pos ++ [(Dop.delete, t0)]) ++ (Dop.equal, t0) :: l.drop (pos + 1) := by
      simp
    rw [this]
    have hlen2 : (l.take pos ++ [(Dop.delete, t0)]).length = pos + 1 := by
      simp [hlen]
    rw [← hlen2, setOpAt_append]
    simp
  constructor
  · rw [hset]
    conv_rhs => rw [hdecomp]
    rw [diff_text1_append, diff_text1_append]
    simp [diff_text1]
  · rw [hset]
    conv_rhs => rw [hdecomp]
    rw [diff_text2_append, diff_text2_append]
    simp [diff_text2]

/-- State of the phase-A scan.  `eqmap`/`eqlen` render the JS `equalities`
array (which, after rewinds, can be written at index −1 and keeps such
entries), `lastequality` the nullable string. -/
structure SemAState where
  diffs : List Diff
  pointer : Int
  eqmap : Int → Int
  eqlen : Int
  lastequality : Option Str
  length_insertions1 : Nat
  length_deletions1 : Nat
  length_insertions2 : Nat
  length_deletions2 : Nat
  changes : Bool

def updI (f : Int → Int) (k v : Int) : Int → Int := fun i => if i = k then v else f i

theorem updI_same (f : Int → Int) (k v : Int) : updI f k v k = v := by simp [updI]

/-- One iteration of the phase-A `while (pointer < diffs.length)` body. -/
def semAStep (st : SemAState) : SemAState :=
  let d := getAt st.diffs st.pointer
  if d.1 = Dop.equal then
    { st with
      eqmap := updI st.eqmap st.eqlen st.pointer
      eqlen := st.eqlen + 1
      length_insertions1 := st.length_insertions2
      length_deletions1 := st.length_deletions2
      length_insertions2 := 0
      length_deletions2 := 0
      lastequality := some d.2
      pointer := st.pointer + 1 }
  else
    let li2 := if d.1 = Dop.insert then st.length_insertions2 + d.2.length
      else st.length_insertions2
    let ld2 := if d.1 = Dop.insert then st.length_deletions2
      else st.length_deletions2 + d.2.length
    match st.lastequality with
    | some t0 =>
      if t0.length ≤ max st.length_insertions1 st.length_deletions1
          ∧ t0.length ≤ max li2 ld2 then
        { diffs := semMergeAt st.diffs (st.eqmap (st.eqlen - 1)).toNat t0
          pointer := (if st.eqlen - 2 > 0 then st.eqmap (st.eqlen - 2 - 1) else -1) + 1
          eqmap := st.eqmap
          eqlen := st.eqlen - 2
          lastequality := none
          length_insertions1 := 0
          length_deletions1 := 0
          length_insertions2 := 0
          length_deletions2 := 0
          changes := true }
      else
        { st with length_insertions2 := li2, length_deletions2 := ld2,
                  pointer := st.pointer + 1 }
    | none =>
      { st with length_insertions2 := li2, length_deletions2 := ld2,
                pointer := st.pointer + 1 }

def semALoop : Nat → SemAState → SemAState
  | 0, st => st
  | fuel + 1, st =>
    if st.pointer < (st.diffs.length : Int) then semALoop fuel (semAStep st)
    else st

/-- Phase A of `diff_cleanupSemantic`: returns the rewritten list and the
`changes` flag. -/
def diff_cleanupSemanticA (diffs : List Diff) : List Diff × Bool :=
  let st := semALoop ((diffs.length + 2) * (diffs.length + 2))
    { diffs := diffs
      pointer := 0
      eqmap := fun _ => 0
      eqlen := 0
      lastequality := none
      length_insertions1 := 0
      length_deletions1 := 0
      length_insertions2 := 0
      length_deletions2 := 0
      changes := false }
  (st.diffs, st.changes)

/-- Invariant of the phase-A scan: the pointer and the stored equality
indices are nonnegative, and when `lastequality` is set the top stack entry
points at an equal-record carrying exactly that text. -/
def SemAInv (st : SemAState) : Prop :=
  0 ≤ st.pointer
  ∧ (∀ i, 0 ≤ st.eqmap i)
  ∧ (∀ t0, st.lastequality = some t0 →
      ∃ h : (st.eqmap (st.eqlen - 1)).toNat < st.diffs.length,
        st.diffs.get ⟨(st.eqmap (st.eqlen - 1)).toNat, h⟩ = (Dop.equal, t0))

theorem semAStep_inv (st : SemAState) (hinv : SemAInv st)
    (hguard : st.pointer < (st.diffs.length : Int)) :
    (diff_text1 (semAStep st).diffs = diff_text1 st.diffs
      ∧ diff_text2 (semAStep st).diffs = diff_text2 st.diffs)
    ∧ SemAInv (semAStep st) := by
  obtain ⟨hp, hm, hl⟩ := hinv
  unfold semAStep
  simp only
  by_cases hd : (getAt st.diffs st.pointer).1 = Dop.equal
  · rw [if_pos hd]
    refine ⟨⟨rfl, rfl⟩, by simp only; omega, ?_, ?_⟩
    · intro i
      simp only [updI]
      split
      · exact hp
      · exact hm i
    · intro t0 ht0
      simp only at ht0 ⊢
      simp only [show st.eqlen + 1 - 1 = st.eqlen from by omega, updI_same]
      have hrange : 0 ≤ st.pointer ∧ st.pointer.toNat < st.diffs.length := ⟨hp, by omega⟩
      have hget : getAt st.diffs st.pointer
          = st.diffs.get ⟨st.pointer.toNat, hrange.2⟩ := by
        unfold getAt
        rw [dif_pos hrange]
      refine ⟨hrange.2, ?_⟩
      injection ht0 with ht0
      rw [← ht0, ← hget]
      have : getAt st.diffs st.pointer = ((getAt st.diffs st.pointer).1, (getAt st.diffs st.pointer).2) := rfl
      rw [this, hd]
  · rw [if_neg hd]
    split
    · rename_i t0 hle
      by_cases hcond : t0.length ≤ max st.length_insertions1 st.length_deletions1
          ∧ t0.length ≤ max
            (if (getAt st.diffs st.pointer).1 = Dop.insert then
              st.length_insertions2 + (getAt st.diffs st.pointer).2.length
            else st.length_insertions2)
            (if (getAt st.diffs st.pointer).1 = Dop.insert then st.length_deletions2
            else st.length_deletions2 + (getAt st.diffs st.pointer).2.length)
      · rw [if_pos hcond]
        obtain ⟨hpos, hget⟩ := hl t0 hle
        refine ⟨semMergeAt_recon _ _ _ hpos hget, ?_, hm, ?_⟩
        · simp only
          by_cases hgt : st.eqlen - 2 > 0
          · rw [if_pos hgt]
            have := hm (st.eqlen - 2 - 1)
            omega
          · rw [if_neg hgt]
            omega
        · intro t1 ht1
          simp only at ht1
          exact absurd ht1 (by simp)
      · rw [if_neg hcond]
        refine ⟨⟨rfl, rfl⟩, ?_, hm, ?_⟩
        · show (0 : Int) ≤ st.pointer + 1
          omega
        · intro t1 ht1
          exact hl t1 ht1
    · rename_i hle
      refine ⟨⟨rfl, rfl⟩, ?_, hm, ?_⟩
      · show (0 : Int) ≤ st.pointer + 1
        omega
      · intro t0 ht0
        exact Option.noConfusion (hle ▸ ht0)

theorem semALoop_recon (fuel : Nat) (st : SemAState) (hinv : SemAInv st) :
    diff_text1 (semALoop fuel st).diffs = diff_text1 st.diffs
    ∧ diff_text2 (semALoop fuel st).diffs = diff_text2 st.diffs := by
  induction fuel generalizing st with
  | zero => exact ⟨rfl, rfl⟩
  | succ fuel ih =>
    rw [semALoop]
    by_cases hg : st.pointer < (st.diffs.length : Int)
    · rw [if_pos hg]
      have hstep := semAStep_inv st hinv hg
      have hrec := ih (semAStep st) hstep.2
      exact ⟨hrec.1.trans hstep.1.1, hrec.2.trans hstep.1.2⟩
    · rw [if_neg hg]
      exact ⟨rfl, rfl⟩

theorem diff_cleanupSemanticA_recon (diffs : List Diff) :
    diff_text1 (diff_cleanupSemanticA diffs).1 = diff_text1 diffs
    ∧ diff_text2 (diff_cleanupSemanticA diffs).1 = diff_text2 diffs := by
  unfold diff_cleanupSemanticA
  refine semALoop_recon _ _ ⟨le_refl 0, fun _ => le_refl 0, ?_⟩
  intro t0 ht0
  exact absurd ht0 (by simp)

/-! ### diff_cleanupSemantic, phase B (overlap extraction) and assembly -/

/-- The final `while (pointer < diffs.length)` scan of `diff_cleanupSemantic`,
extracting overlaps between adjacent delete/insert pairs. -/
def overlapGo : Nat → List Diff → List Diff
  | 0, l => l
  | fuel + 1, l =>
    match l with
    | prev :: cur :: rest =>
      if prev.1 = Dop.delete ∧ cur.1 = Dop.insert then
        let deletion := prev.2
        let insertion := cur.2
        let overlap_length1 := diff_commonOverlapLen deletion insertion
        let overlap_length2 := diff_commonOverlapLen insertion deletion
        if overlap_length2 ≤ overlap_length1 then
          if deletion.length ≤ 2 * overlap_length1
              ∨ insertion.length ≤ 2 * overlap_length1 then
            (Dop.delete, jsSubstring deletion 0 ((deletion.length : Int) - overlap_length1))
              :: (Dop.equal, jsSubstring insertion 0 (overlap_length1 : Int))
              :: overlapGo fuel
                ((Dop.insert, jsSubstringFrom insertion (overlap_length1 : Int)) :: rest)
          else prev :: overlapGo fuel (cur :: rest)
        else
          if deletion.length ≤ 2 * overlap_length2
              ∨ insertion.length ≤ 2 * overlap_length2 then
            (Dop.insert, jsSubstring insertion 0 ((insertion.length : Int) - overlap_length2))
              :: (Dop.equal, jsSubstring deletion 0 (overlap_length2 : Int))
              :: overlapGo fuel
                ((Dop.delete, jsSubstringFrom deletion (overlap_length2 : Int)) :: rest)
          else prev :: overlapGo fuel (cur :: rest)
      else prev :: overlapGo fuel (cur :: rest)
    | l => l

/-- `diff_cleanupSemantic(diffs)`: phase A, a merge pass when it changed
anything, the lossless pass, then overlap extraction. -/
def diff_cleanupSemantic (diffs : List Diff) : List Diff :=
  let pa := diff_cleanupSemanticA diffs
  let d1 := if pa.2 then diff_cleanupMerge (pa.1.length + 2) pa.1 else pa.1
  let d2 := diff_cleanupSemanticLossless d1
  overlapGo (d2.length + 1) d2

theorem iteDopEq {α : Sort u_1} (k : Dop) (x y : α) : (if k = k then x else y) = x :=
  if_pos rfl

theorem overlapGo_recon (fuel : Nat) (l : List Diff) :
    diff_text1 (overlapGo fuel l) = diff_text1 l
    ∧ diff_text2 (overlapGo fuel l) = diff_text2 l := by
  induction fuel generalizing l with
  | zero => exact ⟨rfl, rfl⟩
  | succ fuel ih =>
    rcases l with _ | ⟨prev, _ | ⟨cur, rest⟩⟩
    · exact ⟨rfl, rfl⟩
    · exact ⟨rfl, rfl⟩
    · rw [overlapGo]
      simp only
      by_cases hw : prev.1 = Dop.delete ∧ cur.1 = Dop.insert
      · rw [if_pos hw]
        have hs1 := diff_commonOverlapLen_sound prev.2 cur.2
        have hs2 := diff_commonOverlapLen_sound cur.2 prev.2
        obtain ⟨o1, ho1⟩ : ∃ x, diff_commonOverlapLen prev.2 cur.2 = x := ⟨_, rfl⟩
        obtain ⟨o2, ho2⟩ : ∃ x, diff_commonOverlapLen cur.2 prev.2 = x := ⟨_, rfl⟩
        rw [ho1] at hs1
        rw [ho2] at hs2
        rw [ho1, ho2]
        have hsub1 : jsSubstring prev.2 0 ((prev.2.length : Int) - o1)
            = prev.2.take (prev.2.length - o1) := by
          have hc : ((prev.2.length : Int) - o1) = ((prev.2.length - o1 : Nat) : Int) := by
            omega
          rw [hc, jsSubstring_zero_nat _ _ (by omega)]
        have hsub2 : jsSubstring cur.2 0 (o1 : Int) = cur.2.take o1 := by
          rw [jsSubstring_zero_nat _ _ (by omega)]
        have hsub3 : jsSubstringFrom cur.2 (o1 : Int) = cur.2.drop o1 := by
          rw [jsSubstringFrom_nat _ _ (by omega)]
        have hsub4 : jsSubstring cur.2 0 ((cur.2.length : Int) - o2)
            = cur.2.take (cur.2.length - o2) := by
          have hc : ((cur.2.length : Int) - o2) = ((cur.2.length - o2 : Nat) : Int) := by
            omega
          rw [hc, jsSubstring_zero_nat _ _ (by omega)]
        have hsub5 : jsSubstring prev.2 0 (o2 : Int) = prev.2.take o2 := by
          rw [jsSubstring_zero_nat _ _ (by omega)]
        have hsub6 : jsSubstringFrom prev.2 (o2 : Int) = prev.2.drop o2 := by
          rw [jsSubstringFrom_nat _ _ (by omega)]
        by_cases hc1 : o2 ≤ o1
        · rw [if_pos hc1]
          by_cases hc2 : prev.2.length ≤ 2 * o1 ∨ cur.2.length ≤ 2 * o1
          · rw [if_pos hc2]
            rw [hsub1, hsub2, hsub3]
            constructor
            · simp only [diff_text1, (ih ((Dop.insert, cur.2.drop o1) :: rest)).1,
                hw.1, hw.2, iteDopNe Dop.delete Dop.insert (by decide),
                iteDopNe Dop.equal Dop.insert (by decide), iteDopEq Dop.insert,
                eq_self_iff_true, if_true, List.nil_append]
              rw [← List.append_assoc, ← hs1.2, List.take_append_drop]
            · simp only [diff_text2, (ih ((Dop.insert, cur.2.drop o1) :: rest)).2,
                hw.1, hw.2, iteDopNe Dop.equal Dop.delete (by decide),
                iteDopNe Dop.insert Dop.delete (by decide), iteDopEq Dop.delete,
                eq_self_iff_true, if_true, List.nil_append]
              rw [← List.append_assoc, List.take_append_drop]
          · rw [if_neg hc2]
            constructor
            · simp only [diff_text1, (ih (cur :: rest)).1]
            · simp only [diff_text2, (ih (cur :: rest)).2]
        · rw [if_neg hc1]
          by_cases hc2 : prev.2.length ≤ 2 * o2 ∨ cur.2.length ≤ 2 * o2
          · rw [if_pos hc2]
            rw [hsub4, hsub5, hsub6]
            constructor
            · simp only [diff_text1, (ih ((Dop.delete, prev.2.drop o2) :: rest)).1,
                hw.1, hw.2, iteDopNe Dop.equal Dop.insert (by decide),
                iteDopNe Dop.delete Dop.insert (by decide), iteDopEq Dop.insert,
                eq_self_iff_true, if_true, List.nil_append]
              rw [← List.append_assoc, List.take_append_drop]
            · simp only [diff_text2, (ih ((Dop.delete, prev.2.drop o2) :: rest)).2,
                hw.1, hw.2, iteDopNe Dop.insert Dop.delete (by decide),
                iteDopNe Dop.equal Dop.delete (by decide), iteDopEq Dop.delete,
                eq_self_iff_true, if_true, List.nil_append]
              rw [← List.append_assoc, ← hs2.2, List.take_append_drop]
          · rw [if_neg hc2]
            constructor
            · simp only [diff_text1, (ih (cur :: rest)).1]
            · simp only [diff_text2, (ih (cur :: rest)).2]
      · rw [if_neg hw]
        constructor
        · simp only [diff_text1, (ih (cur :: rest)).1]
        · simp only [diff_text2, (ih (cur :: rest)).2]

theorem diff_cleanupSemantic_recon (diffs : List Diff) :
    diff_text1 (diff_cleanupSemantic diffs) = diff_text1 diffs
    ∧ diff_text2 (diff_cleanupSemantic diffs) = diff_text2 diffs := by
  unfold diff_cleanupSemantic
  simp only
  obtain ⟨pa, hpa⟩ : ∃ x, diff_cleanupSemanticA diffs = x := ⟨_, rfl⟩
  have hA := diff_cleanupSemanticA_recon diffs
  rw [hpa] at hA ⊢
  obtain ⟨d1, hd1⟩ : ∃ x, (if pa.2 then diff_cleanupMerge (pa.1.length + 2) pa.1 else pa.1) = x :=
    ⟨_, rfl⟩
  have hM : diff_text1 d1 = diff_text1 pa.1 ∧ diff_text2 d1 = diff_text2 pa.1 := by
    rw [← hd1]
    by_cases hch : pa.2
    · rw [if_pos hch]
      exact diff_cleanupMerge_recon _ _
    · rw [if_neg hch]
      exact ⟨rfl, rfl⟩
  rw [hd1]
  have hL := diff_cleanupSemanticLossless_recon d1
  have hO := overlapGo_recon ((diff_cleanupSemanticLossless d1).length + 1)
    (diff_cleanupSemanticLossless d1)
  exact ⟨((hO.1.trans hL.1).trans hM.1).trans hA.1,
    ((hO.2.trans hL.2).trans hM.2).trans hA.2⟩

/-! ### diff_bisect_: the middle-snake search -/

/-- Forward snake: `while (x1 < len1 && y1 < len2 && charAt(x1) == charAt(y1))`. -/
def snakeF (t1 t2 : Str) : Nat → Int → Int → Int × Int
  | 0, x1, y1 => (x1, y1)
  | fuel + 1, x1, y1 =>
    if x1 < (t1.length : Int) ∧ y1 < (t2.length : Int) ∧ jsCharAt t1 x1 = jsCharAt t2 y1 then
      snakeF t1 t2 fuel (x1 + 1) (y1 + 1)
    else (x1, y1)

/-- Reverse snake, comparing characters from the tails. -/
def snakeR (t1 t2 : Str) : Nat → Int → Int → Int × Int
  | 0, x2, y2 => (x2, y2)
  | fuel + 1, x2, y2 =>
    if x2 < (t1.length : Int) ∧ y2 < (t2.length : Int)
        ∧ jsCharAt t1 ((t1.length : Int) - x2 - 1) = jsCharAt t2 ((t2.length : Int) - y2 - 1) then
      snakeR t1 t2 fuel (x2 + 1) (y2 + 1)
    else (x2, y2)

/-- One front-path walk (`for (var k1 = -d + k1start; k1 <= d - k1end; k1 += 2)`).
Returns the split point when the paths overlap, else the updated `v1`,
`k1start`, `k1end`. -/
def bisectFrontK (t1 t2 : Str) (v_offset v_length delta : Int) (front : Bool) (d : Int) :
    Nat → Int → (Int → Int) → (Int → Int) → Int → Int →
    Option (Int × Int) × (Int → Int) × Int × Int
  | 0, _, v1, _, k1start, k1end => (none, v1, k1start, k1end)
  | fuel + 1, k1, v1, v2, k1start, k1end =>
    if k1 ≤ d - k1end then
      let k1_offset := v_offset + k1
      let x1 := if k1 = -d ∨ (k1 ≠ d ∧ v1 (k1_offset - 1) < v1 (k1_offset + 1)) then
          v1 (k1_offset + 1)
        else v1 (k1_offset - 1) + 1
      let p := snakeF t1 t2 (t1.length + 2) x1 (x1 - k1)
      let v1' := updI v1 k1_offset p.1
      if (t1.length : Int) < p.1 then
        bisectFrontK t1 t2 v_offset v_length delta front d fuel (k1 + 2) v1' v2 k1start (k1end + 2)
      else if (t2.length : Int) < p.2 then
        bisectFrontK t1 t2 v_offset v_length delta front d fuel (k1 + 2) v1' v2 (k1start + 2) k1end
      else if front ∧ 0 ≤ v_offset + delta - k1 ∧ v_offset + delta - k1 < v_length
          ∧ v2 (v_offset + delta - k1) ≠ -1
          ∧ (t1.length : Int) - v2 (v_offset + delta - k1) ≤ p.1 then
        (some (p.1, p.2), v1', k1start, k1end)
      else
        bisectFrontK t1 t2 v_offset v_length delta front d fuel (k1 + 2) v1' v2 k1start k1end
    else (none, v1, k1start, k1end)

/-- One reverse-path walk. -/
def bisectRevK (t1 t2 : Str) (v_offset v_length delta : Int) (front : Bool) (d : Int) :
    Nat → Int → (Int → Int) → (Int → Int) → Int → Int →
    Option (Int × Int) × (Int → Int) × Int × Int
  | 0, _, _, v2, k2start, k2end => (none, v2, k2start, k2end)
  | fuel + 1, k2, v1, v2, k2start, k2end =>
    if k2 ≤ d - k2end then
      let k2_offset := v_offset + k2
      let x2 := if k2 = -d ∨ (k2 ≠ d ∧ v2 (k2_offset - 1) < v2 (k2_offset + 1)) then
          v2 (k2_offset + 1)
        else v2 (k2_offset - 1) + 1
      let p := snakeR t1 t2 (t1.length + 2) x2 (x2 - k2)
      let v2' := updI v2 k2_offset p.1
      if (t1.length : Int) < p.1 then
        bisectRevK t1 t2 v_offset v_length delta front d fuel (k2 + 2) v1 v2' k2start (k2end + 2)
      else if (t2.length : Int) < p.2 then
        bisectRevK t1 t2 v_offset v_length delta front d fuel (k2 + 2) v1 v2' (k2start + 2) k2end
      else if ¬front ∧ 0 ≤ v_offset + delta - k2 ∧ v_offset + delta - k2 < v_length
          ∧ v1 (v_offset + delta - k2) ≠ -1
          ∧ (t1.length : Int) - p.1 ≤ v1 (v_offset + delta - k2) then
        (some (v1 (v_offset + delta - k2),
          v_offset + v1 (v_offset + delta - k2) - (v_offset + delta - k2)), v2', k2start, k2end)
      else
        bisectRevK t1 t2 v_offset v_length delta front d fuel (k2 + 2) v1 v2' k2start k2end
    else (none, v2, k2start, k2end)

/-- The `for (var d = 0; d < max_d; d++)` loop of `diff_bisect_`. -/
def bisectD (t1 t2 : Str) (v_offset v_length delta : Int) (front : Bool) (max_d : Nat) :
    Nat → Int → (Int → Int) → (Int → Int) → Int → Int → Int → Int → Option (Int × Int)
  | 0, _, _, _, _, _, _, _ => none
  | fuel + 1, d, v1, v2, k1start, k1end, k2start, k2end =>
    if d < (max_d : Int) then
      match bisectFrontK t1 t2 v_offset v_length delta front d (2 * max_d + 4)
          (-d + k1start) v1 v2 k1start k1end with
      | (some p, _, _, _) => some p
      | (none, v1', k1start', k1end') =>
        match bisectRevK t1 t2 v_offset v_length delta front d (2 * max_d + 4)
            (-d + k2start) v1' v2 k2start k2end with
        | (some p, _, _, _) => some p
        | (none, v2', k2start', k2end') =>
          bisectD t1 t2 v_offset v_length delta front max_d fuel (d + 1)
            v1' v2' k1start' k1end' k2start' k2end'
    else none

/-- The split point found by `diff_bisect_`, `none` when the d-loop runs out
(the caller then renders the whole change as one delete plus one insert). -/
def bisectSearch (t1 t2 : Str) : Option (Int × Int) :=
  let text1_length := t1.length
  let text2_length := t2.length
  let max_d := (text1_length + text2_length + 1) / 2
  let v_offset := (max_d : Int)
  let v_length := 2 * (max_d : Int)
  let v1 := updI (fun _ => -1) (v_offset + 1) 0
  let v2 := updI (fun _ => -1) (v_offset + 1) 0
  let delta := (text1_length : Int) - text2_length
  let front := decide (delta % 2 ≠ 0)
  bisectD t1 t2 v_offset v_length delta front max_d max_d 0 v1 v2 0 0 0 0

/-! ### diff_linesToChars_ / diff_charsToLines_ -/

/-- Assoc-list rendering of the `lineHash` object. -/
def hashFind : List (Str × Nat) → Str → Option Nat
  | [], _ => none
  | p :: rest, line => if p.1 = line then some p.2 else hashFind rest line

/-- The `diff_linesToCharsMunge_` closure.  Line tokens
(`String.fromCharCode(lineArrayLength)`) are modelled as the unbounded code
unit `lineArrayLength` itself; the 16-bit truncation of `fromCharCode` only
diverges beyond 65535 distinct lines. -/
def mungeGo (text : Str) : Nat → Int → Int → Str → List Str → List (Str × Nat) →
    Str × List Str × List (Str × Nat)
  | 0, _, _, chars, lineArray, lineHash => (chars, lineArray, lineHash)
  | fuel + 1, lineStart, lineEnd, chars, lineArray, lineHash =>
    if lineEnd < (text.length : Int) - 1 then
      let le0 := jsIndexOfFrom text [10] lineStart
      let lineEnd' := if le0 = -1 then (text.length : Int) - 1 else le0
      let line := jsSubstring text lineStart (lineEnd' + 1)
      match hashFind lineHash line with
      | some v =>
        mungeGo text fuel (lineEnd' + 1) lineEnd' (chars ++ [v]) lineArray lineHash
      | none =>
        mungeGo text fuel (lineEnd' + 1) lineEnd' (chars ++ [lineArray.length])
          (lineArray ++ [line]) ((line, lineArray.length) :: lineHash)
    else (chars, lineArray, lineHash)

/-- `diff_linesToChars_(text1, text2)`: token strings for both texts plus the
line array (seeded with the junk empty entry). -/
def diff_linesToChars_ (text1 text2 : Str) : Str × Str × List Str :=
  let r1 := mungeGo text1 (text1.length + 2) 0 (-1) [] [[]] []
  let r2 := mungeGo text2 (text2.length + 2) 0 (-1) [] r1.2.1 r1.2.2
  (r1.1, r2.1, r2.2.1)

/-- Decode a token string against the line array (`lineArray[charCodeAt y]`). -/
def tokensDecode (lineArray : List Str) (cs : Str) : Str :=
  (cs.map (fun c => lineArray.getD c [])).flatten

/-- `diff_charsToLines_(diffs, lineArray)`. -/
def diff_charsToLines_ (diffs : List Diff) (lineArray : List Str) : List Diff :=
  diffs.map (fun d => (d.1, tokensDecode lineArray d.2))

/-! ### diff_lineMode_ -/

/-- The rediff pass of `diff_lineMode_`, parameterised by the recursive
`diff_main` call.  The JS dummy `[DIFF_EQUAL, '']` pushed before the loop and
popped after it is rendered by the base case. -/
def rediffGo (dm : Str → Str → List Diff) :
    List Diff → List Diff → Nat → Nat → Str → Str → List Diff
  | [], pend, count_delete, count_insert, text_delete, text_insert =>
    if 1 ≤ count_delete ∧ 1 ≤ count_insert then dm text_delete text_insert
    else pend.reverse
  | d :: rest, pend, count_delete, count_insert, text_delete, text_insert =>
    match d.1 with
    | Dop.insert =>
      rediffGo dm rest (d :: pend) count_delete (count_insert + 1)
        text_delete (text_insert ++ d.2)
    | Dop.delete =>
      rediffGo dm rest (d :: pend) (count_delete + 1) count_insert
        (text_delete ++ d.2) text_insert
    | Dop.equal =>
      if 1 ≤ count_delete ∧ 1 ≤ count_insert then
        dm text_delete text_insert ++ d :: rediffGo dm rest [] 0 0 [] []
      else pend.reverse ++ d :: rediffGo dm rest [] 0 0 [] []

/-- `diff_lineMode_` with the recursive calls abstracted (`dm` is
`diff_main(·, ·, false, deadline)`, `bis` is `diff_bisect_`). -/
def diff_lineMode_core (dm : Str → Str → List Diff) (bis : Str → Str → List Diff)
    (text1 text2 : Str) : List Diff :=
  let a := diff_linesToChars_ text1 text2
  let diffs := bis a.1 a.2.1
  let diffs := diff_charsToLines_ diffs a.2.2
  let diffs := diff_cleanupSemantic diffs
  rediffGo dm diffs [] 0 0 [] []

theorem jsIndexOfFrom_ge (s pat : Str) (start : Int) (i : Nat)
    (h : jsIndexOfFrom s pat start = (i : Int)) : clampIdx s start ≤ i := by
  unfold jsIndexOfFrom at h
  simp only at h
  rcases hf : (List.range (s.length + 1)).find?
      (fun j => decide (clampIdx s start ≤ j) && occursAt s pat j) with _ | ⟨j⟩
  · simp only [hf] at h; omega
  · simp only [hf] at h
    have hp := List.find?_some hf
    simp only [Bool.and_eq_true, decide_eq_true_eq] at hp
    have hji : j = i := by exact_mod_cast h
    omega

theorem hashFind_mem (h : List (Str × Nat)) (line : Str) (v : Nat)
    (hf : hashFind h line = some v) : (line, v) ∈ h := by
  induction h with
  | nil => simp [hashFind] at hf
  | cons p rest ih =>
    rw [hashFind] at hf
    by_cases hp : p.1 = line
    · rw [if_pos hp] at hf
      injection hf with hf
      refine List.mem_cons.mpr (Or.inl ?_)
      rw [← hp, ← hf]
    · rw [if_neg hp] at hf
      exact List.mem_cons_of_mem _ (ih hf)

theorem tokensDecode_append (la : List Str) (a b : Str) :
    tokensDecode la (a ++ b) = tokensDecode la a ++ tokensDecode la b := by
  simp [tokensDecode]

theorem getD_append_lt (la ext : List Str) (c : Nat) (hc : c < la.length) :
    (la ++ ext).getD c [] = la.getD c [] := by
  rw [List.getD_eq_getElem?_getD, List.getD_eq_getElem?_getD,
    List.getElem?_append_left hc]

theorem getD_concat_self (la : List Str) (x : Str) :
    (la ++ [x]).getD la.length [] = x := by
  rw [List.getD_eq_getElem?_getD, List.getElem?_append_right (le_refl _)]
  simp

theorem tokensDecode_stable (la ext : List Str) (cs : Str)
    (h : ∀ c ∈ cs, c < la.length) :
    tokensDecode (la ++ ext) cs = tokensDecode la cs := by
  unfold tokensDecode
  congr 1
  apply List.map_congr_left
  intro c hc
  exact getD_append_lt la ext c (h c hc)

theorem occursAt_bound (s pat : Str) (k : Nat) (h : occursAt s pat k = true)
    (hk : k ≤ s.length) : k + pat.length ≤ s.length := by
  unfold occursAt at h
  simp only [decide_eq_true_eq] at h
  have hl := congrArg List.length h
  simp only [List.length_take, List.length_drop] at hl
  have := min_le_right pat.length (s.length - k)
  rw [hl] at this
  omega

theorem jsSubstring_chain (s : Str) (a b : Nat) (hab : a ≤ b) (hb : b ≤ s.length) :
    jsSubstring s 0 (a : Int) ++ jsSubstring s (a : Int) (b : Int) = jsSubstring s 0 (b : Int) := by
  rw [jsSubstring_zero_nat _ _ (by omega), jsSubstring_zero_nat _ _ hb,
    jsSubstring_natural _ _ _ hab hb]
  conv_rhs => rw [show b = a + (b - a) from by omega, List.take_add]

theorem jsSubstring_zero_len (s : Str) : jsSubstring s 0 (s.length : Int) = s := by
  rw [jsSubstring_zero_nat _ _ (le_refl _), List.take_length]

theorem mungeGo_spec (text : Str) (fuel : Nat) :
    ∀ (lineStart lineEnd : Int) (chars : Str) (lineArray : List Str)
      (lineHash : List (Str × Nat)),
    (text.length : Int) - lineStart < fuel →
    (∀ p ∈ lineHash, p.2 < lineArray.length ∧ lineArray.getD p.2 [] = p.1) →
    (∀ c ∈ chars, c < lineArray.length) →
    tokensDecode lineArray chars = jsSubstring text 0 lineStart →
    (lineStart = lineEnd + 1 ∨ (lineStart = 0 ∧ lineEnd = -1)) →
    0 ≤ lineStart → lineStart ≤ (text.length : Int) →
    (∃ ext, (mungeGo text fuel lineStart lineEnd chars lineArray lineHash).2.1
        = lineArray ++ ext)
    ∧ (∀ c ∈ (mungeGo text fuel lineStart lineEnd chars lineArray lineHash).1,
        c < (mungeGo text fuel lineStart lineEnd chars lineArray lineHash).2.1.length)
    ∧ tokensDecode (mungeGo text fuel lineStart lineEnd chars lineArray lineHash).2.1
        (mungeGo text fuel lineStart lineEnd chars lineArray lineHash).1 = text
    ∧ (∀ p ∈ (mungeGo text fuel lineStart lineEnd chars lineArray lineHash).2.2,
        p.2 < (mungeGo text fuel lineStart lineEnd chars lineArray lineHash).2.1.length
        ∧ (mungeGo text fuel lineStart lineEnd chars lineArray lineHash).2.1.getD p.2 []
          = p.1) := by
  induction fuel with
  | zero =>
    intro lineStart _ _ _ _ hfuel _ _ _ _ hlb hle
    exfalso
    simp only [Nat.cast_zero] at hfuel
    omega
  | succ fuel ih =>
    intro lineStart lineEnd chars lineArray lineHash hfuel hhash htok hdec hls hlb hle
    rw [mungeGo]
    simp only
    by_cases hcond : lineEnd < (text.length : Int) - 1
    · rw [if_pos hcond]
      obtain ⟨le0, hle0⟩ : ∃ x, jsIndexOfFrom text [10] lineStart = x := ⟨_, rfl⟩
      rw [hle0]
      have hclamp : clampIdx text lineStart = lineStart.toNat := by
        unfold clampIdx; omega
      have hbound : lineStart ≤ (if le0 = -1 then (text.length : Int) - 1 else le0)
          ∧ (if le0 = -1 then (text.length : Int) - 1 else le0) ≤ (text.length : Int) - 1 := by
        by_cases h10 : le0 = -1
        · rw [if_pos h10]
          rcases hls with h | ⟨h0, hm1⟩
          · omega
          · omega
        · rw [if_neg h10]
          rcases jsIndexOfFrom_neg_or text [10] lineStart with habs | ⟨k, hk, hkle⟩
          · rw [hle0] at habs; exact absurd habs h10
          · rw [hle0] at hk
            have hge := jsIndexOfFrom_ge text [10] lineStart k (by rw [hle0, hk])
            rw [hclamp] at hge
            have hocc := jsIndexOfFrom_sound text [10] lineStart k (by rw [hle0, hk])
            have hb := occursAt_bound text [10] k hocc hkle
            simp only [List.length_cons, List.length_nil] at hb
            omega
      obtain ⟨lE, hlE⟩ : ∃ x, (if le0 = -1 then (text.length : Int) - 1 else le0) = x :=
        ⟨_, rfl⟩
      rw [hlE] at hbound ⊢
      have hdecstep : tokensDecode lineArray chars ++ jsSubstring text lineStart (lE + 1)
          = jsSubstring text 0 (lE + 1) := by
        have hsa : lineStart = (lineStart.toNat : Int) := by omega
        have hsb : lE + 1 = ((lE + 1).toNat : Int) := by omega
        rw [hdec, hsa, hsb]
        exact jsSubstring_chain text lineStart.toNat (lE + 1).toNat (by omega) (by omega)
      rcases hhf : hashFind lineHash (jsSubstring text lineStart (lE + 1)) with _ | v
      · -- new line: append to the array and hash
        have hres := ih (lE + 1) lE (chars ++ [lineArray.length])
          (lineArray ++ [jsSubstring text lineStart (lE + 1)])
          ((jsSubstring text lineStart (lE + 1), lineArray.length) :: lineHash)
          (by push_cast; omega)
          (by
            intro p hp
            rcases List.mem_cons.mp hp with hp | hp
            · subst hp
              refine ⟨by simp, getD_concat_self _ _⟩
            · obtain ⟨h1, h2⟩ := hhash p hp
              exact ⟨by simp; omega, by rw [getD_append_lt _ _ _ h1]; exact h2⟩)
          (by
            intro c hc
            rcases List.mem_append.mp hc with hc | hc
            · have := htok c hc
              simp only [List.length_append, List.length_cons, List.length_nil]
              omega
            · simp only [List.mem_singleton] at hc
              subst hc
              simp)
          (by
            rw [tokensDecode_append, tokensDecode_stable _ _ _ htok]
            unfold tokensDecode
            simp only [List.map_cons, List.map_nil, List.flatten_cons, List.flatten_nil,
              List.append_nil, getD_concat_self]
            exact hdecstep)
          (Or.inl rfl) (by omega) (by omega)
        refine ⟨?_, hres.2.1, hres.2.2.1, hres.2.2.2⟩
        obtain ⟨ext, hext⟩ := hres.1
        exact ⟨jsSubstring text lineStart (lE + 1) :: ext, by simp [hext]⟩
      · -- known line: emit its token
        have hmem := hashFind_mem _ _ _ hhf
        obtain ⟨hv1, hv2⟩ := hhash _ hmem
        exact ih (lE + 1) lE (chars ++ [v]) lineArray lineHash
          (by push_cast; omega)
          hhash
          (by
            intro c hc
            rcases List.mem_append.mp hc with hc | hc
            · exact htok c hc
            · simp only [List.mem_singleton] at hc
              subst hc
              exact hv1)
          (by
            rw [tokensDecode_append]
            unfold tokensDecode
            simp only [List.map_cons, List.map_nil, List.flatten_cons, List.flatten_nil,
              List.append_nil]
            rw [hv2]
            exact hdecstep)
          (Or.inl rfl) (by omega) (by omega)
    · rw [if_neg hcond]
      have hlsl : lineStart = (text.length : Int) := by
        rcases hls with h | ⟨h0, hm1⟩ <;> omega
      rw [hlsl, jsSubstring_zero_len] at hdec
      exact ⟨⟨[], by simp⟩, htok, hdec, hhash⟩

/-! ### diff_main / diff_compute_ / diff_lineMode_ / diff_bisect_ / diff_bisectSplit_

The wall-clock deadline threaded through these functions is rendered by the
shared fuel: every cross call steps the fuel down, and an exhausted fuel
returns `[[DIFF_DELETE, text1], [DIFF_INSERT, text2]]` — the same answer the
source produces when the deadline interrupts `diff_bisect_`. -/

mutual

def diff_main (st : DmpSettings) : Nat → Str → Str → Bool → List Diff
  | 0, text1, text2, _ => [(Dop.delete, text1), (Dop.insert, text2)]
  | fuel + 1, text1, text2, checklines =>
    if text1 = text2 then
      if text1 ≠ [] then [(Dop.equal, text1)] else []
    else
      let commonlength := diff_commonPrefixLen text1 text2
      let commonprefix := jsSubstring text1 0 (commonlength : Int)
      let text1a := jsSubstringFrom text1 (commonlength : Int)
      let text2a := jsSubstringFrom text2 (commonlength : Int)
      let commonlength2 := diff_commonSuffixLen text1a text2a
      let commonsuffix := jsSubstringFrom text1a ((text1a.length : Int) - commonlength2)
      let text1b := jsSubstring text1a 0 ((text1a.length : Int) - commonlength2)
      let text2b := jsSubstring text2a 0 ((text2a.length : Int) - commonlength2)
      let diffs := diff_compute_ st fuel text1b text2b checklines
      let diffs1 := if commonprefix ≠ [] then (Dop.equal, commonprefix) :: diffs else diffs
      let diffs2 := if commonsuffix ≠ [] then diffs1 ++ [(Dop.equal, commonsuffix)] else diffs1
      diff_cleanupMerge (diffs2.length + 2) diffs2
termination_by structural fuel => fuel

def diff_compute_ (st : DmpSettings) : Nat → Str → Str → Bool → List Diff
  | 0, text1, text2, _ => [(Dop.delete, text1), (Dop.insert, text2)]
  | fuel + 1, text1, text2, checklines =>
    if text1 = [] then [(Dop.insert, text2)]
    else if text2 = [] then [(Dop.delete, text1)]
    else
      let longtext := if text2.length < text1.length then text1 else text2
      let shorttext := if text2.length < text1.length then text2 else text1
      let i := jsIndexOf longtext shorttext
      if i ≠ -1 then
        if text2.length < text1.length then
          [(Dop.delete, jsSubstring longtext 0 i), (Dop.equal, shorttext),
            (Dop.delete, jsSubstringFrom longtext (i + shorttext.length))]
        else
          [(Dop.insert, jsSubstring longtext 0 i), (Dop.equal, shorttext),
            (Dop.insert, jsSubstringFrom longtext (i + shorttext.length))]
      else if shorttext.length = 1 then
        [(Dop.delete, text1), (Dop.insert, text2)]
      else
        match diff_halfMatch_ st text1 text2 with
        | some (text1_a, text1_b, text2_a, text2_b, mid_common) =>
          diff_main st fuel text1_a text2_a checklines
            ++ (Dop.equal, mid_common) :: diff_main st fuel text1_b text2_b checklines
        | none =>
          if checklines ∧ 100 < text1.length ∧ 100 < text2.length then
            diff_lineMode_ st fuel text1 text2
          else diff_bisect_ st fuel text1 text2
termination_by structural fuel => fuel

def diff_lineMode_ (st : DmpSettings) : Nat → Str → Str → List Diff
  | 0, text1, text2 => [(Dop.delete, text1), (Dop.insert, text2)]
  | fuel + 1, text1, text2 =>
    diff_lineMode_core (fun a b => diff_main st fuel a b false)
      (fun a b => diff_bisect_ st fuel a b) text1 text2
termination_by structural fuel => fuel

def diff_bisect_ (st : DmpSettings) : Nat → Str → Str → List Diff
  | 0, text1, text2 => [(Dop.delete, text1), (Dop.insert, text2)]
  | fuel + 1, text1, text2 =>
    match bisectSearch text1 text2 with
    | some p => diff_bisectSplit_ st fuel text1 text2 p.1 p.2
    | none => [(Dop.delete, text1), (Dop.insert, text2)]
termination_by structural fuel => fuel

def diff_bisectSplit_ (st : DmpSettings) : Nat → Str → Str → Int → Int → List Diff
  | 0, text1, text2, _, _ => [(Dop.delete, text1), (Dop.insert, text2)]
  | fuel + 1, text1, text2, x, y =>
    diff_main st fuel (jsSubstring text1 0 x) (jsSubstring text2 0 y) false
      ++ diff_main st fuel (jsSubstringFrom text1 x) (jsSubstringFrom text2 y) false
termination_by structural fuel => fuel

end

theorem jsSubstring_self_zero (s : Str) : jsSubstring s 0 0 = [] := by
  unfold jsSubstring
  rw [clampIdx_zero]
  simp

theorem occursAt_decomp (s pat : Str) (k : Nat) (hocc : occursAt s pat k = true)
    (hk : k ≤ s.length) :
    s = s.take k ++ pat ++ s.drop (k + pat.length) := by
  unfold occursAt at hocc
  simp only [decide_eq_true_eq] at hocc
  obtain ⟨pl, hpl⟩ : ∃ x, pat.length = x := ⟨_, rfl⟩
  rw [hpl] at hocc ⊢
  have hdd : s.drop (k + pl) = (s.drop k).drop pl := by
    rw [List.drop_drop, Nat.add_comm]
  rw [hdd, ← hocc, List.append_assoc, List.take_append_drop, List.take_append_drop]

theorem diff_charsToLines_text (diffs : List Diff) (lineArray : List Str) :
    diff_text1 (diff_charsToLines_ diffs lineArray)
      = tokensDecode lineArray (diff_text1 diffs)
    ∧ diff_text2 (diff_charsToLines_ diffs lineArray)
      = tokensDecode lineArray (diff_text2 diffs) := by
  induction diffs with
  | nil => exact ⟨rfl, rfl⟩
  | cons d rest ih =>
    unfold diff_charsToLines_ at ih ⊢
    simp only [List.map_cons]
    constructor
    · simp only [diff_text1, tokensDecode_append, ih.1]
      by_cases hd : d.1 = Dop.insert
      · simp [hd, tokensDecode]
      · simp [hd]
    · simp only [diff_text2, tokensDecode_append, ih.2]
      by_cases hd : d.1 = Dop.delete
      · simp [hd, tokensDecode]
      · simp [hd]

theorem rediffGo_recon (dm : Str → Str → List Diff)
    (hdm : ∀ a b, diff_text1 (dm a b) = a ∧ diff_text2 (dm a b) = b)
    (l : List Diff) :
    ∀ (pend : List Diff) (cd ci : Nat) (td ti : Str),
    diff_text1 pend.reverse = td → diff_text2 pend.reverse = ti →
    diff_text1 (rediffGo dm l pend cd ci td ti) = td ++ diff_text1 l
    ∧ diff_text2 (rediffGo dm l pend cd ci td ti) = ti ++ diff_text2 l := by
  induction l with
  | nil =>
    intro pend cd ci td ti hp1 hp2
    rw [rediffGo]
    by_cases hc : 1 ≤ cd ∧ 1 ≤ ci
    · rw [if_pos hc]
      simp [diff_text1, diff_text2, (hdm td ti).1, (hdm td ti).2]
    · rw [if_neg hc]
      simp [diff_text1, diff_text2, hp1, hp2]
  | cons d rest ih =>
    intro pend cd ci td ti hp1 hp2
    rw [rediffGo]
    rcases hd : d.1 with _ | _ | _
    · -- delete
      have hr := ih (d :: pend) (cd + 1) ci (td ++ d.2) ti
        (by simp [diff_text1_append, hp1, diff_text1, hd])
        (by simp [diff_text2_append, hp2, diff_text2, hd])
      refine ⟨?_, ?_⟩
      · rw [hr.1]
        simp [diff_text1, hd, List.append_assoc]
      · rw [hr.2]
        simp [diff_text2, hd]
    · -- insert
      have hr := ih (d :: pend) cd (ci + 1) td (ti ++ d.2)
        (by simp [diff_text1_append, hp1, diff_text1, hd])
        (by simp [diff_text2_append, hp2, diff_text2, hd])
      refine ⟨?_, ?_⟩
      · rw [hr.1]
        simp [diff_text1, hd]
      · rw [hr.2]
        simp [diff_text2, hd, List.append_assoc]
    · -- equal
      have hr := ih [] 0 0 [] [] rfl rfl
      by_cases hc : 1 ≤ cd ∧ 1 ≤ ci
      · rw [if_pos hc]
        refine ⟨?_, ?_⟩
        · simp [diff_text1_append, diff_text1, hd, (hdm td ti).1, hr.1, List.append_assoc]
        · simp [diff_text2_append, diff_text2, hd, (hdm td ti).2, hr.2, List.append_assoc]
      · rw [if_neg hc]
        refine ⟨?_, ?_⟩
        · simp [diff_text1_append, diff_text1, hd, hp1, hr.1, List.append_assoc]
        · simp [diff_text2_append, diff_text2, hd, hp2, hr.2, List.append_assoc]

theorem diff_linesToChars_spec (text1 text2 : Str) :
    tokensDecode (diff_linesToChars_ text1 text2).2.2 (diff_linesToChars_ text1 text2).1
      = text1
    ∧ tokensDecode (diff_linesToChars_ text1 text2).2.2 (diff_linesToChars_ text1 text2).2.1
      = text2 := by
  unfold diff_linesToChars_
  simp only
  have h1 := mungeGo_spec text1 (text1.length + 2) 0 (-1) [] [[]] []
    (by push_cast; omega)
    (by intro p hp; cases hp)
    (by intro c hc; cases hc)
    (by rw [jsSubstring_self_zero]; rfl)
    (Or.inr ⟨rfl, rfl⟩) (by omega) (by omega)
  obtain ⟨r1, hr1⟩ : ∃ x, mungeGo text1 (text1.length + 2) 0 (-1) [] [[]] [] = x := ⟨_, rfl⟩
  rw [hr1] at h1 ⊢
  have h2 := mungeGo_spec text2 (text2.length + 2) 0 (-1) [] r1.2.1 r1.2.2
    (by push_cast; omega)
    h1.2.2.2
    (by intro c hc; cases hc)
    (by rw [jsSubstring_self_zero]; rfl)
    (Or.inr ⟨rfl, rfl⟩) (by omega) (by omega)
  obtain ⟨r2, hr2⟩ : ∃ x, mungeGo text2 (text2.length + 2) 0 (-1) [] r1.2.1 r1.2.2 = x :=
    ⟨_, rfl⟩
  rw [hr2] at h2 ⊢
  obtain ⟨ext, hext⟩ := h2.1
  refine ⟨?_, h2.2.2.1⟩
  rw [hext, tokensDecode_stable _ _ _ h1.2.1]
  exact h1.2.2.1

theorem diff_lineMode_core_recon (dm bis : Str → Str → List Diff)
    (hdm : ∀ a b, diff_text1 (dm a b) = a ∧ diff_text2 (dm a b) = b)
    (hbis : ∀ a b, diff_text1 (bis a b) = a ∧ diff_text2 (bis a b) = b)
    (text1 text2 : Str) :
    diff_text1 (diff_lineMode_core dm bis text1 text2) = text1
    ∧ diff_text2 (diff_lineMode_core dm bis text1 text2) = text2 := by
  unfold diff_lineMode_core
  simp only
  have hred := rediffGo_recon dm hdm
    (diff_cleanupSemantic (diff_charsToLines_
      (bis (diff_linesToChars_ text1 text2).1 (diff_linesToChars_ text1 text2).2.1)
      (diff_linesToChars_ text1 text2).2.2)) [] 0 0 [] [] rfl rfl
  have hsem := diff_cleanupSemantic_recon (diff_charsToLines_
    (bis (diff_linesToChars_ text1 text2).1 (diff_linesToChars_ text1 text2).2.1)
    (diff_linesToChars_ text1 text2).2.2)
  have hctl := diff_charsToLines_text
    (bis (diff_linesToChars_ text1 text2).1 (diff_linesToChars_ text1 text2).2.1)
    (diff_linesToChars_ text1 text2).2.2
  have hb := hbis (diff_linesToChars_ text1 text2).1 (diff_linesToChars_ text1 text2).2.1
  have hl := diff_linesToChars_spec text1 text2
  constructor
  · rw [hred.1, List.nil_append, hsem.1, hctl.1, hb.1]
    exact hl.1
  · rw [hred.2, List.nil_append, hsem.2, hctl.2, hb.2]
    exact hl.2

theorem diff_all_recon (st : DmpSettings) (fuel : Nat) :
    (∀ t1 t2 cl, diff_text1 (diff_main st fuel t1 t2 cl) = t1
      ∧ diff_text2 (diff_main st fuel t1 t2 cl) = t2)
    ∧ (∀ t1 t2 cl, diff_text1 (diff_compute_ st fuel t1 t2 cl) = t1
      ∧ diff_text2 (diff_compute_ st fuel t1 t2 cl) = t2)
    ∧ (∀ t1 t2, diff_text1 (diff_lineMode_ st fuel t1 t2) = t1
      ∧ diff_text2 (diff_lineMode_ st fuel t1 t2) = t2)
    ∧ (∀ t1 t2, diff_text1 (diff_bisect_ st fuel t1 t2) = t1
      ∧ diff_text2 (diff_bisect_ st fuel t1 t2) = t2)
    ∧ (∀ t1 t2 x y, diff_text1 (diff_bisectSplit_ st fuel t1 t2 x y) = t1
      ∧ diff_text2 (diff_bisectSplit_ st fuel t1 t2 x y) = t2) := by
  induction fuel with
  | zero =>
    refine ⟨fun t1 t2 cl => ⟨?_, ?_⟩, fun t1 t2 cl => ⟨?_, ?_⟩, fun t1 t2 => ⟨?_, ?_⟩,
      fun t1 t2 => ⟨?_, ?_⟩, fun t1 t2 x y => ⟨?_, ?_⟩⟩ <;>
      simp [diff_main, diff_compute_, diff_lineMode_, diff_bisect_, diff_bisectSplit_,
        diff_text1, diff_text2]
  | succ fuel ih =>
    obtain ⟨ihm, ihc, ihl, ihb, ihs⟩ := ih
    have hsplit : ∀ t1 t2 x y, diff_text1 (diff_bisectSplit_ st (fuel + 1) t1 t2 x y) = t1
        ∧ diff_text2 (diff_bisectSplit_ st (fuel + 1) t1 t2 x y) = t2 := by
      intro t1 t2 x y
      rw [diff_bisectSplit_]
      constructor
      · rw [diff_text1_append, (ihm _ _ false).1, (ihm _ _ false).1, jsSubstring_split]
      · rw [diff_text2_append, (ihm _ _ false).2, (ihm _ _ false).2, jsSubstring_split]
    have hbisect : ∀ t1 t2, diff_text1 (diff_bisect_ st (fuel + 1) t1 t2) = t1
        ∧ diff_text2 (diff_bisect_ st (fuel + 1) t1 t2) = t2 := by
      intro t1 t2
      rw [diff_bisect_]
      rcases hbs : bisectSearch t1 t2 with _ | p
      · exact ⟨by simp [diff_text1], by simp [diff_text2]⟩
      · exact ihs t1 t2 p.1 p.2
    have hline : ∀ t1 t2, diff_text1 (diff_lineMode_ st (fuel + 1) t1 t2) = t1
        ∧ diff_text2 (diff_lineMode_ st (fuel + 1) t1 t2) = t2 := by
      intro t1 t2
      rw [diff_lineMode_]
      exact diff_lineMode_core_recon _ _ (fun a b => ihm a b false) (fun a b => ihb a b) t1 t2
    have hcompute : ∀ t1 t2 cl, diff_text1 (diff_compute_ st (fuel + 1) t1 t2 cl) = t1
        ∧ diff_text2 (diff_compute_ st (fuel + 1) t1 t2 cl) = t2 := by
      intro t1 t2 cl
      rw [diff_compute_]
      simp only
      by_cases h1 : t1 = []
      · rw [if_pos h1]
        subst h1
        exact ⟨by simp [diff_text1], by simp [diff_text2]⟩
      · rw [if_neg h1]
        by_cases h2 : t2 = []
        · rw [if_pos h2]
          subst h2
          exact ⟨by simp [diff_text1], by simp [diff_text2]⟩
        · rw [if_neg h2]
          have hspeedup : ∀ (L S : Str), L = t1 ∧ S = t2 ∨ L = t2 ∧ S = t1 → S ≠ [] →
              ∀ k : Nat, jsIndexOf L S = (k : Int) →
              jsSubstring L 0 (k : Int) ++ S
                ++ jsSubstringFrom L ((k : Int) + S.length) = L := by
            intro L S _ _ k hk
            rcases jsIndexOfFrom_neg_or L S 0 with habs | ⟨k', hk', hk'le⟩
            · unfold jsIndexOf at hk
              rw [hk] at habs
              exact absurd habs (by omega)
            · have hkk : k' = k := by
                have hk2 : jsIndexOfFrom L S 0 = (k : Int) := hk
                rw [hk2] at hk'
                exact_mod_cast hk'.symm
              subst hkk
              have hocc := jsIndexOfFrom_sound L S 0 k' hk'
              have hbd := occursAt_bound L S k' hocc hk'le
              have hdecomp := occursAt_decomp L S k' hocc hk'le
              rw [jsSubstring_zero_nat _ _ (by omega)]
              have hcast : ((k' : Int) + S.length) = ((k' + S.length : Nat) : Int) := by
                push_cast; ring
              rw [hcast, jsSubstringFrom_nat _ _ (by omega)]
              exact hdecomp.symm
          by_cases hlen : t2.length < t1.length
          · simp only [if_pos hlen]
            by_cases hi : jsIndexOf t1 t2 = -1
            · rw [if_neg (not_not_intro hi)]
              by_cases hshort : t2.length = 1
              · rw [if_pos hshort]
                exact ⟨by simp [diff_text1], by simp [diff_text2]⟩
              · rw [if_neg hshort]
                rcases hhm : diff_halfMatch_ st t1 t2 with _ | ⟨a1, b1, a2, b2, mid⟩
                · by_cases hcl : cl = true ∧ 100 < t1.length ∧ 100 < t2.length
                  · rw [if_pos hcl]
                    exact ihl t1 t2
                  · rw [if_neg hcl]
                    exact ihb t1 t2
                · have hdec := diff_halfMatch_decomp st t1 t2 a1 b1 a2 b2 mid hhm
                  constructor
                  · rw [diff_text1_append, (ihm _ _ cl).1, diff_text1, (ihm _ _ cl).1]
                    simp only [iteDopNe Dop.equal Dop.insert (by decide)]
                    rw [← List.append_assoc]
                    exact hdec.1.symm
                  · rw [diff_text2_append, (ihm _ _ cl).2, diff_text2, (ihm _ _ cl).2]
                    simp only [iteDopNe Dop.equal Dop.delete (by decide)]
                    rw [← List.append_assoc]
                    exact hdec.2.symm
            · rw [if_pos hi]
              rcases jsIndexOfFrom_neg_or t1 t2 0 with habs | ⟨k, hk, hkle⟩
              · exact absurd habs hi
              · have hsp := hspeedup t1 t2 (Or.inl ⟨rfl, rfl⟩) h2 k hk
                have hk2 : jsIndexOf t1 t2 = (k : Int) := hk
                rw [hk2]
                constructor
                · simp only [diff_text1, iteDopNe Dop.delete Dop.insert (by decide),
                    iteDopNe Dop.equal Dop.insert (by decide), List.append_nil]
                  rw [← List.append_assoc]
                  exact hsp
                · simp [diff_text2, iteDopNe Dop.equal Dop.delete (by decide),
                    iteDopEq Dop.delete]
          · simp only [if_neg hlen]
            by_cases hi : jsIndexOf t2 t1 = -1
            · rw [if_neg (not_not_intro hi)]
              by_cases hshort : t1.length = 1
              · rw [if_pos hshort]
                exact ⟨by simp [diff_text1], by simp [diff_text2]⟩
              · rw [if_neg hshort]
                rcases hhm : diff_halfMatch_ st t1 t2 with _ | ⟨a1, b1, a2, b2, mid⟩
                · by_cases hcl : cl = true ∧ 100 < t1.length ∧ 100 < t2.length
                  · rw [if_pos hcl]
                    exact ihl t1 t2
                  · rw [if_neg hcl]
                    exact ihb t1 t2
                · have hdec := diff_halfMatch_decomp st t1 t2 a1 b1 a2 b2 mid hhm
                  constructor
                  · rw [diff_text1_append, (ihm _ _ cl).1, diff_text1, (ihm _ _ cl).1]
                    simp only [iteDopNe Dop.equal Dop.insert (by decide)]
                    rw [← List.append_assoc]
                    exact hdec.1.symm
                  · rw [diff_text2_append, (ihm _ _ cl).2, diff_text2, (ihm _ _ cl).2]
                    simp only [iteDopNe Dop.equal Dop.delete (by decide)]
                    rw [← List.append_assoc]
                    exact hdec.2.symm
            · rw [if_pos hi]
              rcases jsIndexOfFrom_neg_or t2 t1 0 with habs | ⟨k, hk, hkle⟩
              · exact absurd habs hi
              · have hsp := hspeedup t2 t1 (Or.inr ⟨rfl, rfl⟩) h1 k hk
                have hk2 : jsIndexOf t2 t1 = (k : Int) := hk
                rw [hk2]
                constructor
                · simp [diff_text1, iteDopNe Dop.equal Dop.insert (by decide),
                    iteDopEq Dop.insert]
                · simp only [diff_text2, iteDopNe Dop.insert Dop.delete (by decide),
                    iteDopNe Dop.equal Dop.delete (by decide), List.append_nil]
                  rw [← List.append_assoc]
                  exact hsp
    have hmain : ∀ t1 t2 cl, diff_text1 (diff_main st (fuel + 1) t1 t2 cl) = t1
        ∧ diff_text2 (diff_main st (fuel + 1) t1 t2 cl) = t2 := by
      intro t1 t2 cl
      rw [diff_main]
      simp only
      by_cases heq : t1 = t2
      · rw [if_pos heq]
        by_cases hne : t1 ≠ []
        · rw [if_pos hne]
          exact ⟨by simp [diff_text1], by simp [diff_text2, heq]⟩
        · rw [if_neg hne]
          push_neg at hne
          exact ⟨by simp [diff_text1, hne], by simp [diff_text2, ← heq, hne]⟩
      · rw [if_neg heq]
        obtain ⟨cp, hcp⟩ : ∃ x, diff_commonPrefixLen t1 t2 = x := ⟨_, rfl⟩
        rw [hcp]
        obtain ⟨t1a, ht1a⟩ : ∃ x, jsSubstringFrom t1 (cp : Int) = x := ⟨_, rfl⟩
        obtain ⟨t2a, ht2a⟩ : ∃ x, jsSubstringFrom t2 (cp : Int) = x := ⟨_, rfl⟩
        rw [ht1a, ht2a]
        obtain ⟨cs, hcs⟩ : ∃ x, diff_commonSuffixLen t1a t2a = x := ⟨_, rfl⟩
        rw [hcs]
        have hsplit1 : jsSubstring t1 0 (cp : Int) ++ t1a = t1 := by
          rw [← ht1a]
          exact jsSubstring_split t1 (cp : Int)
        have hfact2 : jsSubstring t1 0 (cp : Int) ++ t2a = t2 := by
          rw [← ht2a, ← hcp]
          exact cpFactor t1 t2
        have hsplit1b : jsSubstring t1a 0 ((t1a.length : Int) - cs)
            ++ jsSubstringFrom t1a ((t1a.length : Int) - cs) = t1a :=
          jsSubstring_split t1a _
        have hfact2b : jsSubstring t2a 0 ((t2a.length : Int) - cs)
            ++ jsSubstringFrom t1a ((t1a.length : Int) - cs) = t2a := by
          rw [← hcs]
          exact csFactor t1a t2a
        have hshape : ∀ (diffs : List Diff),
            (if jsSubstringFrom t1a ((t1a.length : Int) - cs) ≠ [] then
              (if jsSubstring t1 0 (cp : Int) ≠ [] then
                (Dop.equal, jsSubstring t1 0 (cp : Int)) :: diffs else diffs)
              ++ [(Dop.equal, jsSubstringFrom t1a ((t1a.length : Int) - cs))]
            else
              (if jsSubstring t1 0 (cp : Int) ≠ [] then
                (Dop.equal, jsSubstring t1 0 (cp : Int)) :: diffs else diffs))
            = (if jsSubstring t1 0 (cp : Int) ≠ [] then
                [(Dop.equal, jsSubstring t1 0 (cp : Int))] else [])
              ++ diffs
              ++ (if jsSubstringFrom t1a ((t1a.length : Int) - cs) ≠ [] then
                [(Dop.equal, jsSubstringFrom t1a ((t1a.length : Int) - cs))] else []) := by
          intro diffs
          by_cases ha : jsSubstring t1 0 (cp : Int) ≠ [] <;>
            by_cases hb : jsSubstringFrom t1a ((t1a.length : Int) - cs) ≠ [] <;>
            simp [ha, hb]
        have hifdt1 : ∀ (s : Str), diff_text1 (if s ≠ [] then [(Dop.equal, s)] else []) = s := by
          intro s
          by_cases hs : s ≠ []
          · simp [hs, diff_text1]
          · push_neg at hs
            simp [hs, diff_text1]
        have hifdt2 : ∀ (s : Str), diff_text2 (if s ≠ [] then [(Dop.equal, s)] else []) = s := by
          intro s
          by_cases hs : s ≠ []
          · simp [hs, diff_text2]
          · push_neg at hs
            simp [hs, diff_text2]
        rw [hshape]
        have hC := ihc (jsSubstring t1a 0 ((t1a.length : Int) - cs))
          (jsSubstring t2a 0 ((t2a.length : Int) - cs)) cl
        constructor
        · rw [(diff_cleanupMerge_recon _ _).1, diff_text1_append, diff_text1_append,
            hifdt1, hifdt1, hC.1]
          rw [List.append_assoc, hsplit1b, hsplit1]
        · rw [(diff_cleanupMerge_recon _ _).2, diff_text2_append, diff_text2_append,
            hifdt2, hifdt2, hC.2]
          rw [List.append_assoc, hfact2b, hfact2]
    exact ⟨hmain, hcompute, hline, hbisect, hsplit⟩

/-- C3: text diff reconstructs both inputs — for every pair of strings `a`
and `b` (and any settings, fuel and checklines flag), the concatenation of
equalities and deletions of `diff_main(a, b)` (`diff_text1`) is `a`, and the
concatenation of equalities and insertions (`diff_text2`) is `b`. -/
theorem C3_diff_main_reconstructs (st : DmpSettings) (fuel : Nat) (a b : Str)
    (checklines : Bool) :
    diff_text1 (diff_main st fuel a b checklines) = a
    ∧ diff_text2 (diff_main st fuel a b checklines) = b :=
  (diff_all_recon st fuel).1 a b checklines

/-! ### match_main / match_bitap_ -/

/-- JS exceptions thrown by the embedded code, by site:
`nullInput` ("Null input."), `patternTooLong` ("Pattern too long for this
browser."), `uriError` (the `URIError` of `encodeURI`/`decodeURI` on lone
surrogates and malformed escapes), `invalidDiffOperation` ("Invalid diff
operation in diff_fromDelta"), `deltaLengthMismatch` ("Delta length ... does
not equal source text length"), `typeError` (runtime `TypeError`s such as
reading a property of `undefined`). -/
inductive JsExn where
  | nullInput
  | patternTooLong
  | uriError
  | invalidDiffOperation
  | invalidNumber
  | deltaLengthMismatch
  | typeError
  | stackOverflow
deriving DecidableEq, Repr

def updN (f : Int → Nat) (k : Int) (v : Nat) : Int → Nat := fun i => if i = k then v else f i

/-- `match_bitapScore_(e, x)` (doubles modelled as exact rationals). -/
def match_bitapScore_ (st : DmpSettings) (pattern : Str) (loc : Int) (e : Nat) (x : Int) : Rat :=
  let accuracy : Rat := (e : Rat) / (pattern.length : Rat)
  let proximity : Int := |loc - x|
  if st.Match_Distance = 0 then
    if proximity ≠ 0 then 1 else accuracy
  else accuracy + (proximity : Rat) / (st.Match_Distance : Rat)

/-- `match_alphabet_(pattern)` as a total map, unmentioned characters at 0
(JS reads of absent keys give `undefined`, which the bitwise ops coerce
to 0). -/
def match_alphabet_ (pattern : Str) : Nat → Nat :=
  (List.range pattern.length).foldl
    (fun s i => fun c =>
      if c = pattern.getD i 0 then s c ||| ((1 <<< (pattern.length - i - 1)) % 2 ^ 32)
      else s c)
    (fun _ => 0)

/-- `s[text.charAt(j - 1)]`: a one-character string indexes the alphabet,
the empty string (out-of-range `charAt`) reads `undefined` → 0. -/
def alphaAt (s : Nat → Nat) (cs : Str) : Nat :=
  match cs with
  | [c] => s c
  | _ => 0

/-- The binary search of `match_bitap_` (`while (bin_min < bin_mid)`);
returns the final `bin_mid`. -/
def bitapBinLoop (st : DmpSettings) (pattern : Str) (loc : Int) (d : Nat)
    (threshold : Rat) : Nat → Int → Int → Int → Int
  | 0, _, bin_mid, _ => bin_mid
  | fuel + 1, bin_min, bin_mid, bin_max =>
    if bin_min < bin_mid then
      if match_bitapScore_ st pattern loc d (loc + bin_mid) ≤ threshold then
        bitapBinLoop st pattern loc d threshold fuel bin_mid
          (Int.fdiv (bin_max - bin_mid) 2 + bin_mid) bin_max
      else
        bitapBinLoop st pattern loc d threshold fuel bin_min
          (Int.fdiv (bin_mid - bin_min) 2 + bin_min) bin_mid
    else bin_mid

/-- The descending `for (var j = finish; j >= start; j--)` scan; returns the
updated `rd`, `best_loc` and `score_threshold`. -/
def bitapJLoop (st : DmpSettings) (text pattern : Str) (loc : Int) (s : Nat → Nat)
    (matchmask : Nat) (d : Nat) (last_rd : Int → Nat) :
    Nat → Int → (Int → Nat) → Int → Int → Rat → (Int → Nat) × Int × Rat
  | 0, _, rd, _, best_loc, threshold => (rd, best_loc, threshold)
  | fuel + 1, j, rd, start, best_loc, threshold =>
    if start ≤ j then
      let charMatch := alphaAt s (jsCharAt text (j - 1))
      let rdj :=
        if d = 0 then (((rd (j + 1) <<< 1) ||| 1) &&& charMatch) % 2 ^ 32
        else
          ((((rd (j + 1) <<< 1) ||| 1) &&& charMatch
            ||| (((last_rd (j + 1) ||| last_rd j) <<< 1) ||| 1)
            ||| last_rd (j + 1)) % 2 ^ 32)
      let rd' := updN rd j rdj
      if rdj &&& matchmask ≠ 0 then
        let score := match_bitapScore_ st pattern loc d (j - 1)
        if score ≤ threshold then
          if loc < j - 1 then
            bitapJLoop st text pattern loc s matchmask d last_rd fuel (j - 1) rd'
              (max 1 (2 * loc - (j - 1))) (j - 1) score
          else (rd', j - 1, score)
        else
          bitapJLoop st text pattern loc s matchmask d last_rd fuel (j - 1) rd'
            start best_loc threshold
      else
        bitapJLoop st text pattern loc s matchmask d last_rd fuel (j - 1) rd'
          start best_loc threshold
    else (rd, best_loc, threshold)

/-- The error-level loop (`for (var d = 0; d < pattern.length; d++)`). -/
def bitapDLoop (st : DmpSettings) (text pattern : Str) (loc : Int) (s : Nat → Nat)
    (matchmask : Nat) : Nat → Nat → Int → (Int → Nat) → Int → Rat → Int
  | 0, _, _, _, best_loc, _ => best_loc
  | fuel + 1, d, bin_max, last_rd, best_loc, threshold =>
    if d < pattern.length then
      let bin_mid := bitapBinLoop st pattern loc d threshold
        (pattern.length + text.length + 66) 0 bin_max bin_max
      let start := max 1 (loc - bin_mid + 1)
      let finish := min (loc + bin_mid) (text.length : Int) + pattern.length
      let rd0 := updN (fun _ => 0) (finish + 1) (((1 <<< d) - 1) % 2 ^ 32)
      let res := bitapJLoop st text pattern loc s matchmask d last_rd
        ((finish + 2).toNat) finish rd0 start best_loc threshold
      if res.2.2 < match_bitapScore_ st pattern loc (d + 1) loc then res.2.1
      else bitapDLoop st text pattern loc s matchmask fuel (d + 1) bin_mid res.1
        res.2.1 res.2.2
    else best_loc

/-- `match_bitap_(text, pattern, loc)`: refuses patterns longer than
`Match_MaxBits`, otherwise runs the bitap scan. -/
def match_bitap_ (st : DmpSettings) (text pattern : Str) (loc : Int) : Except JsExn Int :=
  if st.Match_MaxBits < pattern.length then Except.error JsExn.patternTooLong
  else
    let s := match_alphabet_ pattern
    let score_threshold := st.Match_Threshold
    let best_loc0 := jsIndexOfFrom text pattern loc
    let score_threshold :=
      if best_loc0 ≠ -1 then
        let t := min (match_bitapScore_ st pattern loc 0 best_loc0) score_threshold
        let best_loc1 := jsLastIndexOf text pattern (loc + pattern.length)
        if best_loc1 ≠ -1 then min (match_bitapScore_ st pattern loc 0 best_loc1) t
        else t
      else score_threshold
    let matchmask := (1 <<< (pattern.length - 1)) % 2 ^ 32
    Except.ok (bitapDLoop st text pattern loc s matchmask
      pattern.length 0 (pattern.length + text.length) (fun _ => 0) (-1) score_threshold)

/-- `match_main(text, pattern, loc)` (the null-input throw has no rendering:
`Str` values cannot be null). -/
def match_main (st : DmpSettings) (text pattern : Str) (loc : Int) : Except JsExn Int :=
  let loc := max 0 (min loc (text.length : Int))
  if text = pattern then Except.ok 0
  else if text.length = 0 then Except.ok (-1)
  else if jsSubstring text loc (loc + pattern.length) = pattern then Except.ok loc
  else match_bitap_ st text pattern loc

/-- C6 counterexample: the length precondition is not enforced at the API
boundary — `match_main` with a 33-unit pattern equal to the text returns
index 0 instead of failing (the equality shortcut runs before the
`Match_MaxBits` check of `match_bitap_`). -/
theorem C6_counterexample :
    dmpDefault.Match_MaxBits < (List.range 33).length
    ∧ match_main dmpDefault (List.range 33) (List.range 33) 0 = Except.ok 0 := by
  constructor
  · decide
  · rfl

/-- C6 (amended): a pattern longer than `Match_MaxBits` is refused whenever
none of the `match_main` shortcuts fires: if the text differs from the
pattern, is nonempty, and the pattern does not occur verbatim at the clamped
location, the call fails with the "Pattern too long" error. -/
theorem C6_amended (st : DmpSettings) (text pattern : Str) (loc : Int)
    (hlong : st.Match_MaxBits < pattern.length)
    (hne : text ≠ pattern)
    (hnonempty : text.length ≠ 0)
    (hsub : jsSubstring text (max 0 (min loc (text.length : Int)))
        (max 0 (min loc (text.length : Int)) + pattern.length) ≠ pattern) :
    match_main st text pattern loc = Except.error JsExn.patternTooLong := by
  rw [match_main]
  rw [if_neg hne, if_neg hnonempty, if_neg hsub, match_bitap_, if_pos hlong]

theorem C6_amended_witness :
    dmpDefault.Match_MaxBits < (List.range 33).length
    ∧ [7] ≠ List.range 33
    ∧ ([7] : Str).length ≠ 0
    ∧ jsSubstring [7] (max 0 (min 0 (([7] : Str).length : Int)))
        (max 0 (min 0 (([7] : Str).length : Int)) + (List.range 33).length) ≠ List.range 33
    ∧ match_main dmpDefault [7] (List.range 33) 0 = Except.error JsExn.patternTooLong :=
  ⟨by decide, by decide, by decide, by decide,
    C6_amended dmpDefault [7] (List.range 33) 0 (by decide) (by decide) (by decide) (by decide)⟩

/-! ### encodeURI / decodeURI and the delta codec

`encodeURI`/`decodeURI` are host builtins (not in the repository source);
they are modelled after the ECMAScript specification: UTF-16 code units,
lone surrogates raise `URIError`, characters outside the unreserved/reserved
set are percent-encoded as UTF-8, and decoding leaves escapes of the
reserved set (and `#`) untouched and validates strict UTF-8. -/

/-- Characters `encodeURI` leaves unescaped:
`A–Z a–z 0–9 ; , / ? : @ & = + $ - _ . ! ~ * ' ( ) #`. -/
def encodeURIOk (c : Nat) : Bool :=
  isAlphaNumUC c ||
  c == 59 || c == 44 || c == 47 || c == 63 || c == 58 || c == 64 || c == 38 ||
  c == 61 || c == 43 || c == 36 || c == 45 || c == 95 || c == 46 || c == 33 ||
  c == 126 || c == 42 || c == 39 || c == 40 || c == 41 || c == 35

/-- Uppercase hex digit of `n < 16`. -/
def hexDigitUC (n : Nat) : Nat := if n < 10 then 48 + n else 55 + n

/-- `%XY` escape of one byte. -/
def pctByte (b : Nat) : Str := [37, hexDigitUC (b / 16), hexDigitUC (b % 16)]

/-- UTF-8 bytes of a code point. -/
def utf8Bytes (cp : Nat) : List Nat :=
  if cp < 0x80 then [cp]
  else if cp < 0x800 then [0xC0 + cp / 64, 0x80 + cp % 64]
  else if cp < 0x10000 then
    [0xE0 + cp / 4096, 0x80 + (cp / 64) % 64, 0x80 + cp % 64]
  else
    [0xF0 + cp / 262144, 0x80 + (cp / 4096) % 64, 0x80 + (cp / 64) % 64, 0x80 + cp % 64]

def pctBytes (bs : List Nat) : Str := (bs.map pctByte).flatten

/-- `encodeURI` over code units; a lone surrogate raises `URIError`. -/
def encodeURI : Str → Except JsExn Str
  | [] => .ok []
  | c :: rest =>
    if encodeURIOk c then (fun e => c :: e) <$> encodeURI rest
    else if 0xD800 ≤ c ∧ c ≤ 0xDBFF then
      match rest with
      | c2 :: rest2 =>
        if 0xDC00 ≤ c2 ∧ c2 ≤ 0xDFFF then
          (fun e => pctBytes (utf8Bytes (0x10000 + (c - 0xD800) * 1024 + (c2 - 0xDC00))) ++ e)
            <$> encodeURI rest2
        else .error .uriError
      | [] => .error .uriError
    else if 0xDC00 ≤ c ∧ c ≤ 0xDFFF then .error .uriError
    else (fun e => pctBytes (utf8Bytes c) ++ e) <$> encodeURI rest

def hexVal (c : Nat) : Option Nat :=
  if 48 ≤ c ∧ c ≤ 57 then some (c - 48)
  else if 65 ≤ c ∧ c ≤ 70 then some (c - 55)
  else if 97 ≤ c ∧ c ≤ 102 then some (c - 87)
  else none

/-- Escapes `decodeURI` leaves intact: the reserved set plus `#`. -/
def decReserved (c : Nat) : Bool :=
  c == 59 || c == 47 || c == 63 || c == 58 || c == 64 || c == 38 || c == 61 ||
  c == 43 || c == 36 || c == 44 || c == 35

/-- Read one `%XY` escape. -/
def readPctByte : Str → Option (Nat × Str)
  | 37 :: h1 :: h2 :: rest =>
    match hexVal h1, hexVal h2 with
    | some v1, some v2 => some (16 * v1 + v2, rest)
    | _, _ => none
  | _ => none

/-- Valid continuation-byte range for the second byte of a UTF-8 sequence
with the given leading byte (strict table). -/
def utf8SecondRange (b1 : Nat) : Nat × Nat :=
  if b1 = 0xE0 then (0xA0, 0xBF)
  else if b1 = 0xED then (0x80, 0x9F)
  else if b1 = 0xF0 then (0x90, 0xBF)
  else if b1 = 0xF4 then (0x80, 0x8F)
  else (0x80, 0xBF)

/-- One step of `decodeURI`: the fuel falls by one per emitted chunk, and
`input.length + 1` is always enough. -/
def decodeURIGo : Nat → Str → Except JsExn Str
  | 0, _ => .error .uriError
  | _, [] => .ok []
  | fuel + 1, 37 :: h1 :: h2 :: rest =>
    match hexVal h1, hexVal h2 with
    | some v1, some v2 =>
      let b1 := 16 * v1 + v2
      if b1 < 0x80 then
        if decReserved b1 then (fun t => 37 :: h1 :: h2 :: t) <$> decodeURIGo fuel rest
        else (fun t => b1 :: t) <$> decodeURIGo fuel rest
      else if 0xC2 ≤ b1 ∧ b1 ≤ 0xDF then
        match readPctByte rest with
        | some (b2, rest2) =>
          if 0x80 ≤ b2 ∧ b2 ≤ 0xBF then
            (fun t => ((b1 - 0xC0) * 64 + (b2 - 0x80)) :: t) <$> decodeURIGo fuel rest2
          else .error .uriError
        | none => .error .uriError
      else if 0xE0 ≤ b1 ∧ b1 ≤ 0xEF then
        match readPctByte rest with
        | some (b2, rest2) =>
          if (utf8SecondRange b1).1 ≤ b2 ∧ b2 ≤ (utf8SecondRange b1).2 then
            match readPctByte rest2 with
            | some (b3, rest3) =>
              if 0x80 ≤ b3 ∧ b3 ≤ 0xBF then
                (fun t => ((b1 - 0xE0) * 4096 + (b2 - 0x80) * 64 + (b3 - 0x80)) :: t)
                  <$> decodeURIGo fuel rest3
              else .error .uriError
            | none => .error .uriError
          else .error .uriError
        | none => .error .uriError
      else if 0xF0 ≤ b1 ∧ b1 ≤ 0xF4 then
        match readPctByte rest with
        | some (b2, rest2) =>
          if (utf8SecondRange b1).1 ≤ b2 ∧ b2 ≤ (utf8SecondRange b1).2 then
            match readPctByte rest2 with
            | some (b3, rest3) =>
              if 0x80 ≤ b3 ∧ b3 ≤ 0xBF then
                match readPctByte rest3 with
                | some (b4, rest4) =>
                  if 0x80 ≤ b4 ∧ b4 ≤ 0xBF then
                    let cp := (b1 - 0xF0) * 262144 + (b2 - 0x80) * 4096
                      + (b3 - 0x80) * 64 + (b4 - 0x80)
                    (fun t => (0xD800 + (cp - 0x10000) / 1024)
                        :: (0xDC00 + (cp - 0x10000) % 1024) :: t)
                      <$> decodeURIGo (fuel - 1) rest4
                  else .error .uriError
                | none => .error .uriError
              else .error .uriError
            | none => .error .uriError
          else .error .uriError
        | none => .error .uriError
      else .error .uriError
    | _, _ => .error .uriError
  | _ + 1, 37 :: _ => .error .uriError
  | fuel + 1, c :: rest => (fun t => c :: t) <$> decodeURIGo fuel rest

def decodeURI (s : Str) : Except JsExn Str := decodeURIGo (s.length + 1) s

/-- The `.replace(/%20/g, ' ')` of `diff_toDelta` (left-to-right,
non-overlapping). -/
def replace20 : Str → Str
  | 37 :: 50 :: 48 :: rest => 32 :: replace20 rest
  | c :: rest => c :: replace20 rest
  | [] => []

/-- `Array.prototype.join('\t')`. -/
def joinTabs : List Str → Str
  | [] => []
  | [t] => t
  | t :: rest => t ++ 9 :: joinTabs rest

/-- `String.prototype.split(/\t/g)` (keeps empty fields). -/
def splitTabGo : Str → Str → List Str
  | [], acc => [acc.reverse]
  | 9 :: rest, acc => acc.reverse :: splitTabGo rest []
  | c :: rest, acc => splitTabGo rest (c :: acc)

def jsSplitTab (s : Str) : List Str := splitTabGo s []

/-- Decimal digits of a number (the `'' + n` of `diff_toDelta`). -/
def numStrGo : Nat → Nat → Str
  | 0, _ => []
  | fuel + 1, n => if n < 10 then [48 + n] else numStrGo fuel (n / 10) ++ [48 + n % 10]

def numStr (n : Nat) : Str := numStrGo (n + 1) n

/-- The token `diff_toDelta` writes for one tuple. -/
def deltaToken (d : Diff) : Except JsExn Str :=
  match d.1 with
  | Dop.insert => (fun e => 43 :: e) <$> encodeURI d.2
  | Dop.delete => .ok (45 :: numStr d.2.length)
  | Dop.equal => .ok (61 :: numStr d.2.length)

/-- `diff_toDelta(diffs)`. -/
def diff_toDelta (diffs : List Diff) : Except JsExn Str :=
  (fun toks => replace20 (joinTabs toks)) <$> diffs.mapM deltaToken

/-- `parseInt(s, 10)`: skip JS whitespace, optional sign, then the leading
run of decimal digits (`none` = `NaN`). -/
def jsParseInt10 (s : Str) : Option Int :=
  let s1 := s.dropWhile (fun c => isWhitespaceUC c)
  let sign : Int := if s1.headD 0 = 45 then -1 else 1
  let r := if s1.headD 0 = 45 ∨ s1.headD 0 = 43 then s1.tail else s1
  let ds := r.takeWhile (fun c => 48 ≤ c && c ≤ 57)
  if ds = [] then none
  else some (sign * (ds.foldl (fun acc c => 10 * acc + (c - 48)) 0 : Nat))

/-- The token loop of `diff_fromDelta` (`pointer` is the cursor in
`text1`). -/
def fromDeltaGo (text1 : Str) : List Str → Int → Except JsExn (List Diff)
  | [], pointer =>
    if pointer = (text1.length : Int) then .ok [] else .error .deltaLengthMismatch
  | tok :: rest, pointer =>
    match tok with
    | 43 :: param =>
      match decodeURI param with
      | .ok t => (fun ds => (Dop.insert, t) :: ds) <$> fromDeltaGo text1 rest pointer
      | .error _ => .error .uriError
    | c :: param =>
      if c = 45 ∨ c = 61 then
        match jsParseInt10 param with
        | none => .error .invalidNumber
        | some n =>
          if n < 0 then .error .invalidNumber
          else
            (fun ds => ((if c = 61 then Dop.equal else Dop.delete),
                jsSubstring text1 pointer (pointer + n)) :: ds)
              <$> fromDeltaGo text1 rest (pointer + n)
      else .error .invalidDiffOperation
    | [] => fromDeltaGo text1 rest pointer

/-- `diff_fromDelta(text1, delta)`. -/
def diff_fromDelta (text1 delta : Str) : Except JsExn (List Diff) :=
  fromDeltaGo text1 (jsSplitTab delta) 0

theorem numStrGo_digits (fuel n : Nat) : ∀ c ∈ numStrGo fuel n, 48 ≤ c ∧ c ≤ 57 := by
  induction fuel generalizing n with
  | zero => intro c hc; cases hc
  | succ fuel ih =>
    intro c hc
    rw [numStrGo] at hc
    by_cases hn : n < 10
    · rw [if_pos hn] at hc
      simp only [List.mem_singleton] at hc
      omega
    · rw [if_neg hn] at hc
      rcases List.mem_append.mp hc with hc | hc
      · exact ih _ c hc
      · simp only [List.mem_singleton] at hc
        have : n % 10 < 10 := Nat.mod_lt _ (by omega)
        omega

theorem numStr_digits (n : Nat) : ∀ c ∈ numStr n, 48 ≤ c ∧ c ≤ 57 :=
  numStrGo_digits _ n

theorem numStrGo_ne_nil (fuel n : Nat) (h : n < fuel) : numStrGo fuel n ≠ [] := by
  cases fuel with
  | zero => omega
  | succ fuel =>
    rw [numStrGo]
    by_cases hn : n < 10
    · simp [hn]
    · rw [if_neg hn]
      simp

theorem digitsFold_val (fuel : Nat) :
    ∀ n acc, n < fuel →
    (numStrGo fuel n).foldl (fun acc c => 10 * acc + (c - 48)) acc
      = acc * 10 ^ (numStrGo fuel n).length + n := by
  induction fuel with
  | zero => intro n acc h; omega
  | succ fuel ih =>
    intro n acc h
    rw [numStrGo]
    by_cases hn : n < 10
    · rw [if_pos hn]
      simp only [List.foldl_cons, List.foldl_nil, List.length_singleton]
      omega
    · rw [if_neg hn]
      rw [List.foldl_append]
      have hq : n / 10 < fuel := by
        have h1 : n / 10 < n := Nat.div_lt_self (by omega) (by omega)
        omega
      rw [ih (n / 10) acc hq]
      simp only [List.foldl_cons, List.foldl_nil, List.length_append,
        List.length_singleton]
      have hmod : n % 10 < 10 := Nat.mod_lt _ (by omega)
      have hdm : 10 * (n / 10) + n % 10 = n := Nat.div_add_mod n 10
      rw [pow_succ]
      have : 48 + n % 10 - 48 = n % 10 := by omega
      rw [this]
      ring_nf
      omega

theorem takeWhile_all (p : Nat → Bool) (l : Str) (h : ∀ c ∈ l, p c = true) :
    l.takeWhile p = l := by
  induction l with
  | nil => rfl
  | cons c r ih =>
    rw [List.takeWhile_cons]
    rw [h c (List.mem_cons_self _ _)]
    simp only [ite_true]
    rw [ih (fun x hx => h x (List.mem_cons_of_mem _ hx))]

theorem jsParseInt10_numStr (n : Nat) : jsParseInt10 (numStr n) = some ((n : Int)) := by
  have hdig := numStr_digits n
  have hne : numStr n ≠ [] := numStrGo_ne_nil _ n (by omega)
  unfold jsParseInt10
  have hdrop : (numStr n).dropWhile (fun c => isWhitespaceUC c) = numStr n := by
    rcases hx : numStr n with _ | ⟨d, rest⟩
    · rfl
    · have hd := hdig d (by rw [hx]; exact List.mem_cons_self _ _)
      rw [List.dropWhile_cons]
      have : isWhitespaceUC d = false := by
        unfold isWhitespaceUC
        simp only [Bool.or_eq_false_iff, Bool.and_eq_false_iff]
        refine ⟨⟨⟨⟨⟨⟨⟨⟨⟨⟨?_, ?_⟩, ?_⟩, ?_⟩, ?_⟩, ?_⟩, ?_⟩, ?_⟩, ?_⟩, ?_⟩, ?_⟩ <;>
          simp <;> omega
      simp [this]
  rw [hdrop]
  simp only
  have hhead : (numStr n).headD 0 ≠ 45 ∧ (numStr n).headD 0 ≠ 43 := by
    rcases hx : numStr n with _ | ⟨d, rest⟩
    · exact absurd hx hne
    · have hd := hdig d (by rw [hx]; exact List.mem_cons_self _ _)
      simp only [List.headD_cons]
      omega
  rw [if_neg hhead.1]
  have hr : (if (numStr n).headD 0 = 45 ∨ (numStr n).headD 0 = 43 then (numStr n).tail
      else numStr n) = numStr n := if_neg (by push_neg; exact hhead)
  rw [hr]
  have htake : (numStr n).takeWhile (fun c => 48 ≤ c && c ≤ 57) = numStr n :=
    takeWhile_all _ _ (fun c hc => by
      have := hdig c hc
      simp only [Bool.and_eq_true, decide_eq_true_eq]
      omega)
  rw [htake, if_neg hne]
  have hval := digitsFold_val (n + 1) n 0 (by omega)
  unfold numStr
  rw [hval]
  simp

theorem replace20_cons_ne (c : Nat) (r : Str) (hc : c ≠ 37) :
    replace20 (c :: r) = c :: replace20 r := by
  rw [replace20.eq_def]
  split
  · rename_i rest heq
    injection heq with h1 _
    exact absurd h1 hc
  · rename_i c' rest heq
    injection heq with h1 h2
    rw [h1, h2]
  · rename_i heq
    cases heq

theorem replace20_cons_37_ne (r : Str) (h : ∀ r', r ≠ 50 :: 48 :: r') :
    replace20 (37 :: r) = 37 :: replace20 r := by
  rw [replace20.eq_def]
  split
  · rename_i rest heq
    injection heq with _ h2
    exact absurd h2 (h rest)
  · rename_i c' rest heq
    injection heq with h1 h2
    rw [h1, h2]
  · rename_i heq
    cases heq

theorem replace20_pct20 (r : Str) : replace20 (37 :: 50 :: 48 :: r) = 32 :: replace20 r := rfl

/-- Stepping `replace20` over a `%XY` escape other than `%20` whose hex
digits are not `%` themselves. -/
theorem replace20_pct_ne (h1 h2 : Nat) (r : Str) (hh1 : h1 ≠ 37) (hh2 : h2 ≠ 37)
    (hne : ¬(h1 = 50 ∧ h2 = 48)) :
    replace20 (37 :: h1 :: h2 :: r) = 37 :: h1 :: h2 :: replace20 r := by
  rw [replace20_cons_37_ne _ (by
    intro r' he
    injection he with e1 e2
    injection e2 with e2 _
    exact hne ⟨e1, e2⟩)]
  rw [replace20_cons_ne _ _ hh1, replace20_cons_ne _ _ hh2]

theorem replace20_append_tab (a b : Str) :
    replace20 (a ++ 9 :: b) = replace20 a ++ 9 :: replace20 b := by
  induction a using replace20.induct with
  | case1 rest ih =>
    simp only [List.cons_append]
    rw [replace20_pct20, replace20_pct20, ih]
    simp
  | case2 c rest h ih =>
    simp only [List.cons_append]
    by_cases hc : c = 37
    · subst hc
      have hrest : ∀ r', rest ≠ 50 :: 48 :: r' := fun r' he => h r' rfl he
      have happ : ∀ r', rest ++ 9 :: b ≠ 50 :: 48 :: r' := by
        intro r' he
        rcases rest with _ | ⟨d1, _ | ⟨d2, rest2⟩⟩
        · simp only [List.nil_append] at he
          injection he with e _
          omega
        · simp only [List.cons_append, List.nil_append] at he
          injection he with _ e2
          injection e2 with e2 _
          omega
        · simp only [List.cons_append] at he
          injection he with e1 e2
          injection e2 with e2 e3
          exact hrest rest2 (by rw [e1, e2])
      rw [replace20_cons_37_ne _ happ, replace20_cons_37_ne _ hrest, ih]
      simp
    · rw [replace20_cons_ne _ _ hc, replace20_cons_ne _ _ hc, ih]
      simp
  | case3 =>
    rw [List.nil_append, replace20_cons_ne 9 _ (by omega)]
    rfl

theorem replace20_joinTabs (toks : List Str) :
    replace20 (joinTabs toks) = joinTabs (toks.map replace20) := by
  induction toks with
  | nil => rfl
  | cons t rest ih =>
    rcases rest with _ | ⟨t2, rest2⟩
    · rfl
    · have h1 : joinTabs (t :: t2 :: rest2) = t ++ 9 :: joinTabs (t2 :: rest2) := rfl
      have h2 : joinTabs (replace20 t :: replace20 t2 :: List.map replace20 rest2)
          = replace20 t ++ 9 :: joinTabs (replace20 t2 :: List.map replace20 rest2) := rfl
      rw [List.map_cons, List.map_cons, h1, h2, replace20_append_tab, ih, List.map_cons]

theorem splitTabGo_no_tab (t : Str) :
    ∀ acc : Str, 9 ∉ t → splitTabGo t acc = [acc.reverse ++ t] := by
  induction t with
  | nil =>
    intro acc _
    rw [splitTabGo]
    simp
  | cons c r ih =>
    intro acc h
    have hc : c ≠ 9 := fun he => h (he ▸ List.mem_cons_self _ _)
    rw [splitTabGo.eq_def]
    split
    · rename_i heq
      cases heq
    · rename_i rest heq
      injection heq with e _
      exact absurd e hc
    · rename_i c' rest heq
      injection heq with e1 e2
      subst e1
      subst e2
      rw [ih _ (fun hm => h (List.mem_cons_of_mem _ hm))]
      simp

theorem splitTabGo_append_tab (t rest : Str) :
    ∀ acc : Str, 9 ∉ t →
    splitTabGo (t ++ 9 :: rest) acc = (acc.reverse ++ t) :: splitTabGo rest [] := by
  induction t with
  | nil =>
    intro acc _
    simp only [List.nil_append]
    rw [splitTabGo]
    simp
  | cons c r ih =>
    intro acc h
    have hc : c ≠ 9 := fun he => h (he ▸ List.mem_cons_self _ _)
    simp only [List.cons_append]
    rw [splitTabGo.eq_def]
    split
    · rename_i heq
      cases heq
    · rename_i rest' heq
      injection heq with e _
      exact absurd e hc
    · rename_i c' rest' heq
      injection heq with e1 e2
      subst e1
      subst e2
      rw [ih _ (fun hm => h (List.mem_cons_of_mem _ hm))]
      simp

theorem jsSplitTab_joinTabs (toks : List Str) (hne : toks ≠ [])
    (htoks : ∀ t ∈ toks, 9 ∉ t) :
    jsSplitTab (joinTabs toks) = toks := by
  induction toks with
  | nil => exact absurd rfl hne
  | cons t rest ih =>
    rcases rest with _ | ⟨t2, rest2⟩
    · unfold jsSplitTab
      have h1 : joinTabs [t] = t := rfl
      rw [h1, splitTabGo_no_tab _ _ (htoks t (List.mem_cons_self _ _))]
      simp
    · unfold jsSplitTab
      have h1 : joinTabs (t :: t2 :: rest2) = t ++ 9 :: joinTabs (t2 :: rest2) := rfl
      rw [h1, splitTabGo_append_tab _ _ _ (htoks t (List.mem_cons_self _ _))]
      have := ih (by simp) (fun x hx => htoks x (List.mem_cons_of_mem _ hx))
      unfold jsSplitTab at this
      rw [this]
      simp

theorem hexVal_hexDigitUC (n : Nat) (h : n < 16) : hexVal (hexDigitUC n) = some n := by
  interval_cases n <;> rfl

theorem readPctByte_pct (b : Nat) (hb : b < 256) (rest : Str) :
    readPctByte (pctByte b ++ rest) = some (b, rest) := by
  unfold pctByte readPctByte
  simp only [List.cons_append, List.nil_append]
  rw [hexVal_hexDigitUC (b / 16) (by omega), hexVal_hexDigitUC (b % 16) (by omega)]
  have hb' : 16 * (b / 16) + b % 16 = b := by omega
  simp [hb']


theorem decodeURIGo_chunk_char (c : Nat) (hc : c ≠ 37) (rest : Str) (fuel : Nat) :
    decodeURIGo (fuel + 1) (c :: rest) = (fun t => c :: t) <$> decodeURIGo fuel rest := by
  rw [decodeURIGo.eq_def]
  split
  · omega
  · simp_all
  · simp_all
  · simp_all
  · rename_i fuelM cM restM g1 g2 hf hl
    injection hl with e1 e2
    subst e1
    subst e2
    have hfm : fuelM = fuel := by omega
    subst hfm
    rfl

theorem decodeURIGo_chunk_byte1 (b : Nat) (hb : b < 128) (hres : decReserved b = false)
    (rest : Str) (fuel : Nat) :
    decodeURIGo (fuel + 1) (pctByte b ++ rest) = (fun t => b :: t) <$> decodeURIGo fuel rest := by
  unfold pctByte
  simp only [List.cons_append, List.nil_append]
  rw [decodeURIGo.eq_def]
  simp only [hexVal_hexDigitUC (b / 16) (by omega), hexVal_hexDigitUC (b % 16) (by omega)]
  have hbb : 16 * (b / 16) + b % 16 = b := by omega
  simp only [hbb, hres, if_pos hb]
  simp

theorem decodeURIGo_chunk_2byte (cp : Nat) (hcp1 : 0x80 ≤ cp) (hcp2 : cp < 0x800)
    (rest : Str) (fuel : Nat) :
    decodeURIGo (fuel + 1) (pctBytes (utf8Bytes cp) ++ rest)
      = (fun t => cp :: t) <$> decodeURIGo fuel rest := by
  unfold utf8Bytes
  rw [if_neg (by omega), if_pos hcp2]
  have hshape : pctBytes [0xC0 + cp / 64, 0x80 + cp % 64]
      = pctByte (0xC0 + cp / 64) ++ pctByte (0x80 + cp % 64) := by
    simp [pctBytes]
  rw [hshape, List.append_assoc]
  unfold pctByte
  simp only [List.cons_append, List.nil_append]
  rw [decodeURIGo.eq_def]
  simp only [hexVal_hexDigitUC ((0xC0 + cp / 64) / 16) (by omega),
    hexVal_hexDigitUC ((0xC0 + cp / 64) % 16) (by omega)]
  have hb1 : 16 * ((0xC0 + cp / 64) / 16) + (0xC0 + cp / 64) % 16 = 0xC0 + cp / 64 := by omega
  simp only [hb1]
  rw [if_neg (by omega), if_pos (by omega : 0xC2 ≤ 0xC0 + cp / 64 ∧ 0xC0 + cp / 64 ≤ 0xDF)]
  have hrd := readPctByte_pct (0x80 + cp % 64) (by omega) rest
  simp only [pctByte, List.cons_append, List.nil_append] at hrd
  rw [hrd]
  simp only
  rw [if_pos (by omega : 0x80 ≤ 0x80 + cp % 64 ∧ 0x80 + cp % 64 ≤ 0xBF)]
  have hout : (0xC0 + cp / 64 - 0xC0) * 64 + (0x80 + cp % 64 - 0x80) = cp := by omega
  rw [hout]

theorem decodeURIGo_chunk_3byte (cp : Nat) (hcp1 : 0x800 ≤ cp) (hcp2 : cp < 0x10000)
    (hsurr : ¬(0xD800 ≤ cp ∧ cp ≤ 0xDFFF)) (rest : Str) (fuel : Nat) :
    decodeURIGo (fuel + 1) (pctBytes (utf8Bytes cp) ++ rest)
      = (fun t => cp :: t) <$> decodeURIGo fuel rest := by
  unfold utf8Bytes
  rw [if_neg (by omega), if_neg (by omega), if_pos (by omega : cp < 0x10000)]
  have hshape : pctBytes [0xE0 + cp / 4096, 0x80 + (cp / 64) % 64, 0x80 + cp % 64]
      = pctByte (0xE0 + cp / 4096)
        ++ (pctByte (0x80 + (cp / 64) % 64) ++ pctByte (0x80 + cp % 64)) := by
    simp [pctBytes]
  rw [hshape, List.append_assoc]
  conv_lhs => rw [show pctByte (0xE0 + cp / 4096)
    = 37 :: hexDigitUC ((0xE0 + cp / 4096) / 16) :: hexDigitUC ((0xE0 + cp / 4096) % 16) :: []
    from rfl]
  simp only [List.cons_append, List.nil_append]
  rw [decodeURIGo.eq_def]
  simp only [hexVal_hexDigitUC ((0xE0 + cp / 4096) / 16) (by omega),
    hexVal_hexDigitUC ((0xE0 + cp / 4096) % 16) (by omega)]
  have hb1 : 16 * ((0xE0 + cp / 4096) / 16) + (0xE0 + cp / 4096) % 16
      = 0xE0 + cp / 4096 := by omega
  simp only [hb1]
  rw [if_neg (by omega), if_neg (by omega), if_pos (by omega : 0xE0 ≤ 0xE0 + cp / 4096 ∧ 0xE0 + cp / 4096 ≤ 0xEF)]
  rw [List.append_assoc, readPctByte_pct (0x80 + (cp / 64) % 64) (by omega)]
  simp only
  have hrange : (utf8SecondRange (0xE0 + cp / 4096)).1 ≤ 0x80 + (cp / 64) % 64
      ∧ 0x80 + (cp / 64) % 64 ≤ (utf8SecondRange (0xE0 + cp / 4096)).2 := by
    unfold utf8SecondRange
    split_ifs <;> simp <;> omega
  rw [if_pos hrange]
  rw [readPctByte_pct (0x80 + cp % 64) (by omega)]
  simp only
  rw [if_pos (by omega : 0x80 ≤ 0x80 + cp % 64 ∧ 0x80 + cp % 64 ≤ 0xBF)]
  have hout : (0xE0 + cp / 4096 - 0xE0) * 4096 + (0x80 + (cp / 64) % 64 - 0x80) * 64
      + (0x80 + cp % 64 - 0x80) = cp := by omega
  rw [hout]

theorem decodeURIGo_chunk_4byte (cp : Nat) (hcp1 : 0x10000 ≤ cp) (hcp2 : cp ≤ 0x10FFFF)
    (rest : Str) (fuel : Nat) :
    decodeURIGo (fuel + 2) (pctBytes (utf8Bytes cp) ++ rest)
      = (fun t => (0xD800 + (cp - 0x10000) / 1024) :: (0xDC00 + (cp - 0x10000) % 1024) :: t)
        <$> decodeURIGo fuel rest := by
  unfold utf8Bytes
  rw [if_neg (by omega), if_neg (by omega), if_neg (by omega)]
  have hshape : pctBytes [0xF0 + cp / 262144, 0x80 + (cp / 4096) % 64,
      0x80 + (cp / 64) % 64, 0x80 + cp % 64]
      = pctByte (0xF0 + cp / 262144)
        ++ (pctByte (0x80 + (cp / 4096) % 64)
          ++ (pctByte (0x80 + (cp / 64) % 64) ++ pctByte (0x80 + cp % 64))) := by
    simp [pctBytes]
  rw [hshape, List.append_assoc]
  conv_lhs => rw [show pctByte (0xF0 + cp / 262144)
    = 37 :: hexDigitUC ((0xF0 + cp / 262144) / 16) :: hexDigitUC ((0xF0 + cp / 262144) % 16) :: []
    from rfl]
  simp only [List.cons_append, List.nil_append]
  rw [decodeURIGo.eq_def]
  simp only [hexVal_hexDigitUC ((0xF0 + cp / 262144) / 16) (by omega),
    hexVal_hexDigitUC ((0xF0 + cp / 262144) % 16) (by omega)]
  have hb1 : 16 * ((0xF0 + cp / 262144) / 16) + (0xF0 + cp / 262144) % 16
      = 0xF0 + cp / 262144 := by omega
  simp only [hb1]
  rw [if_neg (by omega), if_neg (by omega), if_neg (by omega),
    if_pos (by omega : 0xF0 ≤ 0xF0 + cp / 262144 ∧ 0xF0 + cp / 262144 ≤ 0xF4)]
  rw [List.append_assoc, readPctByte_pct (0x80 + (cp / 4096) % 64) (by omega)]
  simp only
  have hrange : (utf8SecondRange (0xF0 + cp / 262144)).1 ≤ 0x80 + (cp / 4096) % 64
      ∧ 0x80 + (cp / 4096) % 64 ≤ (utf8SecondRange (0xF0 + cp / 262144)).2 := by
    unfold utf8SecondRange
    split_ifs <;> simp <;> omega
  rw [if_pos hrange]
  rw [List.append_assoc, readPctByte_pct (0x80 + (cp / 64) % 64) (by omega)]
  simp only
  rw [if_pos (by omega : 0x80 ≤ 0x80 + (cp / 64) % 64 ∧ 0x80 + (cp / 64) % 64 ≤ 0xBF)]
  rw [readPctByte_pct (0x80 + cp % 64) (by omega)]
  simp only
  rw [if_pos (by omega : 0x80 ≤ 0x80 + cp % 64 ∧ 0x80 + cp % 64 ≤ 0xBF)]
  have hout : (0xF0 + cp / 262144 - 0xF0) * 262144 + (0x80 + (cp / 4096) % 64 - 0x80) * 4096
      + (0x80 + (cp / 64) % 64 - 0x80) * 64 + (0x80 + cp % 64 - 0x80) = cp := by omega
  rw [hout, Nat.add_sub_cancel]

theorem exceptMap_ok {α β : Type} (f : α → β) (v : α) :
    f <$> (Except.ok v : Except JsExn α) = Except.ok (f v) := rfl

theorem exceptMap_error {α β : Type} (f : α → β) (ex : JsExn) :
    f <$> (Except.error ex : Except JsExn α) = Except.error ex := rfl

/-- `replace20` passes the `%XY` escape of any byte other than 32
unchanged. -/
theorem replace20_pctByte (b : Nat) (hb32 : b ≠ 32) (r : Str) :
    replace20 (pctByte b ++ r) = pctByte b ++ replace20 r := by
  unfold pctByte
  simp only [List.cons_append, List.nil_append]
  rw [replace20_pct_ne (hexDigitUC (b / 16)) (hexDigitUC (b % 16)) r
    (by unfold hexDigitUC; split <;> omega)
    (by unfold hexDigitUC; split <;> omega)
    (by
      intro hpair
      obtain ⟨e1, e2⟩ := hpair
      unfold hexDigitUC at e1 e2
      split at e1 <;> split at e2 <;> omega)]

/-- `replace20` folds the escape of a space back into a space. -/
theorem replace20_pctByte32 (r : Str) :
    replace20 (pctByte 32 ++ r) = 32 :: replace20 r := by
  have h32 : pctByte 32 ++ r = 37 :: 50 :: 48 :: r := rfl
  rw [h32, replace20_pct20]

/-- `replace20` over a run of `%XY` escapes none of which is `%20`. -/
theorem replace20_pctBytes (bs : List Nat) (h : ∀ b ∈ bs, b ≠ 32) (r : Str) :
    replace20 (pctBytes bs ++ r) = pctBytes bs ++ replace20 r := by
  induction bs with
  | nil => simp [pctBytes]
  | cons b bs ih =>
    have hcons : pctBytes (b :: bs) = pctByte b ++ pctBytes bs := by simp [pctBytes]
    rw [hcons, List.append_assoc, replace20_pctByte b (h b (List.mem_cons_self b bs)),
      ih (fun x hx => h x (List.mem_cons_of_mem _ hx)), List.append_assoc]

/-- Core round-trip: decoding the `%20`-rewritten output of `encodeURI`
prepends the original string, consuming exactly `s.length` fuel, and that
output is at least as long as the input. -/
theorem encodeURI_decodeGo (n : Nat) : ∀ (s : Str), s.length ≤ n →
    (∀ c ∈ s, c < 0x10000) → ∀ e, encodeURI s = .ok e →
    s.length ≤ (replace20 e).length ∧
    ∀ (rest : Str) (fuel : Nat),
      decodeURIGo (s.length + fuel) (replace20 e ++ rest)
        = (fun t => s ++ t) <$> decodeURIGo fuel rest := by
  induction n with
  | zero =>
    intro s hs _ e he
    have hnil : s = [] := List.eq_nil_of_length_eq_zero (Nat.le_zero.mp hs)
    subst hnil
    rw [encodeURI] at he
    injection he with he'
    subst he'
    refine ⟨Nat.le_refl _, ?_⟩
    intro rest fuel
    simp only [List.length_nil, Nat.zero_add, replace20, List.nil_append]
    rcases hd : decodeURIGo fuel rest with ex | v <;> rfl
  | succ n ih =>
    intro s hs hunits e he
    rcases s with _ | ⟨c, s'⟩
    · rw [encodeURI] at he
      injection he with he'
      subst he'
      refine ⟨Nat.le_refl _, ?_⟩
      intro rest fuel
      simp only [List.length_nil, Nat.zero_add, replace20, List.nil_append]
      rcases hd : decodeURIGo fuel rest with ex | v <;> rfl
    · rw [encodeURI.eq_def] at he
      simp only [] at he
      have hs' : s'.length ≤ n := by simp only [List.length_cons] at hs; omega
      have hu' : ∀ x ∈ s', x < 0x10000 := fun x hx => hunits x (List.mem_cons_of_mem _ hx)
      have huc : c < 0x10000 := hunits c (List.mem_cons_self c s')
      by_cases hok : encodeURIOk c
      · rw [if_pos hok] at he
        rcases henc : encodeURI s' with ex | e'
        · rw [henc, exceptMap_error] at he
          cases he
        · rw [henc, exceptMap_ok] at he
          injection he with he'
          subst he'
          have hc37 : c ≠ 37 := by
            intro h
            subst h
            exact absurd hok (by decide)
          obtain ⟨ihlen, ihdec⟩ := ih s' hs' hu' e' henc
          refine ⟨?_, ?_⟩
          · rw [replace20_cons_ne c _ hc37]
            simp only [List.length_cons]
            omega
          · intro rest fuel
            rw [replace20_cons_ne c _ hc37]
            simp only [List.cons_append, List.length_cons]
            rw [show s'.length + 1 + fuel = (s'.length + fuel) + 1 from by omega]
            rw [decodeURIGo_chunk_char c hc37, ihdec rest fuel]
            rcases hd : decodeURIGo fuel rest with ex | v <;> rfl
      · rw [if_neg hok] at he
        by_cases hhi : 0xD800 ≤ c ∧ c ≤ 0xDBFF
        · rw [if_pos hhi] at he
          rcases s' with _ | ⟨c2, s''⟩
          · simp only [] at he
            cases he
          · simp only [] at he
            by_cases hlo : 0xDC00 ≤ c2 ∧ c2 ≤ 0xDFFF
            · rw [if_pos hlo] at he
              rcases henc : encodeURI s'' with ex | e'
              · rw [henc, exceptMap_error] at he
                cases he
              · rw [henc, exceptMap_ok] at he
                injection he with he'
                subst he'
                obtain ⟨ihlen, ihdec⟩ := ih s''
                  (by simp only [List.length_cons] at hs'; omega)
                  (fun x hx => hu' x (List.mem_cons_of_mem _ hx)) e' henc
                have hc1 : 0x10000 ≤ 0x10000 + (c - 0xD800) * 1024 + (c2 - 0xDC00) := by
                  omega
                have hc2 : 0x10000 + (c - 0xD800) * 1024 + (c2 - 0xDC00) ≤ 0x10FFFF := by
                  omega
                have h32 : ∀ b ∈ utf8Bytes (0x10000 + (c - 0xD800) * 1024 + (c2 - 0xDC00)),
                    b ≠ 32 := by
                  intro b hb
                  unfold utf8Bytes at hb
                  rw [if_neg (by omega), if_neg (by omega), if_neg (by omega)] at hb
                  simp only [List.mem_cons, List.not_mem_nil, or_false] at hb
                  rcases hb with h | h | h | h <;> omega
                have hlen4 :
                    (pctBytes (utf8Bytes (0x10000 + (c - 0xD800) * 1024 + (c2 - 0xDC00)))).length
                      = 12 := by
                  unfold utf8Bytes
                  rw [if_neg (by omega), if_neg (by omega), if_neg (by omega)]
                  rfl
                refine ⟨?_, ?_⟩
                · rw [replace20_pctBytes _ h32, List.length_append, hlen4]
                  simp only [List.length_cons]
                  omega
                · intro rest fuel
                  rw [replace20_pctBytes _ h32, List.append_assoc]
                  simp only [List.length_cons]
                  rw [show s''.length + 1 + 1 + fuel = (s''.length + fuel) + 2 from by omega]
                  rw [decodeURIGo_chunk_4byte _ hc1 hc2, ihdec rest fuel]
                  have e1 : 0xD800
                      + ((0x10000 + (c - 0xD800) * 1024 + (c2 - 0xDC00)) - 0x10000) / 1024
                      = c := by omega
                  have e2 : 0xDC00
                      + ((0x10000 + (c - 0xD800) * 1024 + (c2 - 0xDC00)) - 0x10000) % 1024
                      = c2 := by omega
                  simp only [e1, e2]
                  rcases hd : decodeURIGo fuel rest with ex | v <;> rfl
            · rw [if_neg hlo] at he
              cases he
        · rw [if_neg hhi] at he
          by_cases hlosurr : 0xDC00 ≤ c ∧ c ≤ 0xDFFF
          · rw [if_pos hlosurr] at he
            cases he
          · rw [if_neg hlosurr] at he
            rcases henc : encodeURI s' with ex | e'
            · rw [henc, exceptMap_error] at he
              cases he
            · rw [henc, exceptMap_ok] at he
              injection he with he'
              subst he'
              obtain ⟨ihlen, ihdec⟩ := ih s' hs' hu' e' henc
              by_cases hr1 : c < 0x80
              · have hbytes : pctBytes (utf8Bytes c) = pctByte c := by
                  unfold utf8Bytes
                  rw [if_pos hr1]
                  simp [pctBytes]
                by_cases hsp : c = 32
                · subst hsp
                  refine ⟨?_, ?_⟩
                  · rw [hbytes, replace20_pctByte32]
                    simp only [List.length_cons]
                    omega
                  · intro rest fuel
                    rw [hbytes, replace20_pctByte32]
                    simp only [List.cons_append, List.length_cons]
                    rw [show s'.length + 1 + fuel = (s'.length + fuel) + 1 from by omega]
                    rw [decodeURIGo_chunk_char 32 (by omega), ihdec rest fuel]
                    rcases hd : decodeURIGo fuel rest with ex | v <;> rfl
                · have hres : decReserved c = false := by
                    cases hdec : decReserved c with
                    | false => rfl
                    | true =>
                      exfalso
                      apply hok
                      unfold decReserved at hdec
                      simp only [Bool.or_eq_true, beq_iff_eq] at hdec
                      unfold encodeURIOk isAlphaNumUC
                      simp only [Bool.or_eq_true, Bool.and_eq_true, beq_iff_eq,
                        decide_eq_true_eq]
                      omega
                  refine ⟨?_, ?_⟩
                  · rw [hbytes, replace20_pctByte c hsp]
                    unfold pctByte
                    simp only [List.length_append, List.length_cons]
                    omega
                  · intro rest fuel
                    rw [hbytes, replace20_pctByte c hsp, List.append_assoc]
                    simp only [List.length_cons]
                    rw [show s'.length + 1 + fuel = (s'.length + fuel) + 1 from by omega]
                    rw [decodeURIGo_chunk_byte1 c hr1 hres, ihdec rest fuel]
                    rcases hd : decodeURIGo fuel rest with ex | v <;> rfl
              · by_cases hr2 : c < 0x800
                · have h32b : ∀ b ∈ utf8Bytes c, b ≠ 32 := by
                    intro b hb
                    unfold utf8Bytes at hb
                    rw [if_neg (by omega), if_pos hr2] at hb
                    simp only [List.mem_cons, List.not_mem_nil, or_false] at hb
                    rcases hb with h | h <;> omega
                  have hlen2 : (pctBytes (utf8Bytes c)).length = 6 := by
                    unfold utf8Bytes
                    rw [if_neg (by omega), if_pos hr2]
                    rfl
                  refine ⟨?_, ?_⟩
                  · rw [replace20_pctBytes _ h32b, List.length_append, hlen2]
                    simp only [List.length_cons]
                    omega
                  · intro rest fuel
                    rw [replace20_pctBytes _ h32b, List.append_assoc]
                    simp only [List.length_cons]
                    rw [show s'.length + 1 + fuel = (s'.length + fuel) + 1 from by omega]
                    rw [decodeURIGo_chunk_2byte c (by omega) hr2, ihdec rest fuel]
                    rcases hd : decodeURIGo fuel rest with ex | v <;> rfl
                · have hsur : ¬(0xD800 ≤ c ∧ c ≤ 0xDFFF) := by omega
                  have h32b : ∀ b ∈ utf8Bytes c, b ≠ 32 := by
                    intro b hb
                    unfold utf8Bytes at hb
                    rw [if_neg (by omega), if_neg (by omega), if_pos huc] at hb
                    simp only [List.mem_cons, List.not_mem_nil, or_false] at hb
                    rcases hb with h | h | h <;> omega
                  have hlen3 : (pctBytes (utf8Bytes c)).length = 9 := by
                    unfold utf8Bytes
                    rw [if_neg (by omega), if_neg (by omega), if_pos huc]
                    rfl
                  refine ⟨?_, ?_⟩
                  · rw [replace20_pctBytes _ h32b, List.length_append, hlen3]
                    simp only [List.length_cons]
                    omega
                  · intro rest fuel
                    rw [replace20_pctBytes _ h32b, List.append_assoc]
                    simp only [List.length_cons]
                    rw [show s'.length + 1 + fuel = (s'.length + fuel) + 1 from by omega]
                    rw [decodeURIGo_chunk_3byte c (by omega) huc hsur, ihdec rest fuel]
                    rcases hd : decodeURIGo fuel rest with ex | v <;> rfl

/-- Full `decodeURI` round-trip for an insert payload: decoding the
`%20`-rewritten `encodeURI` output recovers the original string. -/
theorem encodeURI_roundtrip (s : Str) (hunits : ∀ c ∈ s, c < 0x10000)
    (e : Str) (he : encodeURI s = .ok e) :
    decodeURI (replace20 e) = .ok s := by
  obtain ⟨hlen, hdec⟩ := encodeURI_decodeGo s.length s (Nat.le_refl _) hunits e he
  have hstep := hdec [] (((replace20 e).length - s.length) + 1)
  rw [List.append_nil] at hstep
  have hfuel : s.length + (((replace20 e).length - s.length) + 1)
      = (replace20 e).length + 1 := by omega
  rw [hfuel] at hstep
  unfold decodeURI
  rw [hstep]
  have hnil : decodeURIGo (((replace20 e).length - s.length) + 1) ([] : Str)
      = Except.ok [] := by
    rw [decodeURIGo.eq_def]
  rw [hnil, exceptMap_ok, List.append_nil]

theorem exceptBind_ok {α β : Type} (f : α → Except JsExn β) (v : α) :
    (Except.ok v : Except JsExn α) >>= f = f v := rfl

theorem exceptBind_error {α β : Type} (f : α → Except JsExn β) (ex : JsExn) :
    (Except.error ex : Except JsExn α) >>= f = Except.error ex := rfl

theorem exceptPure {α : Type} (v : α) : (pure v : Except JsExn α) = Except.ok v := rfl

/-- Every character of a `%XY` run is `%` or a hex digit (`≥ 48`). -/
theorem pctBytes_mem (bs : List Nat) : ∀ c ∈ pctBytes bs, c = 37 ∨ 48 ≤ c := by
  induction bs with
  | nil => intro c hc; cases hc
  | cons b bs ih =>
    intro c hc
    have hcons : pctBytes (b :: bs) = pctByte b ++ pctBytes bs := by simp [pctBytes]
    rw [hcons, List.mem_append] at hc
    rcases hc with hc | hc
    · unfold pctByte at hc
      simp only [List.mem_cons, List.not_mem_nil, or_false] at hc
      rcases hc with rfl | rfl | rfl
      · exact Or.inl rfl
      · refine Or.inr ?_
        unfold hexDigitUC
        split <;> omega
      · refine Or.inr ?_
        unfold hexDigitUC
        split <;> omega
    · exact ih c hc

/-- `encodeURI` output never contains a tab. -/
theorem encodeURI_no_tab (n : Nat) : ∀ (s : Str), s.length ≤ n →
    ∀ e, encodeURI s = .ok e → ∀ c ∈ e, c ≠ 9 := by
  induction n with
  | zero =>
    intro s hs e he c hc
    have hnil : s = [] := List.eq_nil_of_length_eq_zero (Nat.le_zero.mp hs)
    subst hnil
    rw [encodeURI] at he
    injection he with he'
    subst he'
    cases hc
  | succ n ih =>
    intro s hs e he c hc
    rcases s with _ | ⟨x, s'⟩
    · rw [encodeURI] at he
      injection he with he'
      subst he'
      cases hc
    · rw [encodeURI.eq_def] at he
      simp only [] at he
      have hs' : s'.length ≤ n := by simp only [List.length_cons] at hs; omega
      by_cases hok : encodeURIOk x
      · rw [if_pos hok] at he
        rcases henc : encodeURI s' with ex | e'
        · rw [henc, exceptMap_error] at he
          cases he
        · rw [henc, exceptMap_ok] at he
          injection he with he'
          subst he'
          rcases List.mem_cons.mp hc with rfl | hc'
          · intro h9
            subst h9
            exact absurd hok (by decide)
          · exact ih s' hs' e' henc c hc'
      · rw [if_neg hok] at he
        by_cases hhi : 0xD800 ≤ x ∧ x ≤ 0xDBFF
        · rw [if_pos hhi] at he
          rcases s' with _ | ⟨c2, s''⟩
          · simp only [] at he
            cases he
          · simp only [] at he
            by_cases hlo : 0xDC00 ≤ c2 ∧ c2 ≤ 0xDFFF
            · rw [if_pos hlo] at he
              rcases henc : encodeURI s'' with ex | e'
              · rw [henc, exceptMap_error] at he
                cases he
              · rw [henc, exceptMap_ok] at he
                injection he with he'
                subst he'
                rcases List.mem_append.mp hc with hc' | hc'
                · rcases pctBytes_mem _ c hc' with rfl | h48
                  · omega
                  · omega
                · exact ih s'' (by simp only [List.length_cons] at hs'; omega) e' henc c hc'
            · rw [if_neg hlo] at he
              cases he
        · rw [if_neg hhi] at he
          by_cases hlosurr : 0xDC00 ≤ x ∧ x ≤ 0xDFFF
          · rw [if_pos hlosurr] at he
            cases he
          · rw [if_neg hlosurr] at he
            rcases henc : encodeURI s' with ex | e'
            · rw [henc, exceptMap_error] at he
              cases he
            · rw [henc, exceptMap_ok] at he
              injection he with he'
              subst he'
              rcases List.mem_append.mp hc with hc' | hc'
              · rcases pctBytes_mem _ c hc' with rfl | h48
                · omega
                · omega
              · exact ih s' hs' e' henc c hc'

/-- `replace20` only removes characters or introduces spaces. -/
theorem replace20_mem (x : Str) : ∀ c ∈ replace20 x, c ∈ x ∨ c = 32 := by
  induction x using replace20.induct with
  | case1 rest ih =>
    intro c hc
    rw [replace20_pct20] at hc
    rcases List.mem_cons.mp hc with rfl | hc'
    · exact Or.inr rfl
    · rcases ih c hc' with h | h
      · exact Or.inl (by simp [h])
      · exact Or.inr h
  | case2 d rest h ih =>
    intro c hc
    by_cases hd : d = 37
    · subst hd
      rw [replace20_cons_37_ne _ (fun r' he => h r' rfl he)] at hc
      rcases List.mem_cons.mp hc with rfl | hc'
      · exact Or.inl (List.mem_cons_self _ _)
      · rcases ih c hc' with hm | hm
        · exact Or.inl (List.mem_cons_of_mem _ hm)
        · exact Or.inr hm
    · rw [replace20_cons_ne _ _ hd] at hc
      rcases List.mem_cons.mp hc with rfl | hc'
      · exact Or.inl (List.mem_cons_self _ _)
      · rcases ih c hc' with hm | hm
        · exact Or.inl (List.mem_cons_of_mem _ hm)
        · exact Or.inr hm
  | case3 =>
    intro c hc
    cases hc

/-- `replace20` is the identity on `%`-free strings. -/
theorem replace20_no37 (x : Str) (h : ∀ c ∈ x, c ≠ 37) : replace20 x = x := by
  induction x with
  | nil => rfl
  | cons c rest ih =>
    rw [replace20_cons_ne c rest (h c (List.mem_cons_self _ _)),
      ih (fun y hy => h y (List.mem_cons_of_mem _ hy))]

/-- No token produced by `diff_toDelta` contains a tab. -/
theorem deltaToken_no_tab (d : Diff) (tok : Str) (h : deltaToken d = .ok tok) :
    9 ∉ tok := by
  unfold deltaToken at h
  rcases d with ⟨op, t⟩
  cases op with
  | insert =>
    simp only [] at h
    rcases henc : encodeURI t with ex | e
    · rw [henc, exceptMap_error] at h
      cases h
    · rw [henc, exceptMap_ok] at h
      injection h with h'
      subst h'
      intro hmem
      rcases List.mem_cons.mp hmem with h9 | h9
      · omega
      · exact encodeURI_no_tab t.length t (Nat.le_refl _) e henc 9 h9 rfl
  | delete =>
    simp only [] at h
    injection h with h'
    subst h'
    intro hmem
    rcases List.mem_cons.mp hmem with h9 | h9
    · omega
    · have := numStr_digits t.length 9 h9
      omega
  | equal =>
    simp only [] at h
    injection h with h'
    subst h'
    intro hmem
    rcases List.mem_cons.mp hmem with h9 | h9
    · omega
    · have := numStr_digits t.length 9 h9
      omega

/-- Characters of an insertion tuple occur in `diff_text2`. -/
theorem insert_mem_text2 (diffs : List Diff) : ∀ d ∈ diffs, d.1 = Dop.insert →
    ∀ c ∈ d.2, c ∈ diff_text2 diffs := by
  induction diffs with
  | nil => intro d hd; cases hd
  | cons e rest ih =>
    intro d hd hins c hc
    have htext : diff_text2 (e :: rest)
        = (if e.1 = Dop.delete then [] else e.2) ++ diff_text2 rest := rfl
    rcases List.mem_cons.mp hd with rfl | hd'
    · rw [htext, hins]
      simp only [List.mem_append]
      exact Or.inl (by simp [hc])
    · rw [htext]
      exact List.mem_append.mpr (Or.inr (ih d hd' hins c hc))

/-- Every token of a successful `mapM deltaToken` comes from some tuple. -/
theorem mapM_deltaToken_mem (diffs : List Diff) : ∀ toks,
    diffs.mapM deltaToken = .ok toks →
    ∀ tok ∈ toks, ∃ d ∈ diffs, deltaToken d = .ok tok := by
  induction diffs with
  | nil =>
    intro toks htoks tok htok
    rw [List.mapM_nil, exceptPure] at htoks
    injection htoks with h'
    subst h'
    cases htok
  | cons d rest ih =>
    intro toks htoks tok htok
    rw [List.mapM_cons] at htoks
    rcases hdt : deltaToken d with ex | t0
    · rw [hdt, exceptBind_error] at htoks
      cases htoks
    · rw [hdt, exceptBind_ok] at htoks
      rcases hrest : rest.mapM deltaToken with ex | toks'
      · rw [hrest, exceptBind_error] at htoks
        cases htoks
      · rw [hrest, exceptBind_ok, exceptPure] at htoks
        injection htoks with h'
        subst h'
        rcases List.mem_cons.mp htok with rfl | htok'
        · exact ⟨d, List.mem_cons_self _ _, hdt⟩
        · obtain ⟨d', hd', hdt'⟩ := ih toks' hrest tok htok'
          exact ⟨d', List.mem_cons_of_mem _ hd', hdt'⟩

/-- Token-by-token inverse: with a prefix `pre` of `text1` already
consumed, decoding the `%20`-rewritten tokens of the remaining tuples
yields exactly those tuples. -/
theorem fromDeltaGo_spec (diffs : List Diff) :
    (∀ d ∈ diffs, d.1 = Dop.insert → ∀ c ∈ d.2, c < 0x10000) →
    ∀ toks, diffs.mapM deltaToken = .ok toks →
    ∀ (pre : Str),
    fromDeltaGo (pre ++ diff_text1 diffs) (toks.map replace20) ((pre.length : Int))
      = .ok diffs := by
  induction diffs with
  | nil =>
    intro _ toks htoks pre
    rw [List.mapM_nil, exceptPure] at htoks
    injection htoks with h'
    subst h'
    simp only [List.map_nil]
    rw [fromDeltaGo.eq_def]
    simp only []
    have hc : ((pre.length : Int)) = (((pre ++ diff_text1 []).length : Nat) : Int) := by
      simp [diff_text1]
    rw [if_pos hc]
  | cons d rest ih =>
    intro hins toks htoks pre
    rw [List.mapM_cons] at htoks
    rcases hdt : deltaToken d with ex | t0
    · rw [hdt, exceptBind_error] at htoks
      cases htoks
    · rw [hdt, exceptBind_ok] at htoks
      rcases hrest : rest.mapM deltaToken with ex | toks'
      · rw [hrest, exceptBind_error] at htoks
        cases htoks
      · rw [hrest, exceptBind_ok, exceptPure] at htoks
        injection htoks with h'
        subst h'
        have hinsrest : ∀ d' ∈ rest, d'.1 = Dop.insert → ∀ c ∈ d'.2, c < 0x10000 :=
          fun d' hd' => hins d' (List.mem_cons_of_mem _ hd')
        rcases d with ⟨op, t⟩
        cases op with
        | insert =>
          unfold deltaToken at hdt
          simp only [] at hdt
          rcases henc : encodeURI t with ex | e
          · rw [henc, exceptMap_error] at hdt
            cases hdt
          · rw [henc, exceptMap_ok] at hdt
            injection hdt with h'
            subst h'
            have htext : diff_text1 ((Dop.insert, t) :: rest) = diff_text1 rest := by
              simp [diff_text1]
            rw [htext]
            simp only [List.map_cons]
            rw [replace20_cons_ne 43 _ (by omega)]
            rw [fromDeltaGo.eq_def]
            simp only []
            have hunits : ∀ c ∈ t, c < 0x10000 :=
              hins (Dop.insert, t) (List.mem_cons_self _ _) rfl
            rw [encodeURI_roundtrip t hunits e henc]
            simp only []
            rw [ih hinsrest toks' hrest pre]
            rfl
        | delete =>
          unfold deltaToken at hdt
          simp only [] at hdt
          injection hdt with h'
          subst h'
          have htext : diff_text1 ((Dop.delete, t) :: rest) = t ++ diff_text1 rest := by
            simp [diff_text1]
          rw [htext]
          simp only [List.map_cons]
          rw [replace20_cons_ne 45 _ (by omega),
            replace20_no37 (numStr t.length)
              (fun c hc => by have := numStr_digits t.length c hc; omega)]
          rw [fromDeltaGo.eq_def]
          simp only []
          rw [if_pos (Or.inl trivial : True ∨ (45 : Nat) = 61)]
          rw [jsParseInt10_numStr t.length]
          simp only []
          rw [if_neg (by omega : ¬((t.length : Int) < 0))]
          have hsel : (if (45 : Nat) = 61 then Dop.equal else Dop.delete) = Dop.delete :=
            if_neg (by omega)
          rw [hsel]
          have hsub : jsSubstring (pre ++ (t ++ diff_text1 rest)) ((pre.length : Int))
              ((pre.length : Int) + (t.length : Int)) = t := by
            have hcast : ((pre.length : Int) + (t.length : Int))
                = (((pre.length + t.length : Nat)) : Int) := by push_cast; ring
            rw [hcast, jsSubstring_natural _ _ _ (by omega)
              (by simp only [List.length_append]; omega)]
            rw [List.drop_left, Nat.add_sub_cancel_left]
            exact List.take_left t (diff_text1 rest)
          rw [hsub]
          have hptr : ((pre.length : Int) + (t.length : Int))
              = (((pre ++ t).length : Nat) : Int) := by
            simp [List.length_append]
          rw [hptr]
          have hassoc : pre ++ (t ++ diff_text1 rest) = (pre ++ t) ++ diff_text1 rest :=
            (List.append_assoc pre t (diff_text1 rest)).symm
          rw [hassoc, ih hinsrest toks' hrest (pre ++ t)]
          rfl
        | equal =>
          unfold deltaToken at hdt
          simp only [] at hdt
          injection hdt with h'
          subst h'
          have htext : diff_text1 ((Dop.equal, t) :: rest) = t ++ diff_text1 rest := by
            simp [diff_text1]
          rw [htext]
          simp only [List.map_cons]
          rw [replace20_cons_ne 61 _ (by omega),
            replace20_no37 (numStr t.length)
              (fun c hc => by have := numStr_digits t.length c hc; omega)]
          rw [fromDeltaGo.eq_def]
          simp only []
          rw [if_pos (Or.inr trivial : (61 : Nat) = 45 ∨ True)]
          rw [jsParseInt10_numStr t.length]
          simp only []
          rw [if_neg (by omega : ¬((t.length : Int) < 0))]
          have hsel : (if True then Dop.equal else Dop.delete) = Dop.equal :=
            if_pos trivial
          rw [hsel]
          have hsub : jsSubstring (pre ++ (t ++ diff_text1 rest)) ((pre.length : Int))
              ((pre.length : Int) + (t.length : Int)) = t := by
            have hcast : ((pre.length : Int) + (t.length : Int))
                = (((pre.length + t.length : Nat)) : Int) := by push_cast; ring
            rw [hcast, jsSubstring_natural _ _ _ (by omega)
              (by simp only [List.length_append]; omega)]
            rw [List.drop_left, Nat.add_sub_cancel_left]
            exact List.take_left t (diff_text1 rest)
          rw [hsub]
          have hptr : ((pre.length : Int) + (t.length : Int))
              = (((pre ++ t).length : Nat) : Int) := by
            simp [List.length_append]
          rw [hptr]
          have hassoc : pre ++ (t ++ diff_text1 rest) = (pre ++ t) ++ diff_text1 rest :=
            (List.append_assoc pre t (diff_text1 rest)).symm
          rw [hassoc, ih hinsrest toks' hrest (pre ++ t)]
          rfl

/-- C5 (counterexample): `diff_main` splits the emoji pair U+1F600/U+1F601
after their common high surrogate, leaving a lone low surrogate in the
insertion tuple; `encodeURI` then throws `URIError`, so
`diff_toDelta (diff_main a b)` fails outright and the round-trip claimed
for every pair of strings does not hold. -/
theorem C5_counterexample :
    diff_toDelta (diff_main dmpDefault 10 [0xD83D, 0xDE00] [0xD83D, 0xDE01] true)
      = .error JsExn.uriError := rfl

/-- C5 (amended): whenever `diff_toDelta` succeeds on the output of
`diff_main` — and the destination string consists of valid UTF-16 code
units — `diff_fromDelta` applied to the source text recovers the diff
exactly (token-for-token, no residual coalescing needed). -/
theorem C5_amended (st : DmpSettings) (fuel : Nat) (a b : Str) (cl : Bool)
    (hb : ∀ c ∈ b, c < 0x10000) (delta : Str)
    (hd : diff_toDelta (diff_main st fuel a b cl) = .ok delta) :
    diff_fromDelta a delta = .ok (diff_main st fuel a b cl) := by
  obtain ⟨ht1, ht2⟩ := (diff_all_recon st fuel).1 a b cl
  unfold diff_toDelta at hd
  rcases hm : (diff_main st fuel a b cl).mapM deltaToken with ex | toks
  · rw [hm, exceptMap_error] at hd
    cases hd
  · rw [hm, exceptMap_ok] at hd
    injection hd with hd'
    subst hd'
    have hins : ∀ d ∈ diff_main st fuel a b cl, d.1 = Dop.insert →
        ∀ c ∈ d.2, c < 0x10000 := by
      intro d hdm hop c hc
      exact hb c (ht2 ▸ insert_mem_text2 _ d hdm hop c hc)
    rcases toks with _ | ⟨tk, tks⟩
    · have hdiffs : diff_main st fuel a b cl = [] := by
        rcases hdm : diff_main st fuel a b cl with _ | ⟨d0, ds⟩
        · rfl
        · rw [hdm, List.mapM_cons] at hm
          rcases hdt : deltaToken d0 with ex | t0
          · rw [hdt, exceptBind_error] at hm
            cases hm
          · rw [hdt, exceptBind_ok] at hm
            rcases hr : ds.mapM deltaToken with ex | ts
            · rw [hr, exceptBind_error] at hm
              cases hm
            · rw [hr, exceptBind_ok, exceptPure] at hm
              injection hm with hm'
              cases hm'
      rw [hdiffs] at ht1
      have ha : a = [] := by simpa [diff_text1] using ht1.symm
      subst ha
      rw [hdiffs]
      rfl
    · have hnotab : ∀ t ∈ List.map replace20 (tk :: tks), 9 ∉ t := by
        intro t ht h9
        rw [List.mem_map] at ht
        obtain ⟨t0, ht0, rfl⟩ := ht
        obtain ⟨d0, hd0, hdt0⟩ := mapM_deltaToken_mem _ _ hm t0 ht0
        rcases replace20_mem t0 9 h9 with hmem | hmem
        · exact deltaToken_no_tab d0 t0 hdt0 hmem
        · omega
      have hsplit : jsSplitTab (replace20 (joinTabs (tk :: tks)))
          = List.map replace20 (tk :: tks) := by
        rw [replace20_joinTabs]
        exact jsSplitTab_joinTabs _ (by simp) hnotab
      unfold diff_fromDelta
      rw [hsplit]
      have hgo := fromDeltaGo_spec (diff_main st fuel a b cl) hins (tk :: tks) hm []
      rw [List.nil_append, ht1] at hgo
      simpa using hgo

/-- C5 witness: on `"ab"` vs `"ac"` the delta `"=1\t-1\t+c"` decodes back to
the exact diff. -/
theorem C5_amended_witness :
    diff_fromDelta [97, 98] [61, 49, 9, 45, 49, 9, 43, 99]
      = .ok (diff_main dmpDefault 10 [97, 98] [97, 99] true) :=
  C5_amended dmpDefault 10 [97, 98] [97, 99] true (by decide)
    [61, 49, 9, 45, 49, 9, 43, 99] (by rfl)

/-! ### diff_cleanupEfficiency, diff_xIndex, diff_levenshtein and the patch
module (`patch_make`, `patch_apply`), used by the jsondiff layer below.
Imperative index loops with backward jumps become fueled state machines. -/

def boolNat (b : Bool) : Nat := if b then 1 else 0

structure EffState where
  diffs : List Diff
  changes : Bool
  equalities : List Nat
  lastequality : Str
  pointer : Int
  pre_ins : Bool
  pre_del : Bool
  post_ins : Bool
  post_del : Bool

/-- The scan loop of `diff_cleanupEfficiency`; the pointer can jump
backwards, so the loop is fueled. -/
def effLoop (st : DmpSettings) : Nat → EffState → EffState
  | 0, s => s
  | fuel + 1, s =>
    if s.pointer < (s.diffs.length : Int) then
      let d := getAt s.diffs s.pointer
      let s' :=
        if d.1 = Dop.equal then
          if d.2.length < st.Diff_EditCost ∧ (s.post_ins ∨ s.post_del) then
            { s with
              equalities := s.pointer.toNat :: s.equalities,
              pre_ins := s.post_ins, pre_del := s.post_del,
              lastequality := d.2,
              post_ins := false, post_del := false }
          else
            { s with
              equalities := [], lastequality := [],
              post_ins := false, post_del := false }
        else
          let s1 := if d.1 = Dop.delete then { s with post_del := true }
                    else { s with post_ins := true }
          if s1.lastequality ≠ [] ∧
              ((s1.pre_ins ∧ s1.pre_del ∧ s1.post_ins ∧ s1.post_del) ∨
               (2 * s1.lastequality.length < st.Diff_EditCost ∧
                boolNat s1.pre_ins + boolNat s1.pre_del + boolNat s1.post_ins
                  + boolNat s1.post_del = 3)) then
            let top := s1.equalities.headD 0
            let diffs2 := setOpAt
              (listInsertAt s1.diffs top (Dop.delete, s1.lastequality)) (top + 1) Dop.insert
            let eqs1 := s1.equalities.tail
            if s1.pre_ins ∧ s1.pre_del then
              { s1 with
                diffs := diffs2, lastequality := [],
                post_ins := true, post_del := true,
                equalities := [], changes := true }
            else
              let eqs2 := eqs1.tail
              let ptr : Int := match eqs2 with
                | [] => -1
                | e :: _ => (e : Int)
              { s1 with
                diffs := diffs2, lastequality := [],
                equalities := eqs2, pointer := ptr,
                post_ins := false, post_del := false, changes := true }
          else s1
      effLoop st fuel { s' with pointer := s'.pointer + 1 }
    else s

/-- `diff_cleanupEfficiency(diffs)`. -/
def diff_cleanupEfficiency (st : DmpSettings) (fuel : Nat) (diffs : List Diff) :
    List Diff :=
  let init : EffState :=
    { diffs := diffs, changes := false, equalities := [],
      lastequality := [], pointer := 0, pre_ins := false, pre_del := false,
      post_ins := false, post_del := false }
  let fin := effLoop st fuel init
  if fin.changes then diff_cleanupMerge (fin.diffs.length + 2) fin.diffs else fin.diffs

/-- The scan of `diff_xIndex` with its mid-loop break. -/
def xIndexGo (loc : Int) : List Diff → Int → Int → Int → Int → Int
  | [], _, _, last1, last2 => last2 + (loc - last1)
  | d :: rest, chars1, chars2, last1, last2 =>
    let c1 := if d.1 ≠ Dop.insert then chars1 + (d.2.length : Int) else chars1
    let c2 := if d.1 ≠ Dop.delete then chars2 + (d.2.length : Int) else chars2
    if loc < c1 then
      if d.1 = Dop.delete then last2 else last2 + (loc - last1)
    else xIndexGo loc rest c1 c2 c1 c2

/-- `diff_xIndex(diffs, loc)`. -/
def diff_xIndex (diffs : List Diff) (loc : Int) : Int := xIndexGo loc diffs 0 0 0 0

def levGo : List Diff → Nat → Nat → Nat → Nat
  | [], lev, ins, del => lev + max ins del
  | d :: rest, lev, ins, del =>
    match d.1 with
    | Dop.insert => levGo rest lev (ins + d.2.length) del
    | Dop.delete => levGo rest lev ins (del + d.2.length)
    | Dop.equal => levGo rest (lev + max ins del) 0 0

/-- `diff_levenshtein(diffs)`. -/
def diff_levenshtein (diffs : List Diff) : Nat := levGo diffs 0 0 0

/-- `diff_match_patch.patch_obj` (`start1`/`start2` are initialised to
`null` in the source but are always assigned before use on the executed
paths; they are numbers here). -/
structure Patch where
  diffs : List Diff := []
  start1 : Int := 0
  start2 : Int := 0
  length1 : Int := 0
  length2 : Int := 0

/-- The pattern-growing loop of `patch_addContext_`. -/
def addContextLoop (st : DmpSettings) (text : Str) (start2 len1 : Int) :
    Nat → Nat → Nat
  | 0, padding => padding
  | fuel + 1, padding =>
    let pattern := jsSubstring text (start2 - padding) (start2 + len1 + padding)
    if jsIndexOf text pattern ≠ jsLastIndexOf text pattern (text.length : Int) ∧
        pattern.length + 2 * st.Patch_Margin < st.Match_MaxBits then
      addContextLoop st text start2 len1 fuel (padding + st.Patch_Margin)
    else padding

/-- `patch_addContext_(patch, text)`. -/
def patch_addContext_ (st : DmpSettings) (p : Patch) (text : Str) : Patch :=
  if text.length = 0 then p
  else
    let padding := addContextLoop st text p.start2 p.length1 (st.Match_MaxBits + 1) 0
      + st.Patch_Margin
    let pref := jsSubstring text (p.start2 - padding) p.start2
    let suff := jsSubstring text (p.start2 + p.length1) (p.start2 + p.length1 + padding)
    let diffs1 := if pref ≠ [] then (Dop.equal, pref) :: p.diffs else p.diffs
    let diffs2 := if suff ≠ [] then diffs1 ++ [(Dop.equal, suff)] else diffs1
    { diffs := diffs2,
      start1 := p.start1 - pref.length,
      start2 := p.start2 - pref.length,
      length1 := p.length1 + pref.length + suff.length,
      length2 := p.length2 + pref.length + suff.length }

/-- The per-tuple loop of `patch_make` (text1 + diffs call format, the one
this program uses). -/
def patch_make_go (st : DmpSettings) :
    List Diff → List Patch → Patch → Int → Int → Str → Str → List Patch
  | [], patches, patch, _, _, prepatch, _ =>
    if patch.diffs ≠ [] then patches ++ [patch_addContext_ st patch prepatch] else patches
  | (ty, tx) :: rest, patches, patch0, cc1, cc2, prepatch, postpatch =>
    let patch := if patch0.diffs = [] ∧ ty ≠ Dop.equal then
        { patch0 with start1 := cc1, start2 := cc2 } else patch0
    match ty with
    | Dop.insert =>
      let patch' := { patch with
                      diffs := patch.diffs ++ [(ty, tx)],
                      length2 := patch.length2 + tx.length }
      let postpatch' := jsSubstring postpatch 0 cc2 ++ tx ++ jsSubstringFrom postpatch cc2
      patch_make_go st rest patches patch' cc1 (cc2 + tx.length) prepatch postpatch'
    | Dop.delete =>
      let patch' := { patch with
                      diffs := patch.diffs ++ [(ty, tx)],
                      length1 := patch.length1 + tx.length }
      let postpatch' := jsSubstring postpatch 0 cc2
        ++ jsSubstringFrom postpatch (cc2 + tx.length)
      patch_make_go st rest patches patch' (cc1 + tx.length) cc2 prepatch postpatch'
    | Dop.equal =>
      if tx.length ≤ 2 * st.Patch_Margin ∧ patch.diffs ≠ [] ∧ rest ≠ [] then
        let patch' := { patch with
                        diffs := patch.diffs ++ [(ty, tx)],
                        length1 := patch.length1 + tx.length,
                        length2 := patch.length2 + tx.length }
        patch_make_go st rest patches patch' (cc1 + tx.length) (cc2 + tx.length)
          prepatch postpatch
      else if 2 * st.Patch_Margin ≤ tx.length ∧ patch.diffs ≠ [] then
        let patches' := patches ++ [patch_addContext_ st patch prepatch]
        patch_make_go st rest patches' {} (cc2 + tx.length) (cc2 + tx.length)
          postpatch postpatch
      else
        patch_make_go st rest patches patch (cc1 + tx.length) (cc2 + tx.length)
          prepatch postpatch

/-- `patch_make(text1, diffs)` (call format 3, the only one this program
uses). -/
def patch_make (st : DmpSettings) (text1 : Str) (diffs : List Diff) : List Patch :=
  if diffs = [] then []
  else patch_make_go st diffs [] {} 0 0 text1 text1

/-- `patch_deepCopy`: values are immutable in this embedding, so the
structural copy is the identity. -/
def patch_deepCopy (patches : List Patch) : List Patch := patches

def modifyLastPatch (f : Patch → Patch) : List Patch → List Patch
  | [] => []
  | [p] => [f p]
  | p :: rest => p :: modifyLastPatch f rest

/-- `patch_addPadding(patches)`: returns the padding string and the bumped
patches. -/
def patch_addPadding (st : DmpSettings) (patches : List Patch) : Str × List Patch :=
  let pl := st.Patch_Margin
  let nullPadding : Str := (List.range pl).map (fun x => x + 1)
  let ps := patches.map (fun p =>
    { p with start1 := p.start1 + pl, start2 := p.start2 + pl })
  let fixFirst : Patch → Patch := fun p =>
    match p.diffs with
    | [] =>
      { p with
        diffs := [(Dop.equal, nullPadding)], start1 := p.start1 - pl,
        start2 := p.start2 - pl, length1 := p.length1 + pl, length2 := p.length2 + pl }
    | (ty, tx) :: rest =>
      if ty ≠ Dop.equal then
        { p with
          diffs := (Dop.equal, nullPadding) :: (ty, tx) :: rest,
          start1 := p.start1 - pl, start2 := p.start2 - pl,
          length1 := p.length1 + pl, length2 := p.length2 + pl }
      else if tx.length < pl then
        let extra := pl - tx.length
        { p with
          diffs := (Dop.equal, nullPadding.drop tx.length ++ tx) :: rest,
          start1 := p.start1 - extra, start2 := p.start2 - extra,
          length1 := p.length1 + extra, length2 := p.length2 + extra }
      else p
  let fixLast : Patch → Patch := fun p =>
    match p.diffs.getLast? with
    | none =>
      { p with
        diffs := [(Dop.equal, nullPadding)],
        length1 := p.length1 + pl, length2 := p.length2 + pl }
    | some (ty, tx) =>
      if ty ≠ Dop.equal then
        { p with
          diffs := p.diffs ++ [(Dop.equal, nullPadding)],
          length1 := p.length1 + pl, length2 := p.length2 + pl }
      else if tx.length < pl then
        let extra := pl - tx.length
        { p with
          diffs := p.diffs.dropLast ++ [(Dop.equal, tx ++ nullPadding.take extra)],
          length1 := p.length1 + extra, length2 := p.length2 + extra }
      else p
  match ps with
  | [] => (nullPadding, [])
  | first :: rest => (nullPadding, modifyLastPatch fixLast (fixFirst first :: rest))

/-- The inner chunk loop of `patch_splitMax`: fill one small patch from the
front of the big patch's tuples.  Returns the patch, the updated start
counters, the remaining tuples and the `empty` flag. -/
def splitChunkLoop (st : DmpSettings) :
    Nat → Patch → Int → Int → List Diff → Bool → Patch × Int × Int × List Diff × Bool
  | 0, p, s1, s2, bd, empty => (p, s1, s2, bd, empty)
  | fuel + 1, p, s1, s2, bd, empty =>
    match bd with
    | [] => (p, s1, s2, [], empty)
    | (ty, tx) :: bdrest =>
      if ¬(p.length1 < (st.Match_MaxBits : Int) - st.Patch_Margin) then
        (p, s1, s2, (ty, tx) :: bdrest, empty)
      else if ty = Dop.insert then
        splitChunkLoop st fuel
          { p with
            length2 := p.length2 + tx.length,
            diffs := p.diffs ++ [(ty, tx)] }
          s1 (s2 + tx.length) bdrest false
      else if ty = Dop.delete ∧ p.diffs.length = 1 ∧
          (p.diffs.headD (Dop.equal, [])).1 = Dop.equal ∧
          2 * st.Match_MaxBits < tx.length then
        splitChunkLoop st fuel
          { p with
            length1 := p.length1 + tx.length,
            diffs := p.diffs ++ [(ty, tx)] }
          (s1 + tx.length) s2 bdrest false
      else
        let tx' := jsSubstring tx 0 ((st.Match_MaxBits : Int) - p.length1 - st.Patch_Margin)
        let p1 := { p with
                    length1 := p.length1 + tx'.length,
                    length2 := if ty = Dop.equal then p.length2 + tx'.length else p.length2,
                    diffs := p.diffs ++ [(ty, tx')] }
        let s1' := s1 + tx'.length
        let s2' := if ty = Dop.equal then s2 + tx'.length else s2
        let empty' := if ty = Dop.equal then empty else false
        let bd' := if tx' = tx then bdrest else (ty, tx.drop tx'.length) :: bdrest
        splitChunkLoop st fuel p1 s1' s2' bd' empty'

/-- The outer while of `patch_splitMax` over one oversized patch. -/
def splitBigLoop (st : DmpSettings) :
    Nat → Int → Int → Str → List Diff → List Patch → List Patch
  | 0, _, _, _, _, acc => acc
  | fuel + 1, s1, s2, precontext, bd, acc =>
    match bd with
    | [] => acc
    | _ =>
      let p0 : Patch :=
        { diffs := if precontext ≠ [] then [(Dop.equal, precontext)] else [],
          start1 := s1 - precontext.length, start2 := s2 - precontext.length,
          length1 := if precontext ≠ [] then (precontext.length : Int) else 0,
          length2 := if precontext ≠ [] then (precontext.length : Int) else 0 }
      match splitChunkLoop st (fuel + 1) p0 s1 s2 bd true with
      | (p1, s1', s2', bd', empty) =>
        let t2 := diff_text2 p1.diffs
        let precontext' := jsSubstringFrom t2 ((t2.length : Int) - st.Patch_Margin)
        let postcontext := jsSubstring (diff_text1 bd') 0 (st.Patch_Margin : Int)
        let p2 :=
          if postcontext ≠ [] then
            let pgrown := { p1 with
                            length1 := p1.length1 + postcontext.length,
                            length2 := p1.length2 + postcontext.length }
            match p1.diffs.getLast? with
            | some (Dop.equal, lastTx) =>
              { pgrown with
                diffs := p1.diffs.dropLast ++ [(Dop.equal, lastTx ++ postcontext)] }
            | _ => { pgrown with diffs := p1.diffs ++ [(Dop.equal, postcontext)] }
          else p1
        let acc' := if ¬empty then acc ++ [p2] else acc
        splitBigLoop st fuel s1' s2' precontext' bd' acc'

/-- `patch_splitMax(patches)`. -/
def patch_splitMax (st : DmpSettings) (fuel : Nat) : List Patch → List Patch
  | [] => []
  | p :: rest =>
    if (st.Match_MaxBits : Int) < p.length1 then
      splitBigLoop st fuel p.start1 p.start2 [] p.diffs []
        ++ patch_splitMax st fuel rest
    else p :: patch_splitMax st fuel rest

/-- The per-mod loop of the imperfect-match branch of `patch_apply`. -/
def applyMods (diffs : List Diff) (start_loc : Int) :
    List Diff → Str → Int → Int → Str
  | [], text, _, _ => text
  | (ty, tx) :: mods, text, index1, index2 =>
    let index2' := if ty ≠ Dop.equal then diff_xIndex diffs index1 else index2
    let text' :=
      if ty = Dop.insert then
        jsSubstring text 0 (start_loc + index2') ++ tx
          ++ jsSubstringFrom text (start_loc + index2')
      else if ty = Dop.delete then
        jsSubstring text 0 (start_loc + index2')
          ++ jsSubstringFrom text (start_loc + diff_xIndex diffs (index1 + tx.length))
      else text
    let index1' := if ty ≠ Dop.delete then index1 + (tx.length : Int) else index1
    applyMods diffs start_loc mods text' index1' index2'

/-- The per-patch loop of `patch_apply`. -/
def applyLoop (st : DmpSettings) (fuel : Nat) :
    List Patch → Str → Int → List Bool → Except JsExn (Str × List Bool)
  | [], text, _, results => .ok (text, results.reverse)
  | p :: rest, text, delta, results =>
    let expected_loc := p.start2 + delta
    let t1 := diff_text1 p.diffs
    let slel : Except JsExn (Int × Int) :=
      if (st.Match_MaxBits : Nat) < t1.length then
        match match_main st text (jsSubstring t1 0 (st.Match_MaxBits : Int)) expected_loc with
        | .error e => .error e
        | .ok sl =>
          if sl ≠ -1 then
            match match_main st text
                (jsSubstringFrom t1 ((t1.length : Int) - (st.Match_MaxBits : Int)))
                (expected_loc + (t1.length : Int) - (st.Match_MaxBits : Int)) with
            | .error e => .error e
            | .ok el => if el = -1 ∨ el ≤ sl then .ok (-1, el) else .ok (sl, el)
          else .ok (sl, -1)
      else
        match match_main st text t1 expected_loc with
        | .error e => .error e
        | .ok sl => .ok (sl, -1)
    match slel with
    | .error e => .error e
    | .ok (start_loc, end_loc) =>
      if start_loc = -1 then
        applyLoop st fuel rest text (delta - (p.length2 - p.length1)) (false :: results)
      else
        let delta' := start_loc - expected_loc
        let text2 := if end_loc = -1 then jsSubstring text start_loc (start_loc + t1.length)
                     else jsSubstring text start_loc (end_loc + st.Match_MaxBits)
        if t1 = text2 then
          applyLoop st fuel rest
            (jsSubstring text 0 start_loc ++ diff_text2 p.diffs
              ++ jsSubstringFrom text (start_loc + t1.length))
            delta' (true :: results)
        else
          let diffs := diff_main st fuel t1 text2 false
          if (st.Match_MaxBits : Nat) < t1.length ∧
              st.Patch_DeleteThreshold * (t1.length : Rat) < (diff_levenshtein diffs : Rat) then
            applyLoop st fuel rest text delta' (false :: results)
          else
            let diffs2 := diff_cleanupSemanticLossless diffs
            applyLoop st fuel rest (applyMods diffs2 start_loc p.diffs text 0 0)
              delta' (true :: results)

/-- `patch_apply(patches, text)`. -/
def patch_apply (st : DmpSettings) (fuel : Nat) (patches : List Patch) (text : Str) :
    Except JsExn (Str × List Bool) :=
  match patches with
  | [] => .ok (text, [])
  | _ :: _ =>
    let patches1 := patch_deepCopy patches
    match patch_addPadding st patches1 with
    | (nullPadding, patches2) =>
      let text1 := nullPadding ++ text ++ nullPadding
      let patches3 := patch_splitMax st fuel patches2
      match applyLoop st fuel patches3 text1 0 [] with
      | .error e => .error e
      | .ok (t, results) =>
        .ok (jsSubstring t (nullPadding.length : Int)
          ((t.length : Int) - nullPadding.length), results)

/-! ### jsondiff: JSON values and structural diff

JSON values (plus JS `undefined`) as an inductive; objects are association
lists in insertion order, matching ES5 `for..in` enumeration order for the
string keys this program uses.  Numbers are idealized as integers.
Recursive traversals are fueled (structurally on the fuel). -/

inductive Value where
  | vundefined
  | vnull
  | vbool (b : Bool)
  | vnum (n : Int)
  | vstr (s : Str)
  | varr (xs : List Value)
  | vobj (fields : List (Str × Value))

inductive JType where
  | undefined
  | boolean
  | number
  | string
  | array
  | object
  | null
deriving DecidableEq, Repr

/-- `jsondiff.typeOf` (the `length`/`splice` duck test identifies exactly
the arrays of this model). -/
def typeOf : Value → JType
  | .vundefined => .undefined
  | .vbool _ => .boolean
  | .vnum _ => .number
  | .vstr _ => .string
  | .varr _ => .array
  | .vobj _ => .object
  | .vnull => .null

/-- JS `a === b` on the non-array, non-object values compared by `equals`. -/
def strictEqPrim : Value → Value → Bool
  | .vnull, .vnull => true
  | .vundefined, .vundefined => true
  | .vbool x, .vbool y => x == y
  | .vnum x, .vnum y => x == y
  | .vstr x, .vstr y => x == y
  | _, _ => false

def fieldsOf : Value → List (Str × Value)
  | .vobj f => f
  | _ => []

def objGet (f : List (Str × Value)) (k : Str) : Option Value :=
  match f.find? (fun p => p.1 == k) with
  | some p => some p.2
  | none => none

def objHas (f : List (Str × Value)) (k : Str) : Bool :=
  (f.find? (fun p => p.1 == k)).isSome

/-- JS property assignment: an existing key keeps its position, a new key
is appended. -/
def objSet : List (Str × Value) → Str → Value → List (Str × Value)
  | [], k, v => [(k, v)]
  | (k', v') :: rest, k, v =>
    if k' = k then (k', v) :: rest else (k', v') :: objSet rest k v

def objDeleteKey : List (Str × Value) → Str → List (Str × Value)
  | [], _ => []
  | (k', v') :: rest, k =>
    if k' = k then rest else (k', v') :: objDeleteKey rest k

/-- `v[k]`, with missing properties (and property reads on primitives)
giving `undefined`. -/
def getFieldD (v : Value) (k : Str) : Value :=
  match objGet (fieldsOf v) k with
  | some x => x
  | none => .vundefined

/-- `v[k] = x`; property writes on non-objects are silently dropped. -/
def setField (v : Value) (k : Str) (x : Value) : Value :=
  match v with
  | .vobj f => .vobj (objSet f k x)
  | other => other

/-- `delete v[k]`. -/
def deleteField (v : Value) (k : Str) : Value :=
  match v with
  | .vobj f => .vobj (objDeleteKey f k)
  | other => other

/-- `v[k]` when `v` may be `null`/`undefined`: those throw `TypeError`. -/
def propGet (v : Value) (k : Str) : Except JsExn Value :=
  match v with
  | .vnull => .error .typeError
  | .vundefined => .error .typeError
  | _ => .ok (getFieldD v k)

/-- `jsondiff.entries(obj)`: number of own enumerable keys. -/
def entries : Value → Nat
  | .vobj f => f.length
  | _ => 0

/-- `jsondiff.deepCopy`.  Note `deepCopy(null) = {}`: `typeof null` is
`'object'`, so `null` takes the object branch and comes back as an empty
object. -/
def deepCopy : Nat → Value → Value
  | 0, v => v
  | fuel + 1, v =>
    match v with
    | .varr xs => .varr (xs.map (fun x => deepCopy fuel x))
    | .vnull => .vobj []
    | .vobj f => .vobj (f.map (fun p => (p.1, deepCopy fuel p.2)))
    | other => other
termination_by structural fuel => fuel

/-- `jsondiff.equals` with `list_equals` / `object_equals` inlined at their
only call sites (they recurse through `equals`, so the trio shares the
fuel). -/
def equalsV : Nat → Value → Value → Bool
  | 0, _, _ => false
  | fuel + 1, a, b =>
    if (typeOf a == typeOf b) = false then false
    else
      match a, b with
      | .varr xs, .varr ys =>
        xs.length == ys.length && (xs.zip ys).all (fun p => equalsV fuel p.1 p.2)
      | .vobj fa, .vobj fb =>
        fa.all (fun p =>
          match objGet fb p.1 with
          | some bv => equalsV fuel p.2 bv
          | none => false)
        && fb.all (fun p => objHas fa p.1)
      | _, _ => strictEqPrim a b
termination_by structural fuel => fuel

/-- The op-name and value keys and the op tags of the structural diffs. -/
def oKey : Str := [111]
def vKey : Str := [118]
def opPlus : Str := [43]
def opMinus : Str := [45]
def opR : Str := [114]
def opI : Str := [73]
def opL : Str := [76]
def opO : Str := [79]
def opD : Str := [100]

def mkOp (o : Str) : Value := .vobj [(oKey, .vstr o)]
def mkOpV (o : Str) (v : Value) : Value := .vobj [(oKey, .vstr o), (vKey, v)]

/-- JS `ToString` of an integer. -/
def intStr (n : Int) : Str := if n < 0 then 45 :: numStr (-n).toNat else numStr n.toNat

/-- JS `ToNumber` of a string restricted to the signed decimal integers this
program produces as keys (`none` = `NaN`; fractional/hex forms do not occur
here). -/
def jsToNumber (s : Str) : Option Int :=
  let t1 := s.dropWhile (fun c => isWhitespaceUC c)
  let t := (t1.reverse.dropWhile (fun c => isWhitespaceUC c)).reverse
  if t = [] then some 0
  else
    let sd : Int × Str := match t with
      | 45 :: rest => (-1, rest)
      | 43 :: rest => (1, rest)
      | _ => (1, t)
    if sd.2 ≠ [] ∧ sd.2.all (fun c => 48 ≤ c && c ≤ 57) then
      some (sd.1 * sd.2.foldl (fun acc c => 10 * acc + ((c : Int) - 48)) 0)
    else none

/-- JS `+` on the value shapes the `'I'` op meets (string concatenation and
numeric addition; other coercions do not occur in this program). -/
def jsPlus : Value → Value → Value
  | .vstr a, .vstr b => .vstr (a ++ b)
  | .vstr a, .vnum n => .vstr (a ++ intStr n)
  | .vnum n, .vstr b => .vstr (intStr n ++ b)
  | .vnum a, .vnum b => .vnum (a + b)
  | _, _ => .vundefined

/-- JS string `<` (code-unit lexicographic). -/
def strLT : Str → Str → Bool
  | [], [] => false
  | [], _ :: _ => true
  | _ :: _, [] => false
  | a :: as, b :: bs => if a < b then true else if b < a then false else strLT as bs

def strLE (x y : Str) : Bool := !(strLT y x)

def insertSortedStr (x : Str) : List Str → List Str
  | [] => [x]
  | y :: rest => if strLE x y then x :: y :: rest else y :: insertSortedStr x rest

/-- `Array.prototype.sort()` on string keys (default string ordering). -/
def sortStrs : List Str → List Str
  | [] => []
  | x :: rest => insertSortedStr x (sortStrs rest)

/-- `Array.prototype.splice(start, delCount, ...items)` on a dense array. -/
def spliceList (xs : List Value) (start delCount : Int) (items : List Value) :
    List Value :=
  let len : Int := xs.length
  let s := (if start < 0 then max (len + start) 0 else min start len).toNat
  let d := (max 0 (min delCount (len - s))).toNat
  xs.take s ++ items ++ xs.drop (s + d)

/-- `xs[i] = v` for an in-range index (the only shape the library
produces). -/
def setListAt (xs : List Value) (i : Int) (v : Value) : List Value :=
  if 0 ≤ i ∧ i < (xs.length : Int) then
    xs.take i.toNat ++ v :: xs.drop (i.toNat + 1)
  else xs

def getListAt (xs : List Value) (i : Int) : Value :=
  if h : 0 ≤ i ∧ i.toNat < xs.length then xs.get ⟨i.toNat, h.2⟩ else .vundefined

def opTag (v : Value) : Option Str :=
  match getFieldD v oKey with
  | .vstr o => some o
  | _ => none

def isTag (v : Value) (t : Str) : Bool :=
  match v with
  | .vstr x => x == t
  | _ => false

def sindexLit : Str := [115, 105, 110, 100, 101, 120]
def idxLit : Str := [105, 110, 100, 101, 120]

/-- The `'d'` pipeline shared by the apply/transform ops:
`patch_apply(patch_make(t, diff_fromDelta(t, dl)), t)[0]`. -/
def dmpPatchStr (pfuel : Nat) (t dl : Str) : Except JsExn Str :=
  match diff_fromDelta t dl with
  | .error e => .error e
  | .ok ds =>
    match patch_apply dmpDefault pfuel (patch_make dmpDefault t ds) t with
    | .error e => .error e
    | .ok (nt, _) => .ok nt

/-- The string case of `jsondiff.diff`: run `diff_main`, optionally
`diff_cleanupEfficiency`, and encode as a delta (`none` when no tuples
remain). -/
def jd_dmpDiff (dfuel : Nat) (sa sb : Str) : Except JsExn (Option Str) :=
  let ds := diff_main dmpDefault dfuel sa sb true
  let ds := if 2 < ds.length then
      diff_cleanupEfficiency dmpDefault ((ds.length + 1) * (ds.length + 1)) ds
    else ds
  if 0 < ds.length then
    match diff_toDelta ds with
    | .error e => .error e
    | .ok dl => .ok (some dl)
  else .ok none

/-- The first key loop of `object_diff` (keys of `a`), parameterized by the
recursive `diff` and `equals`. -/
def objDiffGo (diffFn : Value → Value → Except JsExn Value)
    (equalsFn : Value → Value → Bool) (bf : List (Str × Value)) :
    List (Str × Value) → Except JsExn (List (Str × Value))
  | [] => .ok []
  | (k, av) :: rest =>
    match objGet bf k with
    | some bv =>
      if equalsFn av bv then objDiffGo diffFn equalsFn bf rest
      else
        match diffFn av bv with
        | .error e => .error e
        | .ok d =>
          match objDiffGo diffFn equalsFn bf rest with
          | .error e => .error e
          | .ok r => .ok ((k, d) :: r)
    | none =>
      match objDiffGo diffFn equalsFn bf rest with
      | .error e => .error e
      | .ok r => .ok ((k, mkOp opMinus) :: r)

/-- One key of the `apply_object_diff` loop (the body of the source's
`switch (op['o'])`), with the loop's tail passed as `next`. -/
def applyObjStep (aoFn alFn : Value → Value → Except JsExn Value) (pfuel : Nat)
    (next : Value → Except JsExn Value) (patched : Value) (key : Str) (op : Value) :
    Except JsExn Value :=
  match op with
  | .vnull => .error .typeError
  | .vundefined => .error .typeError
  | _ =>
    let opv := getFieldD op vKey
    match getFieldD op oKey with
    | .vstr o =>
      if o = opPlus then next (setField patched key opv)
      else if o = opMinus then next (deleteField patched key)
      else if o = opR then next (setField patched key opv)
      else if o = opI then
        next (setField patched key (jsPlus (getFieldD patched key) opv))
      else if o = opL then
        match alFn (getFieldD patched key) opv with
        | .error e => .error e
        | .ok nv => next (setField patched key nv)
      else if o = opO then
        match aoFn (getFieldD patched key) opv with
        | .error e => .error e
        | .ok nv => next (setField patched key nv)
      else if o = opD then
        match getFieldD patched key, opv with
        | .vstr t, .vstr dl =>
          match dmpPatchStr pfuel t dl with
          | .error e => .error e
          | .ok nt => next (setField patched key (.vstr nt))
        | _, _ => .error .typeError
      else next patched
    | _ => next patched

/-- The key loop of `apply_object_diff`, parameterized by the recursive
apply functions. -/
def applyObjGo (aoFn alFn : Value → Value → Except JsExn Value) (pfuel : Nat) :
    Value → List (Str × Value) → Except JsExn Value
  | patched, [] => .ok patched
  | patched, (key, op) :: rest =>
    applyObjStep aoFn alFn pfuel (fun p => applyObjGo aoFn alFn pfuel p rest)
      patched key op

/-- The sorted-index loop of `apply_list_diff`. -/
def applyListGo (aoFn alFn : Value → Value → Except JsExn Value) (pfuel : Nat)
    (df : List (Str × Value)) :
    List Str → List Value → List Int → Except JsExn (List Value)
  | [], xs, _ => .ok xs
  | idx :: rest, xs, deleted =>
    let op := match objGet df idx with
      | some o => o
      | none => Value.vundefined
    match op with
    | .vnull => .error .typeError
    | .vundefined => .error .typeError
    | _ =>
      let n := jsToNumber idx
      let shift : Nat := (deleted.filter (fun x =>
        match n with
        | some v => decide (x ≤ v)
        | none => false)).length
      let s_index : Int := (match n with
        | some v => v
        | none => 0) - shift
      let opv := getFieldD op vKey
      match getFieldD op oKey with
      | .vstr o =>
        if o = opPlus then
          let items := match opv with
            | .varr vs => vs
            | v => [v]
          applyListGo aoFn alFn pfuel df rest (spliceList xs s_index 1 items) deleted
        else if o = opMinus then
          applyListGo aoFn alFn pfuel df rest (spliceList xs s_index 1 [])
            (deleted ++ [s_index])
        else if o = opR then
          applyListGo aoFn alFn pfuel df rest (setListAt xs s_index opv) deleted
        else if o = opI then
          applyListGo aoFn alFn pfuel df rest
            (setListAt xs s_index (jsPlus (getListAt xs s_index) opv)) deleted
        else if o = opL then
          match alFn (getListAt xs s_index) opv with
          | .error e => .error e
          | .ok nv => applyListGo aoFn alFn pfuel df rest (setListAt xs s_index nv) deleted
        else if o = opO then
          match aoFn (getListAt xs s_index) opv with
          | .error e => .error e
          | .ok nv => applyListGo aoFn alFn pfuel df rest (setListAt xs s_index nv) deleted
        else if o = opD then
          match getListAt xs s_index, opv with
          | .vstr t, .vstr dl =>
            match dmpPatchStr pfuel t dl with
            | .error e => .error e
            | .ok nt =>
              applyListGo aoFn alFn pfuel df rest (setListAt xs s_index (.vstr nt)) deleted
          | _, _ => .error .typeError
        else applyListGo aoFn alFn pfuel df rest xs deleted
      | _ => applyListGo aoFn alFn pfuel df rest xs deleted

/-- The key loop of `transform_object_diff`.  The source's `return ad_new`
sits INSIDE the `for key in ad` loop: the first key that is also in `bd` is
processed and the function returns immediately; if no key of `ad` is in
`bd` the loop ends and the function falls through, returning `undefined`
(`none` here). -/
def transformObjGo (diffFn : Value → Value → Except JsExn Value)
    (equalsFn : Value → Value → Bool)
    (aoFn alFn : Value → Value → Except JsExn Value)
    (toFn : Value → Value → Value → Except JsExn (Option Value))
    (tlFn : Value → Value → Value → Except JsExn Value)
    (pfuel : Nat) (bdf sf : List (Str × Value)) :
    Value → List (Str × Value) → Except JsExn (Option Value)
  | _, [] => .ok none
  | ad_new, (key, aop) :: rest =>
    if (objHas bdf key) = false then
      transformObjGo diffFn equalsFn aoFn alFn toFn tlFn pfuel bdf sf ad_new rest
    else
      let sk := match objGet sf key with
        | some v => v
        | none => Value.vundefined
      let bop := match objGet bdf key with
        | some v => v
        | none => Value.vundefined
      match aop, bop with
      | .vnull, _ => .error .typeError
      | .vundefined, _ => .error .typeError
      | _, .vnull => .error .typeError
      | _, .vundefined => .error .typeError
      | _, _ =>
        let aTag := opTag aop
        let bTag := opTag bop
        let result : Except JsExn Value :=
          if aTag = some opPlus ∧ bTag = some opPlus then
            if equalsFn (getFieldD aop vKey) (getFieldD bop vKey) then
              .ok (deleteField ad_new key)
            else
              match diffFn (getFieldD bop vKey) (getFieldD aop vKey) with
              | .error e => .error e
              | .ok d => .ok (setField ad_new key d)
          else if aTag = some opMinus ∧ bTag = some opMinus then
            .ok (deleteField ad_new key)
          else if bTag = some opMinus ∧ (aTag = some opO ∨ aTag = some opL
              ∨ aTag = some opI ∨ aTag = some opD) then
            let newV : Except JsExn Value :=
              if aTag = some opO then aoFn sk (getFieldD aop vKey)
              else if aTag = some opL then alFn sk (getFieldD aop vKey)
              else if aTag = some opI then .ok (jsPlus sk (getFieldD aop vKey))
              else
                match sk, getFieldD aop vKey with
                | .vstr t, .vstr dl => (fun nt => Value.vstr nt) <$> dmpPatchStr pfuel t dl
                | _, _ => .error .typeError
            match newV with
            | .error e => .error e
            | .ok v => .ok (setField ad_new key (mkOpV opPlus v))
          else if aTag = some opO ∧ bTag = some opO then
            match toFn (getFieldD aop vKey) (getFieldD bop vKey) sk with
            | .error e => .error e
            | .ok od =>
              let dv := match od with
                | some d => d
                | none => Value.vundefined
              .ok (setField ad_new key (mkOpV opO dv))
          else if aTag = some opL ∧ bTag = some opL then
            match tlFn (getFieldD aop vKey) (getFieldD bop vKey) sk with
            | .error e => .error e
            | .ok ld => .ok (setField ad_new key (mkOpV opO ld))
          else if aTag = some opD ∧ bTag = some opD then
            match sk, getFieldD aop vKey, getFieldD bop vKey with
            | .vstr skt, .vstr adl, .vstr bdl =>
              match diff_fromDelta skt adl with
              | .error e => .error e
              | .ok adiffs =>
                match diff_fromDelta skt bdl with
                | .error e => .error e
                | .ok bdiffs =>
                  let a_patches := patch_make dmpDefault skt adiffs
                  let b_patches := patch_make dmpDefault skt bdiffs
                  match patch_apply dmpDefault pfuel b_patches skt with
                  | .error e => .error e
                  | .ok (b_text, _) =>
                    match patch_apply dmpDefault pfuel a_patches b_text with
                    | .error e => .error e
                    | .ok (ab_text, _) =>
                      let base := deleteField ad_new key
                      if ab_text ≠ b_text then
                        let dm := diff_main dmpDefault pfuel b_text ab_text true
                        let dm := if 2 < dm.length then
                            diff_cleanupEfficiency dmpDefault
                              ((dm.length + 1) * (dm.length + 1)) dm
                          else dm
                        if 0 < dm.length then
                          match diff_toDelta dm with
                          | .error e => .error e
                          | .ok dl => .ok (setField base key (mkOpV opD (.vstr dl)))
                        else .ok base
                      else .ok base
            | _, _, _ => .error .typeError
          else .ok ad_new
        match result with
        | .error e => .error e
        | .ok r => .ok (some r)

/-- The index loop of `transform_list_diff`.  `shift_r`/`shift_l` are the
lengths of one-element ARRAY LITERALS wrapping the filters (so both are
always 1), the rekeyed index is the string concatenation `index + shift_r`
coerced back to a number minus `shift_l`, and the conflict branch reads the
literal property `bd.index` (not `bd[index]`). -/
def transformListGo (toFn : Value → Value → Value → Except JsExn (Option Value))
    (bdf : List (Str × Value)) (s : Value) (b_inserts b_deletes : List Str) :
    Value → List (Str × Value) → Except JsExn Value
  | ad_new, [] => .ok ad_new
  | ad_new, (index, op) :: rest =>
    let shift_r := ([b_inserts.filter (fun x => strLE x index)] : List (List Str)).length
    let shift_l := ([b_deletes.filter (fun x => strLE x index)] : List (List Str)).length
    let index' : Option Int :=
      (jsToNumber (index ++ intStr shift_r)).map (fun v => v - shift_l)
    let sindex : Str := match index' with
      | some v => intStr v
      | none => [78, 97, 78]
    let ad_new1 := setField ad_new sindex op
    if objHas bdf sindex then
      let bdIndex := match objGet bdf idxLit with
        | some v => v
        | none => Value.vundefined
      match op with
      | .vnull => .error .typeError
      | .vundefined => .error .typeError
      | _ =>
        let aTag := opTag op
        let decision : Except JsExn Nat :=
          if aTag = some opPlus then
            match propGet bdIndex oKey with
            | .error e => .error e
            | .ok bo => .ok (if isTag bo opPlus then 0 else 2)
          else if aTag = some opMinus then
            match propGet bdIndex oKey with
            | .error e => .error e
            | .ok bo => .ok (if isTag bo opMinus then 1 else 2)
          else .ok 2
        match decision with
        | .error e => .error e
        | .ok 0 => transformListGo toFn bdf s b_inserts b_deletes ad_new1 rest
        | .ok 1 =>
          transformListGo toFn bdf s b_inserts b_deletes (deleteField ad_new1 sindex) rest
        | .ok _ =>
          match toFn (.vobj [(sindexLit, op)]) (.vobj [(sindexLit, bdIndex)]) s with
          | .error e => .error e
          | .ok none => .error .typeError
          | .ok (some d) =>
            transformListGo toFn bdf s b_inserts b_deletes
              (setField ad_new1 sindex (getFieldD d sindex)) rest
    else transformListGo toFn bdf s b_inserts b_deletes ad_new1 rest

mutual

/-- `jsondiff.diff(a, b)`. -/
def jd_diff : Nat → Value → Value → Except JsExn Value
  | 0, _, _ => .error .stackOverflow
  | fuel + 1, a, b =>
    if equalsV (fuel + 1) a b then .ok (.vobj [])
    else if (typeOf a == typeOf b) = false then .ok (mkOpV opR b)
    else
      match typeOf a with
      | .boolean => .ok (mkOpV opR b)
      | .number => .ok (mkOpV opR b)
      | .array => .ok (mkOpV opR b)
      | .object =>
        match object_diff fuel a b with
        | .error e => .error e
        | .ok d => .ok (mkOpV opO d)
      | .string =>
        match a, b with
        | .vstr sa, .vstr sb =>
          match jd_dmpDiff (fuel + 1) sa sb with
          | .error e => .error e
          | .ok (some dl) => .ok (mkOpV opD (.vstr dl))
          | .ok none => .ok (.vobj [])
        | _, _ => .ok (.vobj [])
      | _ => .ok (.vobj [])
termination_by structural fuel => fuel

/-- `jsondiff.object_diff(a, b)`. -/
def object_diff : Nat → Value → Value → Except JsExn Value
  | 0, _, _ => .error .stackOverflow
  | fuel + 1, a, b =>
    match a, b with
    | .vnull, _ => .ok (.vobj [])
    | .vundefined, _ => .ok (.vobj [])
    | _, .vnull => .ok (.vobj [])
    | _, .vundefined => .ok (.vobj [])
    | _, _ =>
      match objDiffGo (jd_diff fuel) (equalsV fuel) (fieldsOf b) (fieldsOf a) with
      | .error e => .error e
      | .ok ds1 =>
        let ds2 := (fieldsOf b).filterMap (fun p =>
          if objHas (fieldsOf a) p.1 then none else some (p.1, mkOpV opPlus p.2))
        .ok (.vobj (ds1 ++ ds2))
termination_by structural fuel => fuel

/-- `jsondiff.apply_object_diff(s, diffs)`. -/
def apply_object_diff : Nat → Value → Value → Except JsExn Value
  | 0, _, _ => .error .stackOverflow
  | fuel + 1, s, diffs =>
    applyObjGo (apply_object_diff fuel) (apply_list_diff fuel) (fuel + 1)
      (deepCopy (fuel + 1) s) (fieldsOf diffs)
termination_by structural fuel => fuel

/-- `jsondiff.apply_list_diff(s, diffs)`. -/
def apply_list_diff : Nat → Value → Value → Except JsExn Value
  | 0, _, _ => .error .stackOverflow
  | fuel + 1, s, diffs =>
    match deepCopy (fuel + 1) s with
    | .varr xs =>
      let idxs := sortStrs ((fieldsOf diffs).map (fun p => p.1))
      match applyListGo (apply_object_diff fuel) (apply_list_diff fuel) (fuel + 1)
          (fieldsOf diffs) idxs xs [] with
      | .error e => .error e
      | .ok ys => .ok (.varr ys)
    | _ => .error .typeError
termination_by structural fuel => fuel

/-- `jsondiff.transform_object_diff(ad, bd, s)`. -/
def transform_object_diff : Nat → Value → Value → Value → Except JsExn (Option Value)
  | 0, _, _, _ => .error .stackOverflow
  | fuel + 1, ad, bd, s =>
    transformObjGo (jd_diff fuel) (equalsV fuel)
      (apply_object_diff fuel) (apply_list_diff fuel)
      (transform_object_diff fuel) (transform_list_diff fuel) (fuel + 1)
      (fieldsOf bd) (fieldsOf s) (deepCopy (fuel + 1) ad) (fieldsOf ad)
termination_by structural fuel => fuel

/-- `jsondiff.transform_list_diff(ad, bd, s)`. -/
def transform_list_diff : Nat → Value → Value → Value → Except JsExn Value
  | 0, _, _, _ => .error .stackOverflow
  | fuel + 1, ad, bd, s =>
    let b_inserts := (fieldsOf bd).filterMap (fun p =>
      match getFieldD p.2 oKey with
      | .vstr o => if o = opPlus then some p.1 else none
      | _ => none)
    let b_deletes := (fieldsOf bd).filterMap (fun p =>
      match getFieldD p.2 oKey with
      | .vstr o => if o = opMinus then some p.1 else none
      | _ => none)
    transformListGo (transform_object_diff fuel) (fieldsOf bd) s b_inserts b_deletes
      (.vobj []) (fieldsOf ad)
termination_by structural fuel => fuel

end

/-! ### C1 / C2 / C4 / C7 -/

/-- The OT convergence composition from the spec: apply the remote diff,
then the transformed local diff (a transform that returned `undefined`
reaches `apply_object_diff` as `undefined`, whose key loop then has nothing
to iterate). -/
def otS1 (fuel : Nat) (base localD remoteD : Value) : Except JsExn Value :=
  match apply_object_diff fuel base remoteD with
  | .error e => .error e
  | .ok s1 =>
    match transform_object_diff fuel localD remoteD base with
    | .error e => .error e
    | .ok od =>
      apply_object_diff fuel s1 (match od with
        | some d => d
        | none => Value.vundefined)

/-- The mirror composition: apply the local diff, then the transformed
remote diff. -/
def otS2 (fuel : Nat) (base localD remoteD : Value) : Except JsExn Value :=
  match apply_object_diff fuel base localD with
  | .error e => .error e
  | .ok s2 =>
    match transform_object_diff fuel remoteD localD base with
    | .error e => .error e
    | .ok od =>
      apply_object_diff fuel s2 (match od with
        | some d => d
        | none => Value.vundefined)

/-- C1 (counterexample): with base `{}`, local diff `{a: {o:'+', v:1}}` and
remote diff `{b: {o:'+', v:2}}` — a conflict-free pair — the two
application orders give `{b: 2}` and `{a: 1}`: the `return` inside
`transform_object_diff`'s key loop makes the transform return `undefined`
whenever no key of `ad` occurs in `bd`, so the whole transformed diff is
lost and OT convergence fails. -/
theorem C1_divergence :
    otS1 20 (.vobj []) (.vobj [([97], mkOpV opPlus (.vnum 1))])
        (.vobj [([98], mkOpV opPlus (.vnum 2))])
      = .ok (.vobj [([98], .vnum 2)])
    ∧ otS2 20 (.vobj []) (.vobj [([97], mkOpV opPlus (.vnum 1))])
        (.vobj [([98], mkOpV opPlus (.vnum 2))])
      = .ok (.vobj [([97], .vnum 1)])
    ∧ equalsV 20 (.vobj [([98], .vnum 2)]) (.vobj [([97], .vnum 1)]) = false :=
  ⟨rfl, rfl, rfl⟩

/-- C2 (counterexample): for `a = b = {x: null}` the structural diff is `{}`
(nulls compare equal), but `apply_object_diff` starts from
`deepCopy(a) = {x: {}}` — `typeof null` is `'object'`, so `deepCopy`
rebuilds `null` as an empty object — and the round-trip result is not
structurally equal to `b`. -/
theorem C2_divergence :
    object_diff 20 (.vobj [([120], .vnull)]) (.vobj [([120], .vnull)]) = .ok (.vobj [])
    ∧ apply_object_diff 20 (.vobj [([120], .vnull)]) (.vobj [])
      = .ok (.vobj [([120], .vobj [])])
    ∧ equalsV 20 (.vobj [([120], .vobj [])]) (.vobj [([120], .vnull)]) = false :=
  ⟨rfl, rfl, rfl⟩

/-- The rekeying formula claimed by the spec:
`i' = i + |{x ∈ B+ : x ≤ i}| − |{x ∈ B− : x ≤ i}|`. -/
def specRekeyC4 (i : Nat) (bIns bDel : List Nat) : Nat :=
  i + (bIns.filter (fun x => x ≤ i)).length - (bDel.filter (fun x => x ≤ i)).length

/-- C4 (counterexample): local list diff `{"2": {o:'+', v:5}}` against
remote `{"0": {o:'+', v:9}}`.  The spec formula rekeys 2 to 3, but the code
computes `"2" + 1 - 1` (a one-element array literal makes both shifts 1 and
`+` concatenates the string key), i.e. `Number("21") - 1 = 20`, producing
key `"20"`. -/
theorem C4_rekey_divergence :
    transform_list_diff 20 (.vobj [([50], mkOpV opPlus (.vnum 5))])
        (.vobj [([48], mkOpV opPlus (.vnum 9))]) (.varr [])
      = .ok (.vobj [([50, 48], mkOpV opPlus (.vnum 5))])
    ∧ specRekeyC4 2 [0] [] = 3
    ∧ numStr (specRekeyC4 2 [0] []) ≠ [50, 48] :=
  ⟨rfl, rfl, by decide⟩

theorem objGet_objSet_ne (f : List (Str × Value)) (k' : Str) (v : Value) (k : Str)
    (h : k ≠ k') : objGet (objSet f k' v) k = objGet f k := by
  induction f with
  | nil =>
    unfold objSet objGet
    simp only [List.find?]
    have hb : (k' == k) = false := by
      rcases hkk : k' == k with _ | _
      · rfl
      · exact absurd (beq_iff_eq.mp hkk).symm h
    rw [hb]
  | cons a rest ih =>
    unfold objSet
    by_cases ha : a.1 = k'
    · rw [if_pos ha]
      unfold objGet
      simp only [List.find?]
      have hb : (a.1 == k) = false := by
        rcases hkk : a.1 == k with _ | _
        · rfl
        · exact absurd (ha ▸ beq_iff_eq.mp hkk).symm h
      rw [hb]
    · rw [if_neg ha]
      unfold objGet
      simp only [List.find?]
      rcases hkk : a.1 == k with _ | _
      · exact ih
      · rfl

theorem objGet_objDeleteKey_ne (f : List (Str × Value)) (k' k : Str) (h : k ≠ k') :
    objGet (objDeleteKey f k') k = objGet f k := by
  induction f with
  | nil => rfl
  | cons a rest ih =>
    unfold objDeleteKey
    by_cases ha : a.1 = k'
    · rw [if_pos ha]
      unfold objGet
      simp only [List.find?]
      have hb : (a.1 == k) = false := by
        rcases hkk : a.1 == k with _ | _
        · rfl
        · exact absurd (ha ▸ beq_iff_eq.mp hkk).symm h
      rw [hb]
    · rw [if_neg ha]
      unfold objGet
      simp only [List.find?]
      rcases hkk : a.1 == k with _ | _
      · exact ih
      · rfl

theorem getFieldD_setField_ne (p : Value) (k' : Str) (v : Value) (k : Str)
    (hk : k ≠ k') : getFieldD (setField p k' v) k = getFieldD p k := by
  rcases p <;> simp only [setField, getFieldD, fieldsOf]
  rw [objGet_objSet_ne _ _ _ _ hk]

theorem getFieldD_deleteField_ne (p : Value) (k' k : Str) (hk : k ≠ k') :
    getFieldD (deleteField p k' ) k = getFieldD p k := by
  rcases p <;> simp only [deleteField, getFieldD, fieldsOf]
  rw [objGet_objDeleteKey_ne _ _ _ hk]

/-- One step of the apply loop either raises or invokes the continuation
with a state changed at most at the processed key. -/
theorem applyObjStep_cases (aoFn alFn : Value → Value → Except JsExn Value)
    (pfuel : Nat) (next : Value → Except JsExn Value) (patched : Value)
    (key : Str) (op : Value) :
    (∃ e, applyObjStep aoFn alFn pfuel next patched key op = .error e)
    ∨ ∃ p', applyObjStep aoFn alFn pfuel next patched key op = next p'
        ∧ ∀ k, k ≠ key → getFieldD p' k = getFieldD patched k := by
  rw [applyObjStep.eq_def]
  dsimp only []
  repeat' split
  all_goals first
    | exact Or.inl ⟨_, rfl⟩
    | exact Or.inr ⟨_, rfl, fun k hk => rfl⟩
    | exact Or.inr ⟨_, rfl, fun k hk => getFieldD_setField_ne _ _ _ _ hk⟩
    | exact Or.inr ⟨_, rfl, fun k hk => getFieldD_deleteField_ne _ _ _ hk⟩

theorem objGet_decomp (f : List (Str × Value)) (k : Str) (v : Value)
    (h : objGet f k = some v) :
    ∃ pre post, f = pre ++ (k, v) :: post ∧ ∀ p ∈ pre, p.1 ≠ k := by
  induction f with
  | nil => cases h
  | cons a rest ih =>
    unfold objGet at h
    rw [List.find?] at h
    rcases hkk : a.1 == k with _ | _
    · rw [hkk] at h
      obtain ⟨pre, post, hf, hpre⟩ := ih h
      refine ⟨a :: pre, post, by rw [List.cons_append, hf], ?_⟩
      intro p hp
      rcases List.mem_cons.mp hp with rfl | hp'
      · intro he
        rw [he] at hkk
        simp at hkk
      · exact hpre p hp'
    · rw [hkk] at h
      simp only [] at h
      injection h with h'
      refine ⟨[], rest, ?_, by intro p hp; cases hp⟩
      rw [List.nil_append]
      have hak : a.1 = k := beq_iff_eq.mp hkk
      rw [← h', ← hak]

theorem objGet_append_first (pre : List (Str × Value)) (k : Str) (v : Value)
    (post : List (Str × Value)) (h : ∀ p ∈ pre, p.1 ≠ k) :
    objGet (pre ++ (k, v) :: post) k = some v := by
  induction pre with
  | nil =>
    unfold objGet
    rw [List.nil_append, List.find?]
    simp
  | cons a rest ih =>
    unfold objGet
    rw [List.cons_append, List.find?]
    have hb : (a.1 == k) = false := by
      rcases hkk : a.1 == k with _ | _
      · rfl
      · exact absurd (beq_iff_eq.mp hkk) (h a (List.mem_cons_self _ _))
    rw [hb]
    exact ih (fun p hp => h p (List.mem_cons_of_mem _ hp))

theorem deepCopy_vstr (fuel : Nat) (t : Str) : deepCopy fuel (.vstr t) = .vstr t := by
  cases fuel <;> rfl

/-- Reaching the malformed `'d'` op: with every earlier key different from
`k` and `patched[k]` the string `t`, the loop raises. -/
theorem applyObjGo_error (aoFn alFn : Value → Value → Except JsExn Value)
    (pfuel : Nat) (k dl t : Str) (ex : JsExn)
    (hbad : diff_fromDelta t dl = .error ex) :
    ∀ (pre : List (Str × Value)) (post : List (Str × Value)) (patched : Value),
    (∀ p ∈ pre, p.1 ≠ k) →
    getFieldD patched k = .vstr t →
    ∃ e, applyObjGo aoFn alFn pfuel patched
        (pre ++ (k, mkOpV opD (.vstr dl)) :: post) = .error e := by
  intro pre
  induction pre with
  | nil =>
    intro post patched _ hpk
    refine ⟨ex, ?_⟩
    rw [List.nil_append]
    have h1 : applyObjGo aoFn alFn pfuel patched ((k, mkOpV opD (.vstr dl)) :: post)
        = match getFieldD patched k, Value.vstr dl with
          | .vstr t', .vstr dl' =>
            (match dmpPatchStr pfuel t' dl' with
            | .error e => .error e
            | .ok nt => applyObjGo aoFn alFn pfuel (setField patched k (.vstr nt)) post)
          | _, _ => .error .typeError := rfl
    rw [h1, hpk]
    have h2 : dmpPatchStr pfuel t dl = .error ex := by
      unfold dmpPatchStr
      rw [hbad]
    simp only []
    rw [h2]
  | cons a pre ih =>
    intro post patched hne hpk
    rcases a with ⟨k', op⟩
    rw [List.cons_append]
    have hstep : applyObjGo aoFn alFn pfuel patched
        ((k', op) :: (pre ++ (k, mkOpV opD (.vstr dl)) :: post))
        = applyObjStep aoFn alFn pfuel
            (fun p => applyObjGo aoFn alFn pfuel p (pre ++ (k, mkOpV opD (.vstr dl)) :: post))
            patched k' op := rfl
    rw [hstep]
    rcases applyObjStep_cases aoFn alFn pfuel
        (fun p => applyObjGo aoFn alFn pfuel p (pre ++ (k, mkOpV opD (.vstr dl)) :: post))
        patched k' op with ⟨e, he⟩ | ⟨p', hnext, hframe⟩
    · exact ⟨e, he⟩
    · rw [hnext]
      have hkne : k ≠ k' := by
        intro hkk
        exact hne (k', op) (List.mem_cons_self _ _) (by rw [hkk])
      exact ih post p' (fun p hp => hne p (List.mem_cons_of_mem _ hp))
        ((hframe k hkne).trans hpk)

/-- C7: a structural diff carrying a `'d'` op whose delta does not decode
against the current string value makes `apply_object_diff` raise (the
embedding is pure, so the argument object `s` itself — the JS source that
was deep-copied before any key was touched — is untouched by the failed
call). -/
theorem C7_malformed_delta_raises (fuel : Nat) (s diffs : Value) (k dl t : Str)
    (ex : JsExn)
    (hop : objGet (fieldsOf diffs) k = some (mkOpV opD (.vstr dl)))
    (hs : objGet (fieldsOf s) k = some (.vstr t))
    (hbad : diff_fromDelta t dl = .error ex) :
    ∃ e, apply_object_diff fuel s diffs = .error e := by
  cases fuel with
  | zero => exact ⟨.stackOverflow, rfl⟩
  | succ fuel =>
    have heq : apply_object_diff (fuel + 1) s diffs
        = applyObjGo (apply_object_diff fuel) (apply_list_diff fuel) (fuel + 1)
            (deepCopy (fuel + 1) s) (fieldsOf diffs) := rfl
    rw [heq]
    obtain ⟨preD, postD, hfd, hpreD⟩ := objGet_decomp _ _ _ hop
    rw [hfd]
    rcases s with _ | _ | b | n | st | xs | f
    iterate 5 cases hs
    · cases hs
    · have hcopy : deepCopy (fuel + 1) (.vobj f)
          = .vobj (f.map (fun p => (p.1, deepCopy fuel p.2))) := rfl
      obtain ⟨preS, postS, hfs, hpreS⟩ := objGet_decomp _ _ _ hs
      have hpk : getFieldD (deepCopy (fuel + 1) (.vobj f)) k = .vstr t := by
        rw [hcopy]
        unfold getFieldD fieldsOf
        have hmap : f.map (fun p => (p.1, deepCopy fuel p.2))
            = preS.map (fun p => (p.1, deepCopy fuel p.2))
              ++ (k, deepCopy fuel (.vstr t)) :: postS.map (fun p => (p.1, deepCopy fuel p.2)) := by
          have hfs2 : f = preS ++ (k, Value.vstr t) :: postS := hfs
          rw [hfs2, List.map_append, List.map_cons]
        rw [hmap, deepCopy_vstr, objGet_append_first]
        intro p hp
        rw [List.mem_map] at hp
        obtain ⟨q, hq, rfl⟩ := hp
        exact hpreS q hq
      exact applyObjGo_error _ _ _ _ _ _ _ hbad preD postD _ hpreD hpk

/-- C7 witness: `s = {x: "ab"}`, diff `{x: {o:'d', v:"=5"}}` — the keep
count 5 does not match the length 2, so the apply raises. -/
theorem C7_witness :
    ∃ e, apply_object_diff 5 (.vobj [([120], .vstr [97, 98])])
        (.vobj [([120], mkOpV opD (.vstr [61, 53]))]) = .error e :=
  C7_malformed_delta_raises 5 (.vobj [([120], .vstr [97, 98])])
    (.vobj [([120], mkOpV opD (.vstr [61, 53]))]) [120] [61, 53] [97, 98]
    JsExn.deltaLengthMismatch (by rfl) (by rfl) (by rfl)

/-! ### simperium sync client

State of one `simperium` bucket.  Persistence (`localStorage` via
`_save_meta`) is tracked by `persisted_cv`; `_save_entity` /
`_remove_entity` and the notify/timer callbacks are host effects with no
bearing on the claims and are not tracked.  The user `cb_get_data`
callback is modelled as a lookup table. -/

structure ChangeRec where
  clientid : Str := []
  id : Str := []
  ccid : Option Str := none
  ccids : Option (List Str) := none
  error : Option Int := none
  o : Option Str := none
  v : Value := .vundefined
  sv : Option Int := none
  ev : Option Int := none
  cv : Str := []

structure Entity where
  object : Value := .vobj []
  version : Option Int := none
  last : Option Value := none
  changePending : Option ChangeRec := none

structure SpState where
  store : List (Str × Entity) := []
  send_queue : List ChangeRec := []
  ccid : Nat := 0
  last_cv : Str := []
  persisted_cv : Str := []
  initialized : Bool := false
  cb_get_data : Option (List (Str × Value)) := none
  clientid : Str := []

/-- `simperium.get(id)`: `null` when absent, else a `deepCopy` of the
stored server-confirmed snapshot. -/
def sp_get (fuel : Nat) (st : SpState) (id : Str) : Value :=
  match st.store.find? (fun p => p.1 == id) with
  | some p => deepCopy fuel p.2.object
  | none => .vnull

/-- Update one entity in place (`store[id]` field assignment). -/
def storeUpdate (store : List (Str × Entity)) (id : Str) (f : Entity → Entity) :
    List (Str × Entity) :=
  store.map (fun p => if p.1 == id then (p.1, f p.2) else p)

/-- `simperium._make_change(id)`.  The ccid counter is bumped as part of
building the change record — after the pending-queue check but before any
of the later `return null` exits — so the updated state is returned on
every path past that check. -/
def sp_make_change (fuel : Nat) (st : SpState) (id : Str) :
    Except JsExn (Option ChangeRec) × SpState :=
  match st.send_queue.any (fun ch => ch.id == id) with
  | true => (.ok none, st)
  | false =>
    let ccidStr := numStr st.ccid
    let st' := { st with ccid := st.ccid + 1 }
    let change0 : ChangeRec := { id := id, ccid := some ccidStr }
    match st.store.find? (fun p => p.1 == id) with
    | none => (.error .typeError, st')
    | some pr =>
      let s_data := pr.2
      let cObjRes : Option Value :=
        if st.initialized = false then
          match s_data.last with
          | some l => some l
          | none => none
        else
          match st.cb_get_data with
          | none =>
            match s_data.last with
            | some l => some l
            | none => none
          | some tbl =>
            let c0 := match tbl.find? (fun q => q.1 == id) with
              | some q => q.2
              | none => Value.vnull
            some (match c0 with
              | .varr (x :: _) => x
              | .varr [] => Value.vundefined
              | x => x)
      match cObjRes with
      | none => (.ok none, st')
      | some c_object =>
        let change1 := match s_data.version with
          | some sv => { change0 with sv := some sv }
          | none => change0
        let isNullC := match c_object with
          | .vnull => true
          | _ => false
        let isNullishC := match c_object with
          | .vnull => true
          | .vundefined => true
          | _ => false
        let objNullish := match s_data.object with
          | .vnull => true
          | .vundefined => true
          | _ => false
        if isNullC && s_data.version.isSome then
          (.ok (some { change1 with o := some opMinus }), st')
        else if !isNullishC && !objNullish then
          match object_diff fuel s_data.object c_object with
          | .error e => (.error e, st')
          | .ok dv =>
            if entries dv = 0 then (.ok none, st')
            else (.ok (some { change1 with o := some [77], v := dv }), st')
        else (.ok none, st')

/-- Accumulator of the `on_changes` batch loop. -/
structure OCAcc where
  st : SpState
  reload_needed : Bool := false
  check_updates : List Str := []

/-- The trailing checkpoint of each non-error change: advance and persist
`last_cv` unless a reload has been flagged. -/
def finishCv (cv : Str) (a : OCAcc) : OCAcc :=
  if a.reload_needed then a
  else { a with st := { a.st with last_cv := cv, persisted_cv := cv } }

/-- One iteration of the `on_changes` batch loop. -/
def onChangeStep (fuel : Nat) (acc : OCAcc) (change : ChangeRec) :
    Except JsExn OCAcc :=
  let st := acc.st
  let isLocalMatch : ChangeRec → Bool := fun pending =>
    (change.clientid == st.clientid) && (change.id == pending.id) &&
    ((match change.ccid, pending.ccid with
      | some cc, some pc => cc == pc
      | _, _ => false) ||
     (match change.ccids, pending.ccid with
      | some ccs, some pc => ccs.contains pc
      | _, _ => false))
  let matched := st.send_queue.filter isLocalMatch
  let st1 := { st with
               send_queue := st.send_queue.filter (fun p => !(isLocalMatch p)),
               store := matched.foldl
                 (fun sto pd => storeUpdate sto pd.id
                   (fun e => { e with changePending := none })) st.store }
  let acc1 := { acc with
                st := st1,
                check_updates := acc.check_updates
                  ++ matched.map (fun _ => change.id) }
  match change.error with
  | some e =>
    if e = 409 then .ok acc1
    else
      .ok { acc1 with
            st := { st1 with
                    store := storeUpdate st1.store change.id
                      (fun ent => { ent with version := none }) },
            reload_needed := true }
  | none =>
    let a2 : Except JsExn OCAcc :=
      match change.o with
      | some o =>
        if o = opMinus then
          .ok { acc1 with
                st := { st1 with
                        store := st1.store.filter (fun p => !(p.1 == change.id)) } }
        else if o = [77] then
          let s_dataOpt := st1.store.find? (fun p => p.1 == change.id)
          let svOk := match change.sv, s_dataOpt with
            | some sv, some pr =>
              (match pr.2.version with
               | some ver => ver == sv
               | none => false)
            | some _, none => false
            | none, _ => true
          if svOk then
            let store2 := match s_dataOpt with
              | some _ => st1.store
              | none => st1.store ++ [(change.id, {})]
            let baseObj := match store2.find? (fun p => p.1 == change.id) with
              | some pr => pr.2.object
              | none => Value.vobj []
            match apply_object_diff fuel baseObj change.v with
            | .error e => .error e
            | .ok newObj =>
              .ok { acc1 with
                    st := { st1 with
                            store := storeUpdate store2 change.id
                              (fun ent => { ent with object := newObj,
                                                     version := change.ev }) } }
          else
            let oldDup := match change.ev, s_dataOpt with
              | some ev, some pr =>
                (match pr.2.version with
                 | some ver => decide (ev ≤ ver)
                 | none => false)
              | _, _ => false
            if oldDup then .ok acc1
            else
              .ok { acc1 with
                    st := { st1 with
                            store := storeUpdate st1.store change.id
                              (fun ent => { ent with version := none }) },
                    reload_needed := true }
        else .ok acc1
      | none => .ok acc1
    match a2 with
    | .error e => .error e
    | .ok a => .ok (finishCv change.cv a)

/-- `simperium.on_changes(response)` (the trailing `_refresh_store` /
`_check_update` timers are host effects outside the state). -/
def on_changes (fuel : Nat) : OCAcc → List ChangeRec → Except JsExn OCAcc
  | acc, [] => .ok acc
  | acc, c :: rest =>
    match onChangeStep fuel acc c with
    | .error e => .error e
    | .ok acc' => on_changes fuel acc' rest

/-- C9: a `_make_change` call that passes the pending-queue check bumps the
ccid counter exactly once — also on every `return null` path — and any
change record it does emit carries the pre-increment counter value, so
successive emitted ccids are strictly increasing but need not be
consecutive. -/
theorem C9_ccid_increment (fuel : Nat) (st : SpState) (id : Str)
    (hpend : st.send_queue.any (fun ch => ch.id == id) = false) :
    (sp_make_change fuel st id).2.ccid = st.ccid + 1
    ∧ ∀ ch, (sp_make_change fuel st id).1 = .ok (some ch) →
        ch.ccid = some (numStr st.ccid) := by
  unfold sp_make_change
  rw [hpend]
  constructor
  · dsimp only []
    repeat' split
    all_goals rfl
  · intro ch h
    dsimp only [] at h
    repeat' split at h
    all_goals first
      | cases h
      | (injection h with h1; injection h1 with h2; subst h2; rfl)
      | (injection h with h1; cases h1)
      | skip
    all_goals rfl

/-- C9 witness: a store with one entity, an empty send queue; the counter
goes from 0 to 1 although the call returns null (uninitialised client with
no `last` snapshot). -/
theorem C9_witness :
    (sp_make_change 5 { store := [([97], {})] } [97]).2.ccid
      = ({ store := [([97], {})] } : SpState).ccid + 1 :=
  (C9_ccid_increment 5 { store := [([97], {})] } [97] (by rfl)).1

theorem finishCv_keep (cv : Str) (a : OCAcc) (h : a.reload_needed = true) :
    finishCv cv a = a := by
  unfold finishCv
  rw [if_pos h]

theorem finishCv_reload (cv : Str) (a : OCAcc) :
    (finishCv cv a).reload_needed = a.reload_needed := by
  unfold finishCv
  split <;> rfl

theorem finishCv_last (cv : Str) (a : OCAcc) (h : a.reload_needed = false) :
    (finishCv cv a).st.last_cv = cv ∧ (finishCv cv a).st.persisted_cv = cv := by
  unfold finishCv
  rw [if_neg (by simp [h])]
  exact ⟨rfl, rfl⟩

set_option maxHeartbeats 2000000 in
/-- C8: per processed change — a change with no error that is applied or
skipped as an old duplicate, while no reload has been flagged, sets
`last_cv` to its `cv` and persists it (`_save_meta`); a change carrying an
error never advances `last_cv`, and neither does any change that leaves the
reload flag up — whether the flag was already up or the change itself
detected the version conflict that raised it. -/
theorem C8_checkpoint (fuel : Nat) (acc : OCAcc) (c : ChangeRec) (acc' : OCAcc)
    (h : onChangeStep fuel acc c = .ok acc') :
    (c.error.isSome = true → acc'.st.last_cv = acc.st.last_cv
      ∧ acc'.st.persisted_cv = acc.st.persisted_cv)
    ∧ (acc.reload_needed = true → acc'.st.last_cv = acc.st.last_cv
      ∧ acc'.st.persisted_cv = acc.st.persisted_cv)
    ∧ (acc'.reload_needed = true → acc'.st.last_cv = acc.st.last_cv
      ∧ acc'.st.persisted_cv = acc.st.persisted_cv)
    ∧ (c.error = none → acc'.reload_needed = false →
      acc'.st.last_cv = c.cv ∧ acc'.st.persisted_cv = c.cv) := by
  unfold onChangeStep at h
  dsimp only [] at h
  repeat' split at h
  case h_2.h_1 => cases h
  case h_2.h_2 =>
    rename_i a heq
    injection h with h1
    subst h1
    repeat' split at heq
    all_goals first
      | exact Except.noConfusion heq
      | (injection heq with h2; subst h2;
         refine ⟨fun he => ⟨?_, ?_⟩, fun hr => ⟨?_, ?_⟩, fun hro => ⟨?_, ?_⟩,
             fun he hrn => ?_⟩ <;>
           first
             | rfl
             | (unfold finishCv; split <;>
                 first
                   | rfl
                   | (rename_i hh; exact absurd hr hh)
                   | (rename_i hh; exact absurd rfl hh))
             | (rw [finishCv_keep _ _ ((finishCv_reload _ _).symm.trans hro)];
                try rfl
                done)
             | exact finishCv_last _ _ ((finishCv_reload _ _).symm.trans hrn)
             | (simp_all; done)
             | (simp_all [finishCv_reload]; done))
  all_goals
    (injection h with h1; subst h1;
     refine ⟨fun he => ⟨?_, ?_⟩, fun hr => ⟨?_, ?_⟩, fun hro => ⟨?_, ?_⟩,
         fun he hrn => ?_⟩ <;>
       first
         | rfl
         | (simp_all; done))

/-- C8 witness: a matching `'M'` change on an entity at the right version
advances and persists `last_cv` to the change's `cv`. -/
theorem C8_witness :
    ({ st := { store := [([97], { object := Value.vobj [], version := some 2 })],
               last_cv := [99, 118, 49],
               persisted_cv := [99, 118, 49] } } : OCAcc).st.last_cv
      = ({ id := [97], o := some [77], v := .vobj [], sv := some 1, ev := some 2,
           cv := [99, 118, 49] } : ChangeRec).cv
    ∧ ({ st := { store := [([97], { object := Value.vobj [], version := some 2 })],
                 last_cv := [99, 118, 49],
                 persisted_cv := [99, 118, 49] } } : OCAcc).st.persisted_cv
      = ({ id := [97], o := some [77], v := .vobj [], sv := some 1, ev := some 2,
           cv := [99, 118, 49] } : ChangeRec).cv :=
  (C8_checkpoint 5 { st := { store := [([97], { version := some 1 })] } }
    { id := [97], o := some [77], v := .vobj [], sv := some 1, ev := some 2,
      cv := [99, 118, 49] }
    { st := { store := [([97], { object := Value.vobj [], version := some 2 })],
              last_cv := [99, 118, 49],
              persisted_cv := [99, 118, 49] } }
    (by rfl)).2.2.2 rfl rfl

/-- Null-freedom of a value down to the given depth. -/
def noNullIn : Nat → Value → Bool
  | 0, _ => false
  | fuel + 1, v =>
    match v with
    | .vnull => false
    | .varr xs => xs.all (fun x => noNullIn fuel x)
    | .vobj f => f.all (fun p => noNullIn fuel p.2)
    | _ => true
termination_by structural fuel => fuel

/-- `deepCopy` is the identity on null-free values (with enough fuel). -/
theorem deepCopy_id (fuel : Nat) : ∀ v, noNullIn fuel v = true → deepCopy fuel v = v := by
  induction fuel with
  | zero => intro v _; rfl
  | succ fuel ih =>
    intro v hv
    rcases v with _ | _ | b | n | st | xs | f
    · rfl
    · cases (show false = true from hv)
    · rfl
    · rfl
    · rfl
    · have hxs : ∀ x ∈ xs, noNullIn fuel x = true :=
        List.all_eq_true.mp (show xs.all (fun x => noNullIn fuel x) = true from hv)
      show Value.varr (xs.map (fun x => deepCopy fuel x)) = Value.varr xs
      have hmap : ∀ (l : List Value), (∀ x ∈ l, noNullIn fuel x = true) →
          l.map (fun x => deepCopy fuel x) = l := by
        intro l
        induction l with
        | nil => intro _; rfl
        | cons x rest ihx =>
          intro hl
          rw [List.map_cons, ih x (hl x (List.mem_cons_self _ _)),
            ihx (fun y hy => hl y (List.mem_cons_of_mem _ hy))]
      rw [hmap xs hxs]
    · have hf : ∀ p ∈ f, noNullIn fuel p.2 = true :=
        List.all_eq_true.mp (show f.all (fun p => noNullIn fuel p.2) = true from hv)
      show Value.vobj (f.map (fun p => (p.1, deepCopy fuel p.2))) = Value.vobj f
      have hmap : ∀ (l : List (Str × Value)), (∀ p ∈ l, noNullIn fuel p.2 = true) →
          l.map (fun p => (p.1, deepCopy fuel p.2)) = l := by
        intro l
        induction l with
        | nil => intro _; rfl
        | cons p rest ihp =>
          intro hl
          rw [List.map_cons, ih p.2 (hl p (List.mem_cons_self _ _)),
            ihp (fun q hq => hl q (List.mem_cons_of_mem _ hq))]
      rw [hmap f hf]

/-- C10 (counterexample): `get` on an entity whose stored snapshot is
`{x: null}` returns `{x: {}}` — `deepCopy` rebuilds `null` as an empty
object — which the program's own `equals` distinguishes from the stored
snapshot, so the result is not a copy of it. -/
theorem C10_deepcopy_null_divergence :
    sp_get 10 { store := [([97], { object := .vobj [([120], .vnull)] })] } [97]
      = .vobj [([120], .vobj [])]
    ∧ equalsV 10 (.vobj [([120], .vobj [])]) (.vobj [([120], .vnull)]) = false :=
  ⟨rfl, rfl⟩

/-- C10 (amended): `get(id)` returns `null` when `id` is absent from the
store, and the exact stored server-confirmed snapshot (so, since the
embedding is pure and `deepCopy` rebuilds the value, an alias-free copy)
whenever that snapshot is null-free within the copying depth. -/
theorem C10_amended (fuel : Nat) (st : SpState) (id : Str) :
    (st.store.find? (fun p => p.1 == id) = none → sp_get fuel st id = .vnull)
    ∧ (∀ pr, st.store.find? (fun p => p.1 == id) = some pr →
        noNullIn fuel pr.2.object = true →
        sp_get fuel st id = pr.2.object) := by
  constructor
  · intro h
    unfold sp_get
    rw [h]
  · intro pr hpr hnn
    unfold sp_get
    rw [hpr]
    simp only []
    rw [deepCopy_id fuel pr.2.object hnn]

/-- C10 witness: a store with one null-free entity and one absent id. -/
theorem C10_amended_witness :
    sp_get 3 { store := [([97], { object := .vobj [([121], .vnum 7)] })] } [98] = .vnull
    ∧ sp_get 3 { store := [([97], { object := .vobj [([121], .vnum 7)] })] } [97]
      = .vobj [([121], .vnum 7)] :=
  ⟨(C10_amended 3 { store := [([97], { object := .vobj [([121], .vnum 7)] })] } [98]).1
      (by rfl),
   (C10_amended 3 { store := [([97], { object := .vobj [([121], .vnum 7)] })] } [97]).2
      ([97], { object := .vobj [([121], .vnum 7)] }) (by rfl) (by decide)⟩
